import Mathlib

/-!
# ELF loader of the AIE run-time driver (`driver/src/core/xaie_elfloader.c`)

A shallow embedding of the address resolver `_XAie_GetTargetTileLoc` and of the
section writer `_XAie_WriteProgramSection`, followed by theorems about them.

Conventions of the embedding.

* Machine integers are natural numbers; every C operation that can leave the range
  of its type is followed by an explicit reduction (`u8`, `u32`, `u64`).
* The C functions call `XAieGbl_Write32` and `_XAie_GetTargetTileLoc`; the embedding
  records these calls, in order, in a list of `Event`s.
* The C loops are modelled by recursion on a bound `fuel` on the number of iterations
  of each loop; a run that needs more iterations than `fuel` ends with `RC = none`.
  Theorems that say the code returns give a bound on the fuel that suffices.
-/

namespace XAie

/-! ## Machine integers -/

/-- Conversion to `u8` (C conversion to an 8-bit unsigned integer). -/
def u8 (x : Nat) : Nat := x % 2 ^ 8

/-- Conversion to `u32`. -/
def u32 (x : Nat) : Nat := x % 2 ^ 32

/-- Conversion to `u64`. -/
def u64 (x : Nat) : Nat := x % 2 ^ 64

/-- Subtraction `a - b` of two `u32` values, as C computes it (modulo `2 ^ 32`). -/
def sub32 (a b : Nat) : Nat := (a + (2 ^ 32 - b % 2 ^ 32)) % 2 ^ 32

/-! ## Data model -/

/-- Modelled from the spec: the enumeration `AieRC` of the driver's return codes, declared
in a header (`xaiegbl.h`), restricted to the codes the loader returns. The spec calls
`XAIE_ERR` the address-translation error, `XAIE_INVALID_ELF` InvalidBinary,
`XAIE_INVALID_ARGS` InvalidArgument and `XAIE_INVALID_TILE` InvalidTileType. -/
inductive AieRC where
  | XAIE_OK
  | XAIE_ERR
  | XAIE_INVALID_ARGS
  | XAIE_INVALID_TILE
  | XAIE_INVALID_ELF
  deriving DecidableEq, Repr

/-- Modelled from the spec: the type `XAie_LocType` (TileLocation: row and column,
unsigned grid coordinates), declared in the header `xaiegbl.h`, where `Row` and `Col`
are `u8`. Values of the fields are meant to be below `256`, and every update of a field
reduces modulo `256`. -/
structure XAie_LocType where
  Row : Nat
  Col : Nat
  deriving DecidableEq, Repr

/-- Modelled from the spec: the fields of `XAie_CoreMod` (CoreMemoryLayout) that the
loader reads; the type is declared in a header of the driver, all fields `u32` but the
`u8` flag `IsCheckerBoard`. -/
structure XAie_CoreMod where
  IsCheckerBoard : Nat
  ProgMemSize : Nat
  ProgMemHostOffset : Nat
  DataMemAddr : Nat
  DataMemSize : Nat

/-- Modelled from the spec: the constant `XAIEGBL_TILE_TYPE_AIETILE` of the driver's
headers, the tile type of a processing tile. Only equality with it matters. -/
def XAIEGBL_TILE_TYPE_AIETILE : Nat := 0

/-- Modelled from the spec: the constant `XAIE_COMPONENT_IS_READY` of the driver's
headers, the value of the readiness flag of a device that is ready. -/
def XAIE_COMPONENT_IS_READY : Nat := 1

/-- Modelled from the spec: the type `XAie_DevInst` (DeviceContext), declared in a header
of the driver, restricted to what the loader reads: `BaseAddr` is a `u64`, `NumRows`
and `NumCols` are `u8`. `CoreMod` stands for
`DevProp.DevMod[XAIEGBL_TILE_TYPE_AIETILE].CoreMod`. The two helpers of the driver that
the loader calls and whose code is in another file are parameters of the device:
`GetTileTypefromLoc` is `_XAie_GetTileTypefromLoc` (the tile-type classifier) and
`GetTileAddr` is `_XAie_GetTileAddr` (the offset of a tile in the address space). -/
structure XAie_DevInst where
  BaseAddr : Nat
  IsReady : Nat
  NumRows : Nat
  NumCols : Nat
  CoreMod : XAie_CoreMod
  GetTileTypefromLoc : XAie_LocType → Nat
  GetTileAddr : Nat → Nat → Nat

/-- Modelled from the spec: the program header `Elf32_Phdr` of the ELF format
(LoadableSegment), declared in `elf.h`; every field is a `u32`. -/
structure Elf32_Phdr where
  p_type : Nat
  p_offset : Nat
  p_vaddr : Nat
  p_paddr : Nat
  p_filesz : Nat
  p_memsz : Nat
  p_flags : Nat
  p_align : Nat
  deriving DecidableEq, Repr

/-- Calls made by the section writer, in the order in which they are made:
`resolve Addr` is a call `_XAie_GetTargetTileLoc(DevInst, Loc, Addr, &TgtLoc)` and
`write32 Addr Val` is a call `XAieGbl_Write32(Addr, Val)`. -/
inductive Event where
  | resolve (Addr : Nat)
  | write32 (Addr : Nat) (Val : Nat)
  deriving DecidableEq, Repr

/-- The `u32` read `*((u32 *)(p + off))` from byte memory `p` (little-endian host). -/
def load32 (p : Nat → Nat) (off : Nat) : Nat :=
  p off % 256 + 256 * (p (off + 1) % 256) + 65536 * (p (off + 2) % 256)
    + 16777216 * (p (off + 3) % 256)

instance instDecidableEqExcept {ε α : Type} [DecidableEq ε] [DecidableEq α] :
    DecidableEq (Except ε α)
  | .ok a, .ok b =>
    if h : a = b then isTrue (by rw [h]) else isFalse (fun h' => h (by injection h'))
  | .error a, .error b =>
    if h : a = b then isTrue (by rw [h]) else isFalse (fun h' => h (by injection h'))
  | .ok _, .error _ => isFalse (fun h => by cases h)
  | .error _, .ok _ => isFalse (fun h => by cases h)

/-! ## `_XAie_GetTargetTileLoc` -/

/-- The function `_XAie_GetTargetTileLoc`: the tile that owns data-memory address `Addr`
as seen from tile `Loc`. `CardDir` and `RowParity` are `u8` variables; `moved` is the
value of `Loc` after the `switch`, `none` for its `default` case. The division of the C
code is undefined for `DataMemSize = 0`, where the division used here gives 0. -/
def _XAie_GetTargetTileLoc (DevInst : XAie_DevInst) (Loc : XAie_LocType) (Addr : Nat) :
    Except AieRC XAie_LocType :=
  let CoreMod := DevInst.CoreMod
  let CardDir := u8 (Addr / CoreMod.DataMemSize)
  let RowParity := if CoreMod.IsCheckerBoard = 0 then 1 else u8 (Loc.Row % 2)
  let moved : Option XAie_LocType :=
    if CardDir = 4 then some { Loc with Row := u8 (Loc.Row + 255) }
    else if CardDir = 5 then
      (if RowParity = 1 then some { Loc with Col := u8 (Loc.Col + 255) } else some Loc)
    else if CardDir = 6 then some { Loc with Row := u8 (Loc.Row + 1) }
    else if CardDir = 7 then
      (if RowParity = 0 then some { Loc with Col := u8 (Loc.Col + 1) } else some Loc)
    else none
  match moved with
  | none => .error AieRC.XAIE_ERR
  | some Tgt =>
    if Tgt.Row ≥ DevInst.NumRows ∨ Tgt.Col ≥ DevInst.NumCols then .error AieRC.XAIE_ERR
    else if DevInst.GetTileTypefromLoc Tgt ≠ XAIEGBL_TILE_TYPE_AIETILE then
      .error AieRC.XAIE_ERR
    else .ok Tgt

/-! ## `_XAie_WriteProgramSection` -/

/-- The word loops of the writer, all of the shape
`for(u32 i = 0U; i < n; i += 4U) { XAieGbl_Write32(Addr + i, word); ... }`.
`i` is the `u32` loop counter and `cnt` the number of iterations made so far; `val i cnt`
is the word written by the iteration. `Addr + i` is a `u64` sum. The result tells
whether the loop ended within `fuel` iterations, with the calls it made. -/
def writeWords (val : Nat → Nat → Nat) (Addr n : Nat) : Nat → Nat → Nat → Bool × List Event
  | 0, _, _ => (false, [])
  | fuel + 1, i, cnt =>
    if i < n then
      let r := writeWords val Addr n fuel (u32 (i + 4)) (cnt + 1)
      (r.1, Event.write32 (u64 (Addr + i)) (val i cnt) :: r.2)
    else (true, [])

/-- How a `while` loop of the writer is left: the condition became false (`done`), a
`return RC` in the body (`ret RC`), or the bound on the iterations was reached. -/
inductive LoopExit where
  | done
  | ret (RC : AieRC)
  | fuel
  deriving DecidableEq, Repr

/-- The two `while(SectionSize > 0U)` loops of the writer, which differ in the word they
write only: `word off` is the word for the bytes at offset `off` from the value `ProgSec`
had on entry to the loop (`*((u32 *)ProgSec)` followed by `ProgSec += 4U` in the loop of
the initialized section, `0U` in the loop of the un-initialized section).
`SectionSize`, `SectionAddr`, `AddrMask`, `OverFlowBytes` and `BytesToWrite` are `u32`,
`Addr` is `u64`. The first argument bounds the iterations of the inner loop, the
second those of the `while` loop. -/
def sectionLoop (DevInst : XAie_DevInst) (Loc : XAie_LocType) (word : Nat → Nat)
    (fuel : Nat) : Nat → Nat → Nat → Nat → LoopExit × List Event
  | 0, _, _, _ => (LoopExit.fuel, [])
  | n + 1, SectionSize, SectionAddr, off =>
    if SectionSize > 0 then
      match _XAie_GetTargetTileLoc DevInst Loc SectionAddr with
      | .error RC => (LoopExit.ret RC, [Event.resolve SectionAddr])
      | .ok TgtLoc =>
        let CoreMod := DevInst.CoreMod
        let AddrMask := sub32 CoreMod.DataMemSize 1
        let OverFlowBytes :=
          if u32 ((SectionAddr &&& AddrMask) + SectionSize) > CoreMod.DataMemSize then
            sub32 (u32 ((SectionAddr &&& AddrMask) + SectionSize)) CoreMod.DataMemSize
          else 0
        let BytesToWrite := sub32 SectionSize OverFlowBytes
        let Addr := u64 (u64 (DevInst.BaseAddr + (SectionAddr &&& AddrMask))
          + DevInst.GetTileAddr TgtLoc.Row TgtLoc.Col)
        let w := writeWords (fun _ cnt => word (off + 4 * cnt)) Addr BytesToWrite fuel 0 0
        if w.1 then
          let r := sectionLoop DevInst Loc word fuel n (sub32 SectionSize BytesToWrite)
            (u32 (SectionAddr + BytesToWrite)) (off + 4 * w.2.length)
          (r.1, Event.resolve SectionAddr :: (w.2 ++ r.2))
        else (LoopExit.fuel, Event.resolve SectionAddr :: w.2)
    else (LoopExit.done, [])

/-- Result of a run of the writer: the code returned (`none` when a loop needs more
iterations than the bound given) and the calls made, in order. -/
structure Outcome where
  RC : Option AieRC
  Trace : List Event
  deriving DecidableEq, Repr

/-- The function `_XAie_WriteProgramSection`. `ProgSec i` is the byte at `ProgSec + i`;
`fuel` bounds the iterations of each loop. -/
def _XAie_WriteProgramSection (fuel : Nat) (DevInst : XAie_DevInst) (Loc : XAie_LocType)
    (ProgSec : Nat → Nat) (Phdr : Elf32_Phdr) : Outcome :=
  let CoreMod := DevInst.CoreMod
  if Phdr.p_paddr < CoreMod.ProgMemSize then
    if u32 (Phdr.p_paddr + Phdr.p_memsz) > CoreMod.ProgMemSize then
      ⟨some AieRC.XAIE_INVALID_ELF, []⟩
    else
      let Addr := u64 (u64 (u64 (DevInst.BaseAddr + CoreMod.ProgMemHostOffset) + Phdr.p_paddr)
        + DevInst.GetTileAddr Loc.Row Loc.Col)
      let w := writeWords (fun i _ => load32 ProgSec i) Addr Phdr.p_memsz fuel 0 0
      ⟨if w.1 then some AieRC.XAIE_OK else none, w.2⟩
  else if (Phdr.p_paddr > CoreMod.ProgMemSize ∧ Phdr.p_paddr < CoreMod.DataMemAddr) ∨
      u32 (Phdr.p_paddr + Phdr.p_memsz) >
        u32 (CoreMod.DataMemAddr + u32 (CoreMod.DataMemSize * 4)) then
    ⟨some AieRC.XAIE_INVALID_ELF, []⟩
  else
    match sectionLoop DevInst Loc (load32 ProgSec) fuel fuel Phdr.p_filesz Phdr.p_paddr 0 with
    | (LoopExit.ret RC, t1) => ⟨some RC, t1⟩
    | (LoopExit.fuel, t1) => ⟨none, t1⟩
    | (LoopExit.done, t1) =>
      match sectionLoop DevInst Loc (fun _ => 0) fuel fuel
          (sub32 Phdr.p_memsz Phdr.p_filesz) (u32 (Phdr.p_paddr + Phdr.p_filesz)) 0 with
      | (LoopExit.ret RC, t2) => ⟨some RC, t1 ++ t2⟩
      | (LoopExit.fuel, t2) => ⟨none, t1 ++ t2⟩
      | (LoopExit.done, t2) => ⟨some AieRC.XAIE_OK, t1 ++ t2⟩

/-! ## Device memory and a concrete device -/

/-- Device memory as a map from physical address to byte, after `XAieGbl_Write32(a, v)`:
the four bytes of `v` are stored at `a`, ..., `a + 3`, least significant first. -/
def store32 (mem : Nat → Nat) (a v : Nat) : Nat → Nat := fun x =>
  if x = a then v % 256
  else if x = a + 1 then v / 256 % 256
  else if x = a + 2 then v / 65536 % 256
  else if x = a + 3 then v / 16777216 % 256
  else mem x

/-- Device memory after the calls of a trace, made in order. -/
def applyTrace : List Event → (Nat → Nat) → Nat → Nat
  | [], mem => mem
  | Event.resolve _ :: t, mem => applyTrace t mem
  | Event.write32 a v :: t, mem => applyTrace t (store32 mem a v)

/-- The word writes of a trace. -/
def writesOf : List Event → List (Nat × Nat)
  | [] => []
  | Event.resolve _ :: t => writesOf t
  | Event.write32 a v :: t => (a, v) :: writesOf t

/-- The addresses passed to the resolver in a trace. -/
def resolvesOf : List Event → List Nat
  | [] => []
  | Event.resolve a :: t => a :: resolvesOf t
  | Event.write32 _ _ :: t => resolvesOf t

/-- Tile types of an array whose row 0 is the interface row and whose rows 1 to 8 are
processing tiles, as `_XAie_GetTileTypefromLoc` computes them for 50 columns. -/
def aieTileType (Loc : XAie_LocType) : Nat :=
  if Loc.Col ≥ 50 then 4
  else if Loc.Row = 0 then (if Loc.Col % 4 = 0 ∨ Loc.Col % 4 = 1 then 2 else 1)
  else if 1 ≤ Loc.Row ∧ Loc.Row < 9 then 0
  else 4

/-- A device with the memory layout of the first AIE generation: 16 KB of program
memory, 32 KB of data memory per tile, data memory at `0x20000`, checkerboard, 9 rows
and 50 columns, tile address `(Row << 18) | (Col << 23)`. -/
def aieDev : XAie_DevInst where
  BaseAddr := 0x20000000000
  IsReady := 1
  NumRows := 9
  NumCols := 50
  CoreMod :=
    { IsCheckerBoard := 1, ProgMemSize := 0x4000, ProgMemHostOffset := 0x20000,
      DataMemAddr := 0x20000, DataMemSize := 0x8000 }
  GetTileTypefromLoc := aieTileType
  GetTileAddr := fun R C => (R <<< 18) ||| (C <<< 23)

/-- The same device without the checkerboard placement. -/
def flatDev : XAie_DevInst :=
  { aieDev with CoreMod := { aieDev.CoreMod with IsCheckerBoard := 0 } }

/-- Byte memory holding the byte `i % 256` at offset `i`. -/
def rampBytes : Nat → Nat := fun i => i % 256

/-- A loadable program header with the given address and sizes. -/
def mkPhdr (paddr filesz memsz : Nat) : Elf32_Phdr :=
  { p_type := 1, p_offset := 0, p_vaddr := paddr, p_paddr := paddr, p_filesz := filesz,
    p_memsz := memsz, p_flags := 0, p_align := 4 }

/-- Device address at which the loops of the writer store the word of section address
`a`: `BaseAddr + (a & AddrMask) + _XAie_GetTileAddr(TgtLoc)` as a `u64`, with `TgtLoc` the
tile the resolver returns for `a` (and 0 when the resolver fails). -/
def dataAddr (DevInst : XAie_DevInst) (Loc : XAie_LocType) (a : Nat) : Nat :=
  match _XAie_GetTargetTileLoc DevInst Loc a with
  | .ok TgtLoc =>
    u64 (u64 (DevInst.BaseAddr + (a &&& sub32 DevInst.CoreMod.DataMemSize 1))
      + DevInst.GetTileAddr TgtLoc.Row TgtLoc.Col)
  | .error _ => 0

/-- Number of word writes at the head of a trace. -/
def leadWrites : List Event → Nat
  | Event.write32 _ _ :: t => leadWrites t + 1
  | _ => 0

/-- The chunks of a trace: for every call of the resolver, the address resolved and the
number of bytes written by the word writes that follow it, up to the next call of the
resolver. -/
def chunksOf : List Event → List (Nat × Nat)
  | [] => []
  | Event.resolve a :: t => (a, 4 * leadWrites t) :: chunksOf t
  | Event.write32 _ _ :: t => chunksOf t

/-- Two locations that differ by exactly 1 in exactly one coordinate. -/
def Adjacent (a b : XAie_LocType) : Prop :=
  (a.Row = b.Row ∧ (a.Col + 1 = b.Col ∨ b.Col + 1 = a.Col)) ∨
  (a.Col = b.Col ∧ (a.Row + 1 = b.Row ∨ b.Row + 1 = a.Row))

instance (a b : XAie_LocType) : Decidable (Adjacent a b) := by
  unfold Adjacent; infer_instance

/-! ## `XAie_LoadElfMem` -/

/-- The `u16` read `*((u16 *)(p + off))` from byte memory `p` (little-endian host). -/
def load16 (p : Nat → Nat) (off : Nat) : Nat :=
  p off % 256 + 256 * (p (off + 1) % 256)

/-- Modelled from the spec: `sizeof(Elf32_Ehdr)`, the size of the ELF header that `elf.h`
declares (the fixed-size header of the BinaryImage). -/
def sizeof_Elf32_Ehdr : Nat := 52

/-- Modelled from the spec: `sizeof(Elf32_Phdr)`, the size of a program header that
`elf.h` declares (a segment descriptor). -/
def sizeof_Elf32_Phdr : Nat := 32

/-- Modelled from the spec: the constant `PT_LOAD` of `elf.h`, the type of a loadable
segment. -/
def PT_LOAD : Nat := 1

/-- The field `e_phnum` of the ELF header at `ElfMem`: a `u16` at offset 44 (the segment
count). -/
def e_phnum (ElfMem : Nat → Nat) : Nat := load16 ElfMem 44

/-- The field `e_phoff` of the ELF header at `ElfMem`: a `u32` at offset 28 (the
segment-table offset recorded in the header). -/
def e_phoff (ElfMem : Nat → Nat) : Nat := load32 ElfMem 28

/-- The program header `*((Elf32_Phdr *)(ElfMem + off))`: eight `u32` fields. -/
def readPhdr (ElfMem : Nat → Nat) (off : Nat) : Elf32_Phdr :=
  { p_type := load32 ElfMem off, p_offset := load32 ElfMem (off + 4),
    p_vaddr := load32 ElfMem (off + 8), p_paddr := load32 ElfMem (off + 12),
    p_filesz := load32 ElfMem (off + 16), p_memsz := load32 ElfMem (off + 20),
    p_flags := load32 ElfMem (off + 24), p_align := load32 ElfMem (off + 28) }

/-- Result of a run of the loader: the code returned (`none` when a loop needs more
iterations than the bound given); the offsets from `ElfMem` of the program headers
read, in order; the calls `_XAie_WriteProgramSection(DevInst, Loc, ElfMem + off, Phdr)`
made, in order, as pairs `(off, Phdr)`; and the calls made by the writer, in order. -/
structure LoadOutcome where
  RC : Option AieRC
  Phdrs : List Nat
  Calls : List (Nat × Elf32_Phdr)
  Trace : List Event
  deriving DecidableEq, Repr

/-- The loop `for(u8 phnum = 0U; phnum < Ehdr->e_phnum; phnum++)` of `XAie_LoadElfMem`,
entered with the value `phnum` of the `u8` counter. The first argument bounds the
iterations of the loops of the writer, the argument after `ElfMem` those of this loop. -/
def loadLoop (fuel : Nat) (DevInst : XAie_DevInst) (Loc : XAie_LocType)
    (ElfMem : Nat → Nat) : Nat → Nat → LoadOutcome
  | 0, _ => ⟨none, [], [], []⟩
  | n + 1, phnum =>
    if phnum < e_phnum ElfMem then
      let off := sizeof_Elf32_Ehdr + phnum * sizeof_Elf32_Phdr
      let Phdr := readPhdr ElfMem off
      if Phdr.p_type = PT_LOAD then
        let r := _XAie_WriteProgramSection fuel DevInst Loc
          (fun i => ElfMem (Phdr.p_offset + i)) Phdr
        match r.RC with
        | some AieRC.XAIE_OK =>
          let rest := loadLoop fuel DevInst Loc ElfMem n (u8 (phnum + 1))
          ⟨rest.RC, off :: rest.Phdrs, (Phdr.p_offset, Phdr) :: rest.Calls,
            r.Trace ++ rest.Trace⟩
        | some RC => ⟨some RC, [off], [(Phdr.p_offset, Phdr)], r.Trace⟩
        | none => ⟨none, [off], [(Phdr.p_offset, Phdr)], r.Trace⟩
      else
        let rest := loadLoop fuel DevInst Loc ElfMem n (u8 (phnum + 1))
        ⟨rest.RC, off :: rest.Phdrs, rest.Calls, rest.Trace⟩
    else ⟨some AieRC.XAIE_OK, [], [], []⟩

/-- The function `XAie_LoadElfMem`. A pointer argument is `none` when it is `XAIE_NULL`;
`ElfMem i` is the byte at `ElfMem + i`, whatever the size `ElfSz` announced; `fuel`
bounds the iterations of each loop. -/
def XAie_LoadElfMem (fuel : Nat) (DevInst : Option XAie_DevInst) (Loc : XAie_LocType)
    (ElfMem : Option (Nat → Nat)) (ElfSz : Nat) : LoadOutcome :=
  match DevInst, ElfMem, ElfSz with
  | none, _, _ => ⟨some AieRC.XAIE_INVALID_ARGS, [], [], []⟩
  | some _, none, _ => ⟨some AieRC.XAIE_INVALID_ARGS, [], [], []⟩
  | some Dev, some Mem, _ =>
    if Dev.IsReady ≠ XAIE_COMPONENT_IS_READY then ⟨some AieRC.XAIE_INVALID_ARGS, [], [], []⟩
    else if Dev.GetTileTypefromLoc Loc ≠ XAIEGBL_TILE_TYPE_AIETILE then
      ⟨some AieRC.XAIE_INVALID_TILE, [], [], []⟩
    else loadLoop fuel Dev Loc Mem fuel 0

/-- The `i`-th program header of the table the loader reads: the one at
`ElfMem + sizeof(Elf32_Ehdr) + i * sizeof(Elf32_Phdr)`. -/
def phdrAt (ElfMem : Nat → Nat) (i : Nat) : Elf32_Phdr :=
  readPhdr ElfMem (sizeof_Elf32_Ehdr + i * sizeof_Elf32_Phdr)

/-- The run of the writer for the `i`-th program header `Phdr` of the table:
`_XAie_WriteProgramSection(DevInst, Loc, ElfMem + Phdr->p_offset, Phdr)`. -/
def sectionRun (fuel : Nat) (DevInst : XAie_DevInst) (Loc : XAie_LocType)
    (ElfMem : Nat → Nat) (i : Nat) : Outcome :=
  _XAie_WriteProgramSection fuel DevInst Loc
    (fun k => ElfMem ((phdrAt ElfMem i).p_offset + k)) (phdrAt ElfMem i)

/-! ## Concrete binaries -/

/-- The bytes of a `u16`, least significant first. -/
def le16 (v : Nat) : List Nat := [v % 256, v / 256 % 256]

/-- The bytes of a `u32`, least significant first. -/
def le32 (v : Nat) : List Nat := [v % 256, v / 256 % 256, v / 65536 % 256, v / 16777216 % 256]

/-- The 32 bytes of a program header. -/
def phdrBytes (P : Elf32_Phdr) : List Nat :=
  le32 P.p_type ++ le32 P.p_offset ++ le32 P.p_vaddr ++ le32 P.p_paddr ++
    le32 P.p_filesz ++ le32 P.p_memsz ++ le32 P.p_flags ++ le32 P.p_align

/-- The 52 bytes of an ELF header with the given `e_phoff` and `e_phnum`, all other
fields 0. -/
def ehdrBytes (phoff phnum : Nat) : List Nat :=
  List.replicate 28 0 ++ le32 phoff ++ List.replicate 12 0 ++ le16 phnum ++ List.replicate 6 0

/-- A binary in memory: an ELF header, the given program headers right after it, and
the bytes of `payload` everywhere else. -/
def mkElf (phoff phnum : Nat) (phdrs : List Elf32_Phdr) (payload : Nat → Nat) : Nat → Nat :=
  fun i =>
    if i < (ehdrBytes phoff phnum ++ (phdrs.map phdrBytes).flatten).length then
      (ehdrBytes phoff phnum ++ (phdrs.map phdrBytes).flatten).getD i 0
    else payload i

/-- A program header with the given type, file offset, address and sizes. -/
def mkPhdrAt (type offset paddr filesz memsz : Nat) : Elf32_Phdr :=
  { p_type := type, p_offset := offset, p_vaddr := paddr, p_paddr := paddr,
    p_filesz := filesz, p_memsz := memsz, p_flags := 0, p_align := 4 }

/-- Memory that holds a segment count `e_phnum = 256` and zero everywhere else: no
program header read from it is loadable. -/
def elf256 : Nat → Nat := fun i => if i = 45 then 1 else 0

/-- Memory that holds a segment count `e_phnum = 257`, at offset `52 + 256 * 32 = 8244`
a loadable program header with `p_paddr = 0` and `p_memsz = 0x8000`, and zero
everywhere else. -/
def elf257 : Nat → Nat := fun i =>
  if i = 44 then 1 else if i = 45 then 1 else if i = 8244 then 1
  else if i = 8265 then 128 else 0

/-- A device like `aieDev` whose program memory, of 20 KB, reaches into the data-memory
addresses: banks of 4 KB and data memory at `0x4000 = 4 * 0x1000`. -/
def overlapDev : XAie_DevInst :=
  { aieDev with
    CoreMod :=
      { IsCheckerBoard := 1, ProgMemSize := 0x5000, ProgMemHostOffset := 0x20000,
        DataMemAddr := 0x4000, DataMemSize := 0x1000 } }

/-- A binary of two loadable segments: a program header table at offset 52 with a
program segment (`p_paddr = 0`, `p_filesz = p_memsz = 256`, bytes at file offset
`0x100`) and a data segment (`p_paddr = base`, `p_filesz = 64`, `p_memsz = 128`, bytes at
file offset `0x200`), over the bytes of `rampBytes`. -/
def elfTwo (base : Nat) : Nat → Nat :=
  mkElf 52 2 [mkPhdrAt 1 0x100 0 256 256, mkPhdrAt 1 0x200 base 64 128] rampBytes

/-! ## Theorems on `_XAie_GetTargetTileLoc` -/

theorem u8_of_lt {x : Nat} (h : x < 256) : u8 x = x := by
  unfold u8; omega

theorem u8_pred {x : Nat} (h1 : 1 ≤ x) (h2 : x < 256) : u8 (x + 255) = x - 1 := by
  unfold u8; omega

/-- What a successful run of the resolver has checked and which branch it took. -/
theorem GetTargetTileLoc_ok {DevInst : XAie_DevInst} {Loc T : XAie_LocType} {Addr : Nat}
    (h : _XAie_GetTargetTileLoc DevInst Loc Addr = .ok T) :
    T.Row < DevInst.NumRows ∧ T.Col < DevInst.NumCols ∧
    DevInst.GetTileTypefromLoc T = XAIEGBL_TILE_TYPE_AIETILE ∧
    ((u8 (Addr / DevInst.CoreMod.DataMemSize) = 4 ∧ T = ⟨u8 (Loc.Row + 255), Loc.Col⟩) ∨
     (u8 (Addr / DevInst.CoreMod.DataMemSize) = 5 ∧
        (DevInst.CoreMod.IsCheckerBoard = 0 ∨ u8 (Loc.Row % 2) = 1) ∧
        T = ⟨Loc.Row, u8 (Loc.Col + 255)⟩) ∨
     (u8 (Addr / DevInst.CoreMod.DataMemSize) = 5 ∧
        DevInst.CoreMod.IsCheckerBoard ≠ 0 ∧ u8 (Loc.Row % 2) ≠ 1 ∧ T = Loc) ∨
     (u8 (Addr / DevInst.CoreMod.DataMemSize) = 6 ∧ T = ⟨u8 (Loc.Row + 1), Loc.Col⟩) ∨
     (u8 (Addr / DevInst.CoreMod.DataMemSize) = 7 ∧
        DevInst.CoreMod.IsCheckerBoard ≠ 0 ∧ u8 (Loc.Row % 2) = 0 ∧
        T = ⟨Loc.Row, u8 (Loc.Col + 1)⟩) ∨
     (u8 (Addr / DevInst.CoreMod.DataMemSize) = 7 ∧
        (DevInst.CoreMod.IsCheckerBoard = 0 ∨ u8 (Loc.Row % 2) ≠ 0) ∧ T = Loc)) := by
  unfold _XAie_GetTargetTileLoc at h
  simp only at h
  split at h
  · cases h
  · rename_i Tgt hmoved
    split_ifs at h with hgrid htype
    injection h with h
    subst h
    refine ⟨by omega, by omega, by simpa using htype, ?_⟩
    split_ifs at hmoved <;> injection hmoved with hmoved <;> subst hmoved <;> simp_all

/-- C4: on a checkerboard device a West address (cardinal code 5) resolves, from an odd
row, to `(row, column - 1)` when that tile is an in-grid processing tile, and, from an
even row, to the origin when the origin is an in-grid processing tile. -/
theorem GetTargetTileLoc_west_checkerboard (DevInst : XAie_DevInst) (Loc : XAie_LocType)
    (Addr : Nat) (hcb : DevInst.CoreMod.IsCheckerBoard ≠ 0)
    (hcard : Addr / DevInst.CoreMod.DataMemSize = 5) :
    (Loc.Row % 2 = 1 → 1 ≤ Loc.Col → Loc.Col < 256 →
      Loc.Row < DevInst.NumRows → Loc.Col - 1 < DevInst.NumCols →
      DevInst.GetTileTypefromLoc ⟨Loc.Row, Loc.Col - 1⟩ = XAIEGBL_TILE_TYPE_AIETILE →
      _XAie_GetTargetTileLoc DevInst Loc Addr = .ok ⟨Loc.Row, Loc.Col - 1⟩) ∧
    (Loc.Row % 2 = 0 →
      Loc.Row < DevInst.NumRows → Loc.Col < DevInst.NumCols →
      DevInst.GetTileTypefromLoc Loc = XAIEGBL_TILE_TYPE_AIETILE →
      _XAie_GetTargetTileLoc DevInst Loc Addr = .ok Loc) := by
  constructor
  · intro hodd hc1 hc2 hr hc ht
    have hp : u8 (Loc.Row % 2) = 1 := by rw [hodd]; rfl
    have hcol : u8 (Loc.Col + 255) = Loc.Col - 1 := u8_pred hc1 hc2
    simp [_XAie_GetTargetTileLoc, hcard, hcb, hp, hcol, u8_of_lt, ht, hr, hc]
  · intro heven hr hc ht
    have hp : u8 (Loc.Row % 2) = 0 := by rw [heven]; rfl
    simp [_XAie_GetTargetTileLoc, hcard, hcb, hp, u8_of_lt, ht, hr, hc]

/-- Witness of C4 on the device `aieDev`: from the odd row 3 the West bank belongs to
the tile on the left, from the even row 2 to the origin. -/
theorem GetTargetTileLoc_west_checkerboard_witness :
    _XAie_GetTargetTileLoc aieDev ⟨3, 1⟩ 0x28000 = .ok ⟨3, 0⟩ ∧
    _XAie_GetTargetTileLoc aieDev ⟨2, 1⟩ 0x28000 = .ok ⟨2, 1⟩ :=
  ⟨(GetTargetTileLoc_west_checkerboard aieDev ⟨3, 1⟩ 0x28000 (by decide) (by decide)).1
      (by decide) (by decide) (by decide) (by decide) (by decide) (by decide),
   (GetTargetTileLoc_west_checkerboard aieDev ⟨2, 1⟩ 0x28000 (by decide) (by decide)).2
      (by decide) (by decide) (by decide) (by decide)⟩

/-- C5: on a checkerboard device an East address (cardinal code 7) resolves, from an even
row, to `(row, column + 1)` when that tile is an in-grid processing tile, and, from an
odd row, to the origin when the origin is an in-grid processing tile. The number of
columns is a `u8`. -/
theorem GetTargetTileLoc_east_checkerboard (DevInst : XAie_DevInst) (Loc : XAie_LocType)
    (Addr : Nat) (hcb : DevInst.CoreMod.IsCheckerBoard ≠ 0)
    (hcols : DevInst.NumCols < 256)
    (hcard : Addr / DevInst.CoreMod.DataMemSize = 7) :
    (Loc.Row % 2 = 0 →
      Loc.Row < DevInst.NumRows → Loc.Col + 1 < DevInst.NumCols →
      DevInst.GetTileTypefromLoc ⟨Loc.Row, Loc.Col + 1⟩ = XAIEGBL_TILE_TYPE_AIETILE →
      _XAie_GetTargetTileLoc DevInst Loc Addr = .ok ⟨Loc.Row, Loc.Col + 1⟩) ∧
    (Loc.Row % 2 = 1 →
      Loc.Row < DevInst.NumRows → Loc.Col < DevInst.NumCols →
      DevInst.GetTileTypefromLoc Loc = XAIEGBL_TILE_TYPE_AIETILE →
      _XAie_GetTargetTileLoc DevInst Loc Addr = .ok Loc) := by
  constructor
  · intro heven hr hc ht
    have hp : u8 (Loc.Row % 2) = 0 := by rw [heven]; rfl
    have hcol : u8 (Loc.Col + 1) = Loc.Col + 1 := u8_of_lt (by omega)
    simp [_XAie_GetTargetTileLoc, hcard, hcb, hp, hcol, u8_of_lt, ht, hr, hc]
  · intro hodd hr hc ht
    have hp : u8 (Loc.Row % 2) = 1 := by rw [hodd]; rfl
    simp [_XAie_GetTargetTileLoc, hcard, hcb, hp, u8_of_lt, ht, hr, hc]

/-- Witness of C5 on the device `aieDev`: from the even row 2 the East bank belongs to
the tile on the right, from the odd row 3 to the origin. -/
theorem GetTargetTileLoc_east_checkerboard_witness :
    _XAie_GetTargetTileLoc aieDev ⟨2, 1⟩ 0x38000 = .ok ⟨2, 2⟩ ∧
    _XAie_GetTargetTileLoc aieDev ⟨3, 1⟩ 0x38000 = .ok ⟨3, 1⟩ :=
  ⟨(GetTargetTileLoc_east_checkerboard aieDev ⟨2, 1⟩ 0x38000 (by decide) (by decide)
      (by decide)).1 (by decide) (by decide) (by decide) (by decide),
   (GetTargetTileLoc_east_checkerboard aieDev ⟨3, 1⟩ 0x38000 (by decide) (by decide)
      (by decide)).2 (by decide) (by decide) (by decide) (by decide)⟩

/-- C6: on a device without checkerboard placement the row parity plays no part. For
every origin (with `u8` coordinates, on a grid whose number of columns is a `u8`), when
resolution succeeds a West address (cardinal code 5) resolves to `(row, column - 1)` and
an East address (cardinal code 7) to the origin; and on an odd row the result is, for
every address, the one of the same device with checkerboard placement. -/
theorem GetTargetTileLoc_no_checkerboard (DevInst : XAie_DevInst) (Loc : XAie_LocType)
    (Addr : Nat) (hcb : DevInst.CoreMod.IsCheckerBoard = 0)
    (hcol : Loc.Col < 256) (hcols : DevInst.NumCols < 256) :
    (Addr / DevInst.CoreMod.DataMemSize = 5 →
      ∀ T, _XAie_GetTargetTileLoc DevInst Loc Addr = .ok T →
        1 ≤ Loc.Col ∧ T = ⟨Loc.Row, Loc.Col - 1⟩) ∧
    (Addr / DevInst.CoreMod.DataMemSize = 7 →
      ∀ T, _XAie_GetTargetTileLoc DevInst Loc Addr = .ok T → T = Loc) ∧
    (Loc.Row % 2 = 1 →
      _XAie_GetTargetTileLoc DevInst Loc Addr =
        _XAie_GetTargetTileLoc
          { DevInst with CoreMod := { DevInst.CoreMod with IsCheckerBoard := 1 } } Loc Addr) := by
  refine ⟨?_, ?_, ?_⟩
  · intro hcard T hT
    obtain ⟨-, hTc, -, hbr⟩ := GetTargetTileLoc_ok hT
    rw [hcard] at hbr
    have h5 : u8 5 = 5 := rfl
    rcases hbr with ⟨h, -⟩ | ⟨-, -, rfl⟩ | ⟨-, h, -⟩ | ⟨h, -⟩ | ⟨h, -⟩ | ⟨h, -⟩
    · rw [h5] at h; omega
    · simp only [u8] at hTc ⊢
      refine ⟨by omega, ?_⟩
      congr 1
      omega
    · exact absurd hcb h
    · rw [h5] at h; omega
    · rw [h5] at h; omega
    · rw [h5] at h; omega
  · intro hcard T hT
    obtain ⟨-, -, -, hbr⟩ := GetTargetTileLoc_ok hT
    rw [hcard] at hbr
    have h7 : u8 7 = 7 := rfl
    rcases hbr with ⟨h, -⟩ | ⟨h, -⟩ | ⟨h, -⟩ | ⟨h, -⟩ | ⟨-, h, -⟩ | ⟨-, -, rfl⟩
    · rw [h7] at h; omega
    · rw [h7] at h; omega
    · rw [h7] at h; omega
    · rw [h7] at h; omega
    · exact absurd hcb h
    · rfl
  · intro hodd
    have hp : u8 (Loc.Row % 2) = 1 := by rw [hodd]; rfl
    simp [_XAie_GetTargetTileLoc, hcb, hp]

/-- Witness of C6 on the device `flatDev`, from the even row 2. -/
theorem GetTargetTileLoc_no_checkerboard_witness :
    (1 ≤ (1 : Nat) ∧ (⟨2, 0⟩ : XAie_LocType) = ⟨2, 1 - 1⟩) ∧
    _XAie_GetTargetTileLoc flatDev ⟨3, 1⟩ 0x38000 =
      _XAie_GetTargetTileLoc
        { flatDev with CoreMod := { flatDev.CoreMod with IsCheckerBoard := 1 } } ⟨3, 1⟩ 0x38000 :=
  ⟨(GetTargetTileLoc_no_checkerboard flatDev ⟨2, 1⟩ 0x28000 (by decide) (by decide)
      (by decide)).1 (by decide) ⟨2, 0⟩ (by decide),
   (GetTargetTileLoc_no_checkerboard flatDev ⟨3, 1⟩ 0x38000 (by decide) (by decide)
      (by decide)).2.2 (by decide)⟩

/-- C7 (the code at the failing input): on `aieDev` the address `0x820000` has cardinal
code `0x820000 / 0x8000 = 260`, which is not one of 4, 5, 6, 7; the `u8` variable
`CardDir` receives `260 % 256 = 4`, and the resolver returns the tile to the South
instead of an error. -/
theorem GetTargetTileLoc_cardinal_truncated :
    (0x820000 : Nat) < 2 ^ 32 ∧
    0x820000 / aieDev.CoreMod.DataMemSize = 260 ∧
    _XAie_GetTargetTileLoc aieDev ⟨2, 1⟩ 0x820000 = .ok ⟨1, 1⟩ := by
  decide

/-- C8: for an origin inside the grid (row below `NumRows`, column below `NumCols`,
both `u8`), a location returned by the resolver is inside the grid, is a processing
tile, and is the origin or differs from it by exactly 1 in exactly one coordinate; a
South address from row 0 and a West address that moves to the adjacent column from
column 0 are answered with `XAIE_ERR`: the `u8` coordinate wraps to 255, which is
outside every grid. -/
theorem GetTargetTileLoc_in_grid_neighbour (DevInst : XAie_DevInst) (Loc : XAie_LocType)
    (Addr : Nat) (hrows : DevInst.NumRows < 256) (hcols : DevInst.NumCols < 256)
    (hr : Loc.Row < DevInst.NumRows) (hc : Loc.Col < DevInst.NumCols) :
    (∀ T, _XAie_GetTargetTileLoc DevInst Loc Addr = .ok T →
      T.Row < DevInst.NumRows ∧ T.Col < DevInst.NumCols ∧
      DevInst.GetTileTypefromLoc T = XAIEGBL_TILE_TYPE_AIETILE ∧
      (T = Loc ∨ Adjacent Loc T)) ∧
    (u8 (Addr / DevInst.CoreMod.DataMemSize) = 4 → Loc.Row = 0 →
      _XAie_GetTargetTileLoc DevInst Loc Addr = .error AieRC.XAIE_ERR) ∧
    (u8 (Addr / DevInst.CoreMod.DataMemSize) = 5 →
      (DevInst.CoreMod.IsCheckerBoard = 0 ∨ Loc.Row % 2 = 1) → Loc.Col = 0 →
      _XAie_GetTargetTileLoc DevInst Loc Addr = .error AieRC.XAIE_ERR) := by
  have hrow : Loc.Row < 255 := by omega
  have hcol : Loc.Col < 255 := by omega
  refine ⟨?_, ?_, ?_⟩
  · intro T hT
    obtain ⟨hTr, hTc, hty, hbr⟩ := GetTargetTileLoc_ok hT
    refine ⟨hTr, hTc, hty, ?_⟩
    rcases hbr with ⟨-, rfl⟩ | ⟨-, -, rfl⟩ | ⟨-, -, -, rfl⟩ | ⟨-, rfl⟩ | ⟨-, -, -, rfl⟩ |
      ⟨-, -, rfl⟩
    · right; right
      refine ⟨rfl, ?_⟩
      simp only [u8] at hTr ⊢
      omega
    · right; left
      refine ⟨rfl, ?_⟩
      simp only [u8] at hTc ⊢
      omega
    · exact Or.inl rfl
    · right; right
      refine ⟨rfl, ?_⟩
      simp only [u8] at hTr ⊢
      omega
    · right; left
      refine ⟨rfl, ?_⟩
      simp only [u8] at hTc ⊢
      omega
    · exact Or.inl rfl
  · intro hcard h0
    have hw : u8 (Loc.Row + 255) = 255 := by rw [h0]; rfl
    have : ¬ (255 < DevInst.NumRows) := by omega
    simp [_XAie_GetTargetTileLoc, hcard, hw, this]
  · intro hcard hpar h0
    have hw : u8 (Loc.Col + 255) = 255 := by rw [h0]; rfl
    have : ¬ (255 < DevInst.NumCols) := by omega
    have hp : (if DevInst.CoreMod.IsCheckerBoard = 0 then 1 else u8 (Loc.Row % 2)) = 1 := by
      rcases hpar with h | h
      · simp [h]
      · rw [h]; split <;> rfl
    simp [_XAie_GetTargetTileLoc, hcard, hw, this, hp]

/-- Witness of C8 on the device `aieDev`, from the tile `(2, 1)`: the South address
`0x20000` resolves to the tile `(1, 1)`. -/
theorem GetTargetTileLoc_in_grid_neighbour_witness :
    ((1 : Nat) < aieDev.NumRows ∧ (1 : Nat) < aieDev.NumCols ∧
      aieDev.GetTileTypefromLoc ⟨1, 1⟩ = XAIEGBL_TILE_TYPE_AIETILE ∧
      ((⟨1, 1⟩ : XAie_LocType) = ⟨2, 1⟩ ∨ Adjacent ⟨2, 1⟩ ⟨1, 1⟩)) :=
  (GetTargetTileLoc_in_grid_neighbour aieDev ⟨2, 1⟩ 0x20000 (by decide) (by decide)
    (by decide) (by decide)).1 ⟨1, 1⟩ (by decide)

/-! ## Theorems on `_XAie_WriteProgramSection`: program memory -/

/-- A word loop over `n ≤ 2 ^ 32 - 4` bytes, entered with `i = 4 * j` after `j`
iterations, ends after `(n + 3) / 4 - j` more iterations, one write each. -/
theorem writeWords_run (val : Nat → Nat → Nat) (Addr n : Nat) (hn : n ≤ 2 ^ 32 - 4) :
    ∀ (d j fuel : Nat), (n + 3) / 4 - j = d → d < fuel →
      writeWords val Addr n fuel (4 * j) j =
        (true, (List.range' j d).map
          (fun k => Event.write32 (u64 (Addr + 4 * k)) (val (4 * k) k))) := by
  intro d
  induction d with
  | zero =>
    intro j fuel hd hf
    obtain ⟨f, rfl⟩ : ∃ f, fuel = f + 1 := ⟨fuel - 1, by omega⟩
    have : ¬ (4 * j < n) := by omega
    simp [writeWords, this]
  | succ d ih =>
    intro j fuel hd hf
    obtain ⟨f, rfl⟩ : ∃ f, fuel = f + 1 := ⟨fuel - 1, by omega⟩
    have hlt : 4 * j < n := by omega
    have hu : u32 (4 * j + 4) = 4 * (j + 1) := by unfold u32; omega
    have := ih (j + 1) f (by omega) (by omega)
    simp [writeWords, hlt, hu, this, List.range'_succ]

/-- A word loop entered at `i = 0`. -/
theorem writeWords_zero (val : Nat → Nat → Nat) (Addr n fuel : Nat) (hn : n ≤ 2 ^ 32 - 4)
    (hf : (n + 3) / 4 < fuel) :
    writeWords val Addr n fuel 0 0 =
      (true, (List.range ((n + 3) / 4)).map
        (fun k => Event.write32 (u64 (Addr + 4 * k)) (val (4 * k) k))) := by
  have := writeWords_run val Addr n hn ((n + 3) / 4) 0 fuel (by omega) hf
  simpa [List.range_eq_range'] using this

theorem writesOf_map_write32 (f g : Nat → Nat) (l : List Nat) :
    writesOf (l.map (fun k => Event.write32 (f k) (g k))) = l.map (fun k => (f k, g k)) := by
  induction l with
  | nil => rfl
  | cons a l ih => simp [writesOf, ih]

theorem resolvesOf_map_write32 (f g : Nat → Nat) (l : List Nat) :
    resolvesOf (l.map (fun k => Event.write32 (f k) (g k))) = [] := by
  induction l with
  | nil => rfl
  | cons a l ih => simp [resolvesOf, ih]

/-- The program-memory branch of the writer, whenever the check of the code passes:
the `u32` sum `p_paddr + p_memsz` is at most `ProgMemSize`. -/
theorem WriteProgramSection_progmem_run (fuel : Nat) (DevInst : XAie_DevInst)
    (Loc : XAie_LocType) (ProgSec : Nat → Nat) (Phdr : Elf32_Phdr)
    (h1 : Phdr.p_paddr < DevInst.CoreMod.ProgMemSize)
    (h2 : u32 (Phdr.p_paddr + Phdr.p_memsz) ≤ DevInst.CoreMod.ProgMemSize)
    (h3 : Phdr.p_memsz ≤ 2 ^ 32 - 4) (hf : (Phdr.p_memsz + 3) / 4 < fuel) :
    _XAie_WriteProgramSection fuel DevInst Loc ProgSec Phdr =
      ⟨some AieRC.XAIE_OK, (List.range ((Phdr.p_memsz + 3) / 4)).map (fun k =>
        Event.write32
          ((DevInst.BaseAddr + DevInst.CoreMod.ProgMemHostOffset + Phdr.p_paddr
            + DevInst.GetTileAddr Loc.Row Loc.Col + 4 * k) % 2 ^ 64)
          (load32 ProgSec (4 * k)))⟩ := by
  have h2' : ¬ (u32 (Phdr.p_paddr + Phdr.p_memsz) > DevInst.CoreMod.ProgMemSize) := by omega
  simp only [_XAie_WriteProgramSection, h1, h2', if_true, if_false]
  rw [writeWords_zero _ _ _ fuel h3 hf]
  simp [u64]

/-- C1 (counterexample): on `aieDev` a program-memory segment at address 0 with
`p_memsz = 2` passes the bounds check and the writer returns `XAIE_OK`, but the burst is
one word, 4 bytes long, not 2. -/
theorem WriteProgramSection_progmem_length_counterexample :
    (mkPhdr 0 2 2).p_paddr < aieDev.CoreMod.ProgMemSize ∧
    (mkPhdr 0 2 2).p_paddr + (mkPhdr 0 2 2).p_memsz ≤ aieDev.CoreMod.ProgMemSize ∧
    (_XAie_WriteProgramSection 8 aieDev ⟨2, 1⟩ rampBytes (mkPhdr 0 2 2)).RC
      = some AieRC.XAIE_OK ∧
    4 * (writesOf (_XAie_WriteProgramSection 8 aieDev ⟨2, 1⟩ rampBytes
      (mkPhdr 0 2 2)).Trace).length ≠ (mkPhdr 0 2 2).p_memsz := by
  decide

/-- C1 (amended): for a segment with `p_paddr < ProgMemSize`,
`p_paddr + p_memsz ≤ ProgMemSize` and `p_memsz ≤ 2 ^ 32 - 4`, the writer returns `XAIE_OK`
as soon as the loop bound exceeds the number of words; it never calls the resolver; its
calls are the `(p_memsz + 3) / 4` word writes at `A + 4 * k` in the 64-bit address space,
`A = BaseAddr + ProgMemHostOffset + p_paddr + GetTileAddr Loc`, the `k`-th word read at
`ProgSec + 4 * k`; the bytes written are `p_memsz` rounded up to a multiple of 4, which is
`p_memsz` when `p_memsz` is a multiple of 4. -/
theorem WriteProgramSection_progmem (fuel : Nat) (DevInst : XAie_DevInst)
    (Loc : XAie_LocType) (ProgSec : Nat → Nat) (Phdr : Elf32_Phdr)
    (h1 : Phdr.p_paddr < DevInst.CoreMod.ProgMemSize)
    (h2 : Phdr.p_paddr + Phdr.p_memsz ≤ DevInst.CoreMod.ProgMemSize)
    (h3 : Phdr.p_memsz ≤ 2 ^ 32 - 4) (hf : (Phdr.p_memsz + 3) / 4 < fuel) :
    _XAie_WriteProgramSection fuel DevInst Loc ProgSec Phdr =
      ⟨some AieRC.XAIE_OK, (List.range ((Phdr.p_memsz + 3) / 4)).map (fun k =>
        Event.write32
          ((DevInst.BaseAddr + DevInst.CoreMod.ProgMemHostOffset + Phdr.p_paddr
            + DevInst.GetTileAddr Loc.Row Loc.Col + 4 * k) % 2 ^ 64)
          (load32 ProgSec (4 * k)))⟩ ∧
    resolvesOf (_XAie_WriteProgramSection fuel DevInst Loc ProgSec Phdr).Trace = [] ∧
    4 * (writesOf (_XAie_WriteProgramSection fuel DevInst Loc ProgSec Phdr).Trace).length
      = 4 * ((Phdr.p_memsz + 3) / 4) ∧
    (Phdr.p_memsz % 4 = 0 →
      4 * (writesOf (_XAie_WriteProgramSection fuel DevInst Loc ProgSec Phdr).Trace).length
        = Phdr.p_memsz) := by
  have h2' : u32 (Phdr.p_paddr + Phdr.p_memsz) ≤ DevInst.CoreMod.ProgMemSize := by
    have : u32 (Phdr.p_paddr + Phdr.p_memsz) ≤ Phdr.p_paddr + Phdr.p_memsz :=
      Nat.mod_le _ _
    omega
  have hrun := WriteProgramSection_progmem_run fuel DevInst Loc ProgSec Phdr h1 h2' h3 hf
  refine ⟨hrun, ?_, ?_, ?_⟩
  · rw [hrun]; exact resolvesOf_map_write32 _ _ _
  · rw [hrun]; simp [writesOf_map_write32]
  · intro h4
    rw [hrun]; simp [writesOf_map_write32]
    omega

/-- Witness of the amended C1 on `aieDev`: a segment of 8 bytes at address `0x100`. -/
theorem WriteProgramSection_progmem_witness :
    _XAie_WriteProgramSection 8 aieDev ⟨2, 1⟩ rampBytes (mkPhdr 0x100 8 8) =
      ⟨some AieRC.XAIE_OK, (List.range (((mkPhdr 0x100 8 8).p_memsz + 3) / 4)).map (fun k =>
        Event.write32
          ((aieDev.BaseAddr + aieDev.CoreMod.ProgMemHostOffset + (mkPhdr 0x100 8 8).p_paddr
            + aieDev.GetTileAddr 2 1 + 4 * k) % 2 ^ 64)
          (load32 rampBytes (4 * k)))⟩ :=
  (WriteProgramSection_progmem 8 aieDev ⟨2, 1⟩ rampBytes (mkPhdr 0x100 8 8)
    (by decide) (by decide) (by decide) (by decide)).1

/-- C9 (the code at the failing input): on `aieDev` the segment with `p_paddr = 4` and
`p_memsz = 0xFFFFFFFC` starts in program memory and ends far beyond it; the `u32` sum
`p_paddr + p_memsz` is 0, the check passes, and the writer returns `XAIE_OK` after
`2 ^ 30 - 1` word writes. -/
theorem WriteProgramSection_progmem_overflow :
    (mkPhdr 4 0 0xFFFFFFFC).p_paddr < aieDev.CoreMod.ProgMemSize ∧
    (mkPhdr 4 0 0xFFFFFFFC).p_paddr + (mkPhdr 4 0 0xFFFFFFFC).p_memsz
      > aieDev.CoreMod.ProgMemSize ∧
    (_XAie_WriteProgramSection (2 ^ 30) aieDev ⟨2, 1⟩ rampBytes
      (mkPhdr 4 0 0xFFFFFFFC)).RC = some AieRC.XAIE_OK ∧
    (writesOf (_XAie_WriteProgramSection (2 ^ 30) aieDev ⟨2, 1⟩ rampBytes
      (mkPhdr 4 0 0xFFFFFFFC)).Trace).length = 2 ^ 30 - 1 := by
  have hrun := WriteProgramSection_progmem_run (2 ^ 30) aieDev ⟨2, 1⟩ rampBytes
    (mkPhdr 4 0 0xFFFFFFFC) (by decide) (by decide) (by decide) (by decide)
  refine ⟨by decide, by decide, ?_, ?_⟩
  · rw [hrun]
  · rw [hrun]; simp [writesOf_map_write32, mkPhdr]

/-- C10 (the code at the failing input): on `aieDev` the segment with
`p_paddr = ProgMemSize = 0x4000` is not in program memory and lies below the data memory
at `0x20000`; the test `p_paddr > ProgMemSize` of the bounds check is false, the writer
calls the resolver at `0x4000` and returns its `XAIE_ERR`. -/
theorem WriteProgramSection_gap_not_rejected :
    (mkPhdr 0x4000 4 4).p_paddr ≥ aieDev.CoreMod.ProgMemSize ∧
    (mkPhdr 0x4000 4 4).p_paddr < aieDev.CoreMod.DataMemAddr ∧
    _XAie_WriteProgramSection 8 aieDev ⟨2, 1⟩ rampBytes (mkPhdr 0x4000 4 4) =
      ⟨some AieRC.XAIE_ERR, [Event.resolve 0x4000]⟩ := by
  decide

/-! ## Theorems on `_XAie_WriteProgramSection`: data memory -/

theorem sub32_of_le {a b : Nat} (h : b ≤ a) (ha : a < 2 ^ 32) : sub32 a b = a - b := by
  unfold sub32
  have : b % 2 ^ 32 = b := Nat.mod_eq_of_lt (by omega)
  rw [this]
  omega

/-- One iteration of a `while` loop of the writer on word-aligned data. -/
theorem sectionLoop_step (DevInst : XAie_DevInst) (Loc T : XAie_LocType) (word : Nat → Nat)
    (fuel n S A off e : Nat) (hB : DevInst.CoreMod.DataMemSize = 2 ^ e) (he : 2 ≤ e)
    (he' : e < 32) (hS : 0 < S) (hAS : A + S < 2 ^ 32) (h4S : S % 4 = 0) (h4A : A % 4 = 0)
    (hres : _XAie_GetTargetTileLoc DevInst Loc A = .ok T)
    (hf : 2 ^ e / 4 < fuel) :
    sectionLoop DevInst Loc word fuel (n + 1) S A off =
      ((sectionLoop DevInst Loc word fuel n (S - min S (2 ^ e - A % 2 ^ e))
          (A + min S (2 ^ e - A % 2 ^ e)) (off + min S (2 ^ e - A % 2 ^ e))).1,
       Event.resolve A ::
        ((List.range (min S (2 ^ e - A % 2 ^ e) / 4)).map (fun k =>
            Event.write32
              ((DevInst.BaseAddr + A % 2 ^ e + DevInst.GetTileAddr T.Row T.Col + 4 * k)
                % 2 ^ 64)
              (word (off + 4 * k))) ++
         (sectionLoop DevInst Loc word fuel n (S - min S (2 ^ e - A % 2 ^ e))
          (A + min S (2 ^ e - A % 2 ^ e)) (off + min S (2 ^ e - A % 2 ^ e))).2)) := by
  have hBlt : 2 ^ e < 2 ^ 32 := Nat.pow_lt_pow_right (by omega) he'
  have hBle : 2 ^ e ≤ 2 ^ 31 := Nat.pow_le_pow_right (by omega) (by omega)
  have hBpos : 0 < 2 ^ e := Nat.two_pow_pos e
  have h4B : 2 ^ e % 4 = 0 := by
    obtain ⟨d, rfl⟩ : ∃ d, e = d + 2 := ⟨e - 2, by omega⟩
    rw [pow_add]; omega
  have ho : A % 2 ^ e < 2 ^ e := Nat.mod_lt _ hBpos
  have hoA : A % 2 ^ e ≤ A := Nat.mod_le _ _
  have h4o : A % 2 ^ e % 4 = 0 := by
    have := Nat.mod_mod_of_dvd A (show 4 ∣ 2 ^ e from Nat.dvd_of_mod_eq_zero h4B)
    omega
  have hmask : sub32 (2 ^ e) 1 = 2 ^ e - 1 := sub32_of_le (by omega) hBlt
  have hlen : sub32 S (if u32 (A % 2 ^ e + S) > 2 ^ e then
      sub32 (u32 (A % 2 ^ e + S)) (2 ^ e) else 0) = min S (2 ^ e - A % 2 ^ e) := by
    have hu : u32 (A % 2 ^ e + S) = A % 2 ^ e + S := by unfold u32; omega
    rw [hu]
    split
    · rw [sub32_of_le (a := A % 2 ^ e + S) (b := 2 ^ e) (by omega) (by omega)]
      rw [sub32_of_le (by omega) (by omega)]
      omega
    · rw [sub32_of_le (by omega) (by omega)]
      omega
  generalize hL : min S (2 ^ e - A % 2 ^ e) = L at hlen ⊢
  have hL4 : L % 4 = 0 := by omega
  have hLS : L ≤ S := by omega
  have hLB : L ≤ 2 ^ e := by omega
  have hw := writeWords_zero (fun _ cnt => word (off + 4 * cnt))
    (u64 (u64 (DevInst.BaseAddr + A % 2 ^ e) + DevInst.GetTileAddr T.Row T.Col)) L fuel
    (by omega) (by omega)
  have hcnt : (L + 3) / 4 = L / 4 := by omega
  rw [sectionLoop]
  simp only [hS, if_true, hres, hB, hmask, Nat.and_pow_two_sub_one_eq_mod, hlen, hw]
  have h1 : sub32 S L = S - L := sub32_of_le hLS (by omega)
  have h2 : u32 (A + L) = A + L := by unfold u32; omega
  simp only [h1, h2, hcnt, List.length_map, List.length_range]
  have h3 : 4 * (L / 4) = L := by omega
  simp [h3, u64]

theorem sectionLoop_empty (DevInst : XAie_DevInst) (Loc : XAie_LocType) (word : Nat → Nat)
    (fuel n A off : Nat) :
    sectionLoop DevInst Loc word fuel (n + 1) 0 A off = (LoopExit.done, []) := by
  simp [sectionLoop]

theorem leadWrites_map_append (f g : Nat → Nat) (l : List Nat) (t : List Event) :
    leadWrites (l.map (fun k => Event.write32 (f k) (g k)) ++ t) = l.length + leadWrites t := by
  induction l with
  | nil => simp
  | cons a l ih => simp [leadWrites, ih]; omega

theorem chunksOf_map_append (f g : Nat → Nat) (l : List Nat) (t : List Event) :
    chunksOf (l.map (fun k => Event.write32 (f k) (g k)) ++ t) = chunksOf t := by
  induction l with
  | nil => simp
  | cons a l ih => simp [chunksOf, ih]

/-- C3 (counterexample): on `aieDev` the segment of 6 bytes at `0x27FFE` crosses the bank
boundary `0x28000` and both banks resolve; the first chunk is one word, 4 bytes written
at bank offset `0x7FFE`, which is more than the `B - paddr % B = 2` bytes left in the
bank, and the two chunks are 8 bytes long together, not 6. -/
theorem WriteProgramSection_two_chunks_counterexample :
    (mkPhdr 0x27FFE 6 6).p_paddr / aieDev.CoreMod.DataMemSize + 1 =
      ((mkPhdr 0x27FFE 6 6).p_paddr + 6 - 1) / aieDev.CoreMod.DataMemSize ∧
    (_XAie_WriteProgramSection 8 aieDev ⟨2, 1⟩ rampBytes (mkPhdr 0x27FFE 6 6)).RC
      = some AieRC.XAIE_OK ∧
    chunksOf (_XAie_WriteProgramSection 8 aieDev ⟨2, 1⟩ rampBytes (mkPhdr 0x27FFE 6 6)).Trace
      = [(0x27FFE, 4), (0x28000, 4)] ∧
    aieDev.CoreMod.DataMemSize - 0x27FFE % aieDev.CoreMod.DataMemSize = 2 := by
  decide

theorem and_of_left {a b : Prop} (ha : a) (hb : a → b) : a ∧ b := ⟨ha, hb ha⟩

theorem div_cross_bounds {p L B : Nat} (hB : 0 < B) (hc : p / B + 1 = (p + L - 1) / B) :
    B - p % B < L ∧ L - (B - p % B) ≤ B ∧ p + (B - p % B) = (p / B + 1) * B := by
  have h1 := Nat.div_add_mod p B
  have h2 := Nat.div_add_mod (p + L - 1) B
  have h3 := Nat.mod_lt p hB
  have h4 := Nat.mod_lt (p + L - 1) hB
  rw [← hc] at h2
  have h5 : B * (p / B + 1) = B * (p / B) + B := by ring
  have h6 : (p / B + 1) * B = B * (p / B) + B := by ring
  rw [h5] at h2
  rw [h6]
  omega

/-- C3 (amended): let the data-memory size `B` be a power of two, at least 4, and let a
data-memory segment inside the data-memory extent have `p_filesz = p_memsz = L`, with
`p_paddr` and `L` multiples of 4, cross exactly one bank boundary, both banks resolving.
Then the writer returns `XAIE_OK` and its calls are exactly two chunks: the resolver call
at `p_paddr` followed by the words of the first `B - p_paddr % B` bytes of the segment,
written from bank offset `p_paddr % B` of the first tile, and the resolver call at the
bank boundary followed by the words of the remaining bytes, written from bank offset 0 of
the second tile. The two lengths sum to `L`. -/
theorem WriteProgramSection_two_chunks (fuel : Nat) (DevInst : XAie_DevInst)
    (Loc T1 T2 : XAie_LocType) (ProgSec : Nat → Nat) (Phdr : Elf32_Phdr) (e L : Nat)
    (hB : DevInst.CoreMod.DataMemSize = 2 ^ e) (he : 2 ≤ e)
    (hprog : DevInst.CoreMod.ProgMemSize ≤ Phdr.p_paddr)
    (hbase : DevInst.CoreMod.DataMemAddr ≤ Phdr.p_paddr)
    (hend : Phdr.p_paddr + L ≤ DevInst.CoreMod.DataMemAddr + 4 * 2 ^ e)
    (hdev : DevInst.CoreMod.DataMemAddr + 4 * 2 ^ e < 2 ^ 32)
    (hfs : Phdr.p_filesz = L) (hms : Phdr.p_memsz = L)
    (h4a : Phdr.p_paddr % 4 = 0) (h4l : L % 4 = 0)
    (hcross : Phdr.p_paddr / 2 ^ e + 1 = (Phdr.p_paddr + L - 1) / 2 ^ e)
    (hr1 : _XAie_GetTargetTileLoc DevInst Loc Phdr.p_paddr = .ok T1)
    (hr2 : _XAie_GetTargetTileLoc DevInst Loc ((Phdr.p_paddr / 2 ^ e + 1) * 2 ^ e) = .ok T2)
    (hf : 2 ^ e / 4 + 2 < fuel) :
    _XAie_WriteProgramSection fuel DevInst Loc ProgSec Phdr =
      ⟨some AieRC.XAIE_OK,
        Event.resolve Phdr.p_paddr ::
          ((List.range ((2 ^ e - Phdr.p_paddr % 2 ^ e) / 4)).map (fun k =>
              Event.write32
                ((DevInst.BaseAddr + Phdr.p_paddr % 2 ^ e
                  + DevInst.GetTileAddr T1.Row T1.Col + 4 * k) % 2 ^ 64)
                (load32 ProgSec (4 * k))) ++
           Event.resolve ((Phdr.p_paddr / 2 ^ e + 1) * 2 ^ e) ::
            (List.range ((L - (2 ^ e - Phdr.p_paddr % 2 ^ e)) / 4)).map (fun k =>
              Event.write32
                ((DevInst.BaseAddr + DevInst.GetTileAddr T2.Row T2.Col + 4 * k) % 2 ^ 64)
                (load32 ProgSec (2 ^ e - Phdr.p_paddr % 2 ^ e + 4 * k))))⟩ ∧
    chunksOf (_XAie_WriteProgramSection fuel DevInst Loc ProgSec Phdr).Trace =
      [(Phdr.p_paddr, 2 ^ e - Phdr.p_paddr % 2 ^ e),
       ((Phdr.p_paddr / 2 ^ e + 1) * 2 ^ e, L - (2 ^ e - Phdr.p_paddr % 2 ^ e))] ∧
    (2 ^ e - Phdr.p_paddr % 2 ^ e) + (L - (2 ^ e - Phdr.p_paddr % 2 ^ e)) = L := by
  have hBpos : 0 < 2 ^ e := Nat.two_pow_pos e
  have he' : e < 32 := by
    by_contra hcon
    have : 2 ^ 32 ≤ 2 ^ e := Nat.pow_le_pow_right (by omega) (by omega)
    omega
  have h4B : 2 ^ e % 4 = 0 := by
    obtain ⟨d, rfl⟩ : ∃ d, e = d + 2 := ⟨e - 2, by omega⟩
    rw [pow_add]; omega
  have h4o : Phdr.p_paddr % 2 ^ e % 4 = 0 := by
    have := Nat.mod_mod_of_dvd Phdr.p_paddr (show 4 ∣ 2 ^ e from Nat.dvd_of_mod_eq_zero h4B)
    omega
  have ho : Phdr.p_paddr % 2 ^ e < 2 ^ e := Nat.mod_lt _ hBpos
  obtain ⟨hc1, hc2, hc3⟩ := div_cross_bounds hBpos hcross
  obtain ⟨n, rfl⟩ : ∃ n, fuel = n + 3 := ⟨fuel - 3, by omega⟩
  have hmin1 : min L (2 ^ e - Phdr.p_paddr % 2 ^ e) = 2 ^ e - Phdr.p_paddr % 2 ^ e := by
    omega
  have hbmod : (Phdr.p_paddr / 2 ^ e + 1) * 2 ^ e % 2 ^ e = 0 := Nat.mul_mod_left _ _
  have hs1 := sectionLoop_step DevInst Loc T1 (load32 ProgSec) (n + 3) (n + 2) L
    Phdr.p_paddr 0 e hB he he' (by omega) (by omega) h4l h4a hr1 (by omega)
  rw [hmin1, hc3] at hs1
  have hs2 := sectionLoop_step DevInst Loc T2 (load32 ProgSec) (n + 3) (n + 1)
    (L - (2 ^ e - Phdr.p_paddr % 2 ^ e)) ((Phdr.p_paddr / 2 ^ e + 1) * 2 ^ e)
    (0 + (2 ^ e - Phdr.p_paddr % 2 ^ e)) e hB he he' (by omega) (by omega) (by omega)
    (by rw [← hc3]; omega) hr2 (by omega)
  have hmin2 : min (L - (2 ^ e - Phdr.p_paddr % 2 ^ e))
      (2 ^ e - (Phdr.p_paddr / 2 ^ e + 1) * 2 ^ e % 2 ^ e)
      = L - (2 ^ e - Phdr.p_paddr % 2 ^ e) := by
    rw [hbmod]; omega
  rw [hmin2, hbmod, Nat.sub_self, sectionLoop_empty] at hs2
  rw [hs2] at hs1
  apply and_of_left
  · have c1 : ¬ (Phdr.p_paddr < DevInst.CoreMod.ProgMemSize) := by omega
    have c2 : ¬ ((Phdr.p_paddr > DevInst.CoreMod.ProgMemSize ∧
        Phdr.p_paddr < DevInst.CoreMod.DataMemAddr) ∨
        u32 (Phdr.p_paddr + L) >
          u32 (DevInst.CoreMod.DataMemAddr + u32 (2 ^ e * 4))) := by
      unfold u32
      omega
    have hz : sub32 L L = 0 := by
      rw [sub32_of_le (Nat.le_refl _) (by omega)]; omega
    simp only [_XAie_WriteProgramSection, c1, hB, hms, c2, if_false, hfs, hz, hs1,
      sectionLoop_empty]
    simp
  · intro hrun
    rw [hrun]
    refine ⟨?_, by omega⟩
    simp only [chunksOf, leadWrites_map_append, chunksOf_map_append, leadWrites,
      List.length_range]
    have e1 : 4 * ((2 ^ e - Phdr.p_paddr % 2 ^ e) / 4 + 0) = 2 ^ e - Phdr.p_paddr % 2 ^ e := by
      omega
    have e2 : 4 * ((L - (2 ^ e - Phdr.p_paddr % 2 ^ e)) / 4)
        = L - (2 ^ e - Phdr.p_paddr % 2 ^ e) := by omega
    have := leadWrites_map_append
      (fun k => (DevInst.BaseAddr + DevInst.GetTileAddr T2.Row T2.Col + 4 * k) % 2 ^ 64)
      (fun k => load32 ProgSec (2 ^ e - Phdr.p_paddr % 2 ^ e + 4 * k))
      (List.range ((L - (2 ^ e - Phdr.p_paddr % 2 ^ e)) / 4)) []
    simp only [List.append_nil, List.length_range, leadWrites] at this
    have hc := chunksOf_map_append
      (fun k => (DevInst.BaseAddr + DevInst.GetTileAddr T2.Row T2.Col + 4 * k) % 2 ^ 64)
      (fun k => load32 ProgSec (2 ^ e - Phdr.p_paddr % 2 ^ e + 4 * k))
      (List.range ((L - (2 ^ e - Phdr.p_paddr % 2 ^ e)) / 4)) []
    simp only [List.append_nil, chunksOf] at hc
    rw [this, hc, e1]
    simp [e2]

/-- Witness of the amended C3 on `aieDev`: 16 bytes at `0x27FF8`, 8 in the South bank and
8 in the West bank, which on the even row 2 belongs to the origin. -/
theorem WriteProgramSection_two_chunks_witness :
    chunksOf (_XAie_WriteProgramSection 8195 aieDev ⟨2, 1⟩ rampBytes
        (mkPhdr 0x27FF8 16 16)).Trace =
      [((mkPhdr 0x27FF8 16 16).p_paddr, 2 ^ 15 - (mkPhdr 0x27FF8 16 16).p_paddr % 2 ^ 15),
       (((mkPhdr 0x27FF8 16 16).p_paddr / 2 ^ 15 + 1) * 2 ^ 15,
        16 - (2 ^ 15 - (mkPhdr 0x27FF8 16 16).p_paddr % 2 ^ 15))] :=
  (WriteProgramSection_two_chunks 8195 aieDev ⟨2, 1⟩ ⟨1, 1⟩ ⟨2, 1⟩ rampBytes
    (mkPhdr 0x27FF8 16 16) 15 16 (by decide) (by decide) (by decide) (by decide)
    (by decide) (by decide) (by decide) (by decide) (by decide) (by decide) (by decide)
    (by decide) (by decide) (by decide)).2.1

/-! ## Round trip of a data-memory segment -/

theorem writesOf_append (t1 t2 : List Event) :
    writesOf (t1 ++ t2) = writesOf t1 ++ writesOf t2 := by
  induction t1 with
  | nil => rfl
  | cons a t ih => cases a <;> simp [writesOf, ih]

/-- Device memory after a list of word writes. -/
theorem applyTrace_eq_foldl (tr : List Event) (mem : Nat → Nat) :
    applyTrace tr mem = (writesOf tr).foldl (fun m w => store32 m w.1 w.2) mem := by
  induction tr generalizing mem with
  | nil => rfl
  | cons a t ih => cases a <;> simp [applyTrace, writesOf, ih]

theorem store32_frame (mem : Nat → Nat) (a v x : Nat) (h : ∀ b, b < 4 → a + b ≠ x) :
    store32 mem a v x = mem x := by
  have h0 := h 0 (by omega)
  have h1 := h 1 (by omega)
  have h2 := h 2 (by omega)
  have h3 := h 3 (by omega)
  unfold store32
  simp only [Nat.add_zero] at h0
  rw [if_neg (Ne.symm h0), if_neg (Ne.symm h1), if_neg (Ne.symm h2), if_neg (Ne.symm h3)]

theorem store32_hit (mem : Nat → Nat) (a v b : Nat) (hb : b < 4) :
    store32 mem a v (a + b) = v / 256 ^ b % 256 := by
  unfold store32
  have : b = 0 ∨ b = 1 ∨ b = 2 ∨ b = 3 := by omega
  rcases this with rfl | rfl | rfl | rfl <;> simp

theorem foldl_store32_frame (ws : List (Nat × Nat)) (mem : Nat → Nat) (x : Nat)
    (h : ∀ w ∈ ws, ∀ b, b < 4 → w.1 + b ≠ x) :
    ws.foldl (fun m w => store32 m w.1 w.2) mem x = mem x := by
  induction ws generalizing mem with
  | nil => rfl
  | cons w ws ih =>
    simp only [List.foldl_cons]
    rw [ih _ (fun w' hw' => h w' (List.mem_cons_of_mem _ hw'))]
    exact store32_frame mem w.1 w.2 x (h w (List.mem_cons_self _ _))

/-- After the writes `(a j, v j)`, `j < m`, whose bytes have pairwise distinct addresses,
byte `b` of word `j` is read back at `a j + b`. -/
theorem foldl_store32_read (a v : Nat → Nat) (mem : Nat → Nat) (j b : Nat) (hb : b < 4)
    (s m : Nat) (hsj : s ≤ j) (hjm : j < s + m)
    (hinj : ∀ j', s ≤ j' → j' < s + m → j' ≠ j → ∀ b', b' < 4 → a j' + b' ≠ a j + b) :
    ((List.range' s m).map (fun i => (a i, v i))).foldl (fun m w => store32 m w.1 w.2) mem
      (a j + b) = v j / 256 ^ b % 256 := by
  induction m generalizing s mem with
  | zero => omega
  | succ m ih =>
    simp only [List.range'_succ, List.map_cons, List.foldl_cons]
    by_cases hs : s = j
    · subst hs
      rw [foldl_store32_frame]
      · exact store32_hit mem (a s) (v s) b hb
      · intro w hw b' hb'
        simp only [List.mem_map, List.mem_range'_1] at hw
        obtain ⟨i, ⟨hi1, hi2⟩, rfl⟩ := hw
        exact hinj i (by omega) (by omega) (by omega) b' hb'
    · exact ih _ (s + 1) (by omega) (by omega)
        (fun j' h1 h2 h3 => hinj j' (by omega) (by omega) h3)

theorem load32_byte (p : Nat → Nat) (o b : Nat) (hb : b < 4) :
    load32 p o / 256 ^ b % 256 = p (o + b) % 256 := by
  unfold load32
  have h0 := Nat.mod_lt (p o) (show 0 < 256 by omega)
  have h1 := Nat.mod_lt (p (o + 1)) (show 0 < 256 by omega)
  have h2 := Nat.mod_lt (p (o + 2)) (show 0 < 256 by omega)
  have h3 := Nat.mod_lt (p (o + 3)) (show 0 < 256 by omega)
  have : b = 0 ∨ b = 1 ∨ b = 2 ∨ b = 3 := by omega
  rcases this with rfl | rfl | rfl | rfl <;> simp <;> omega

theorem GetTargetTileLoc_same_bank (DevInst : XAie_DevInst) (Loc : XAie_LocType)
    (a a' : Nat) (h : a / DevInst.CoreMod.DataMemSize = a' / DevInst.CoreMod.DataMemSize) :
    _XAie_GetTargetTileLoc DevInst Loc a = _XAie_GetTargetTileLoc DevInst Loc a' := by
  simp only [_XAie_GetTargetTileLoc, h]

theorem bank_offset {A B x : Nat} (hB : 0 < B) (h : A % B + x < B) :
    (A + x) / B = A / B ∧ (A + x) % B = A % B + x := by
  have h1 : A + x = B * (A / B) + (A % B + x) := by
    have := Nat.div_add_mod A B
    omega
  rw [h1, Nat.mul_add_div hB, Nat.mul_add_mod, Nat.div_eq_of_lt h, Nat.mod_eq_of_lt h]
  simp

theorem dataAddr_of_ok (DevInst : XAie_DevInst) (Loc T : XAie_LocType) (a e : Nat)
    (hB : DevInst.CoreMod.DataMemSize = 2 ^ e) (he' : e < 32)
    (h : _XAie_GetTargetTileLoc DevInst Loc a = .ok T) :
    dataAddr DevInst Loc a =
      (DevInst.BaseAddr + a % 2 ^ e + DevInst.GetTileAddr T.Row T.Col) % 2 ^ 64 := by
  have hBlt : 2 ^ e < 2 ^ 32 := Nat.pow_lt_pow_right (by omega) he'
  have hBpos : 0 < 2 ^ e := Nat.two_pow_pos e
  have hmask : sub32 (2 ^ e) 1 = 2 ^ e - 1 := sub32_of_le (by omega) hBlt
  simp [dataAddr, h, hB, hmask, u64]

/-- The word writes of a `while` loop of the writer that runs to its end, on word-aligned
data: word `j` of the section goes to the device address of its first byte. -/
theorem sectionLoop_done_writes (DevInst : XAie_DevInst) (Loc : XAie_LocType)
    (word : Nat → Nat) (fuel e : Nat) (hB : DevInst.CoreMod.DataMemSize = 2 ^ e)
    (he : 2 ≤ e) (he' : e < 32) (hf : 2 ^ e / 4 < fuel) :
    ∀ (n S A off : Nat) (tr : List Event), S % 4 = 0 → A % 4 = 0 → A + S < 2 ^ 32 →
      sectionLoop DevInst Loc word fuel n S A off = (LoopExit.done, tr) →
      writesOf tr = (List.range (S / 4)).map
          (fun j => (dataAddr DevInst Loc (A + 4 * j), word (off + 4 * j))) ∧
      ∀ j, j < S / 4 → ∃ T, _XAie_GetTargetTileLoc DevInst Loc (A + 4 * j) = .ok T := by
  have hBpos : 0 < 2 ^ e := Nat.two_pow_pos e
  have h4B : 2 ^ e % 4 = 0 := by
    obtain ⟨d, rfl⟩ : ∃ d, e = d + 2 := ⟨e - 2, by omega⟩
    rw [pow_add]; omega
  intro n
  induction n with
  | zero =>
    intro S A off tr _ _ _ h
    simp [sectionLoop] at h
  | succ n ih =>
    intro S A off tr h4S h4A hAS h
    by_cases hS : S = 0
    · subst hS
      rw [sectionLoop_empty] at h
      injection h with _ h
      subst h
      simp [writesOf]
    · cases hres : _XAie_GetTargetTileLoc DevInst Loc A with
      | error RC =>
        rw [sectionLoop] at h
        simp [Nat.pos_of_ne_zero hS, hres] at h
      | ok T =>
        have ho : A % 2 ^ e < 2 ^ e := Nat.mod_lt _ hBpos
        have h4o : A % 2 ^ e % 4 = 0 := by
          have := Nat.mod_mod_of_dvd A (show 4 ∣ 2 ^ e from Nat.dvd_of_mod_eq_zero h4B)
          omega
        rw [sectionLoop_step DevInst Loc T word fuel n S A off e hB he he'
          (Nat.pos_of_ne_zero hS) hAS h4S h4A hres hf] at h
        generalize hL : min S (2 ^ e - A % 2 ^ e) = L at h
        have hL4 : L % 4 = 0 := by omega
        have hLS : L ≤ S := by omega
        have hLo : A % 2 ^ e + L ≤ 2 ^ e := by omega
        have hLpos : 0 < L := by omega
        injection h with h1 h2
        obtain ⟨ihw, ihr⟩ := ih (S - L) (A + L) (off + L)
          (sectionLoop DevInst Loc word fuel n (S - L) (A + L) (off + L)).2
          (by omega) (by omega) (by omega) (by rw [← h1])
        have hsame : ∀ j, j < L / 4 →
            _XAie_GetTargetTileLoc DevInst Loc (A + 4 * j) = .ok T ∧
            (A + 4 * j) % 2 ^ e = A % 2 ^ e + 4 * j := by
          intro j hj
          obtain ⟨b1, b2⟩ := bank_offset (A := A) (x := 4 * j) hBpos (by omega)
          refine ⟨?_, b2⟩
          rw [GetTargetTileLoc_same_bank DevInst Loc (A + 4 * j) A (by rw [hB]; exact b1)]
          exact hres
        have hsplit : S / 4 = L / 4 + (S - L) / 4 := by omega
        constructor
        · rw [← h2]
          simp only [writesOf, writesOf_append, writesOf_map_write32, ihw, hsplit,
            List.range_add, List.map_append, List.map_map]
          congr 1
          · apply List.map_congr_left
            intro j hj
            rw [List.mem_range] at hj
            obtain ⟨r1, r2⟩ := hsame j hj
            rw [dataAddr_of_ok DevInst Loc T (A + 4 * j) e hB he' r1, r2]
            congr 2
            omega
          · apply List.map_congr_left
            intro j _
            simp only [Function.comp]
            have e1 : A + 4 * (L / 4 + j) = A + L + 4 * j := by omega
            have e2 : off + 4 * (L / 4 + j) = off + L + 4 * j := by omega
            rw [e1, e2]
        · intro j hj
          by_cases hjl : j < L / 4
          · exact ⟨T, (hsame j hjl).1⟩
          · obtain ⟨T', hT'⟩ := ihr (j - L / 4) (by omega)
            refine ⟨T', ?_⟩
            have e1 : A + 4 * j = A + L + 4 * (j - L / 4) := by omega
            rw [e1]
            exact hT'

/-- Two data-memory addresses that the resolver sends to the same tile have the same
`u8` cardinal code. -/
theorem GetTargetTileLoc_code_inj {DevInst : XAie_DevInst} {Loc T : XAie_LocType}
    {a1 a2 : Nat} (h1 : _XAie_GetTargetTileLoc DevInst Loc a1 = .ok T)
    (h2 : _XAie_GetTargetTileLoc DevInst Loc a2 = .ok T) :
    u8 (a1 / DevInst.CoreMod.DataMemSize) = u8 (a2 / DevInst.CoreMod.DataMemSize) := by
  obtain ⟨-, -, -, c1⟩ := GetTargetTileLoc_ok h1
  obtain ⟨-, -, -, c2⟩ := GetTargetTileLoc_ok h2
  generalize u8 (a1 / DevInst.CoreMod.DataMemSize) = q1 at c1 ⊢
  generalize u8 (a2 / DevInst.CoreMod.DataMemSize) = q2 at c2 ⊢
  have hr : ∀ r c r' c' : Nat, (⟨r, c⟩ : XAie_LocType) = ⟨r', c'⟩ → r = r' ∧ c = c' := by
    intro r c r' c' h
    injection h with h h'
    exact ⟨h, h'⟩
  obtain ⟨R, C⟩ := Loc
  obtain ⟨R', C'⟩ := T
  simp only [u8] at c1 c2
  rcases c1 with ⟨e1, t1⟩ | ⟨e1, p1, t1⟩ | ⟨e1, p1, p1', t1⟩ | ⟨e1, t1⟩ | ⟨e1, p1, p1', t1⟩ |
      ⟨e1, p1, t1⟩ <;>
    rcases c2 with ⟨e2, t2⟩ | ⟨e2, p2, t2⟩ | ⟨e2, p2, p2', t2⟩ | ⟨e2, t2⟩ |
      ⟨e2, p2, p2', t2⟩ | ⟨e2, p2, t2⟩ <;>
    obtain ⟨t1r, t1c⟩ := hr _ _ _ _ t1 <;>
    obtain ⟨t2r, t2c⟩ := hr _ _ _ _ t2 <;>
    omega

theorem GetTargetTileLoc_error {DevInst : XAie_DevInst} {Loc : XAie_LocType} {a : Nat}
    {RC : AieRC} (h : _XAie_GetTargetTileLoc DevInst Loc a = .error RC) :
    RC = AieRC.XAIE_ERR := by
  unfold _XAie_GetTargetTileLoc at h
  simp only at h
  split at h
  · injection h with h; exact h.symm
  · split_ifs at h <;> injection h with h <;> exact h.symm

/-- A `while` loop of the writer is left by `return` with the code `XAIE_ERR` only. -/
theorem sectionLoop_ret (DevInst : XAie_DevInst) (Loc : XAie_LocType) (word : Nat → Nat)
    (fuel : Nat) : ∀ (n S A off : Nat) (RC : AieRC) (tr : List Event),
      sectionLoop DevInst Loc word fuel n S A off = (LoopExit.ret RC, tr) →
      RC = AieRC.XAIE_ERR := by
  intro n
  induction n with
  | zero =>
    intro S A off RC tr h
    simp [sectionLoop] at h
  | succ n ih =>
    intro S A off RC tr h
    rw [sectionLoop] at h
    split_ifs at h with hS
    · split at h
      · rename_i RC' hres
        injection h with h _
        injection h with h
        subst h
        exact GetTargetTileLoc_error hres
      · simp only at h
        split_ifs at h <;>
          first
          | (injection h with h _; exact ih _ _ _ RC _ (Prod.ext h rfl))
          | (injection h with h _; cases h)
    · injection h with h _
      cases h

/-- A word loop that ends within `fuel` iterations makes the same calls under any larger
bound. -/
theorem writeWords_mono (val : Nat → Nat → Nat) (Addr n d : Nat) :
    ∀ (fuel i cnt : Nat) (t : List Event), writeWords val Addr n fuel i cnt = (true, t) →
      writeWords val Addr n (fuel + d) i cnt = (true, t) := by
  intro fuel
  induction fuel with
  | zero =>
    intro i cnt t h
    simp [writeWords] at h
  | succ f ih =>
    intro i cnt t h
    rw [show f + 1 + d = (f + d) + 1 by omega]
    rw [writeWords] at h ⊢
    split_ifs at h ⊢ with hi
    · simp only at h ⊢
      injection h with h1 h2
      rw [ih _ _ _ (Prod.ext h1 rfl)]
      simp [h2]
    · exact h

/-- A `while` loop of the writer that is left within the bounds behaves the same under
any larger bounds. -/
theorem sectionLoop_mono (DevInst : XAie_DevInst) (Loc : XAie_LocType) (word : Nat → Nat)
    (fuel d d' : Nat) : ∀ (n S A off : Nat) (x : LoopExit) (t : List Event),
      sectionLoop DevInst Loc word fuel n S A off = (x, t) → x ≠ LoopExit.fuel →
      sectionLoop DevInst Loc word (fuel + d) (n + d') S A off = (x, t) := by
  intro n
  induction n with
  | zero =>
    intro S A off x t h hx
    simp only [sectionLoop] at h
    injection h with h1 _
    exact absurd h1.symm hx
  | succ n ih =>
    intro S A off x t h hx
    rw [show n + 1 + d' = (n + d') + 1 by omega]
    rw [sectionLoop] at h ⊢
    by_cases hS : S > 0
    · simp only [hS, if_true] at h ⊢
      cases hres : _XAie_GetTargetTileLoc DevInst Loc A with
      | error RC =>
        simp only [hres] at h ⊢
        exact h
      | ok T =>
        simp only [hres] at h ⊢
        generalize sub32 S (if u32 ((A &&& sub32 DevInst.CoreMod.DataMemSize 1) + S) >
            DevInst.CoreMod.DataMemSize then
          sub32 (u32 ((A &&& sub32 DevInst.CoreMod.DataMemSize 1) + S))
            DevInst.CoreMod.DataMemSize else 0) = L at h ⊢
        generalize u64 (u64 (DevInst.BaseAddr + (A &&& sub32 DevInst.CoreMod.DataMemSize 1))
          + DevInst.GetTileAddr T.Row T.Col) = Ad at h ⊢
        by_cases hw : (writeWords (fun _ cnt => word (off + 4 * cnt)) Ad L fuel 0 0).1 = true
        · have hw' := writeWords_mono _ _ _ d _ _ _ _ (Prod.ext hw rfl)
          rw [hw']
          simp only [hw, if_true] at h ⊢
          injection h with h1 h2
          rw [ih _ _ _ _ _ (Prod.ext h1 rfl) hx]
          simp [h1, h2]
        · simp only [hw] at h
          injection h with h1 _
          exact absurd h1.symm hx
    · simp only [hS, if_false] at h ⊢
      exact h

/-- A run of the writer that returns within the loop bound `fuel` returns the same code
after the same calls under any larger bound. -/
theorem WriteProgramSection_mono (fuel d : Nat) (DevInst : XAie_DevInst)
    (Loc : XAie_LocType) (ProgSec : Nat → Nat) (Phdr : Elf32_Phdr) (RC : AieRC)
    (tr : List Event)
    (h : _XAie_WriteProgramSection fuel DevInst Loc ProgSec Phdr = ⟨some RC, tr⟩) :
    _XAie_WriteProgramSection (fuel + d) DevInst Loc ProgSec Phdr = ⟨some RC, tr⟩ := by
  unfold _XAie_WriteProgramSection at h ⊢
  simp only at h ⊢
  by_cases c1 : Phdr.p_paddr < DevInst.CoreMod.ProgMemSize
  · simp only [c1, if_true] at h ⊢
    by_cases c2 : u32 (Phdr.p_paddr + Phdr.p_memsz) > DevInst.CoreMod.ProgMemSize
    · simp only [c2, if_true] at h ⊢
      exact h
    · simp only [c2, if_false] at h ⊢
      generalize u64 (u64 (u64 (DevInst.BaseAddr + DevInst.CoreMod.ProgMemHostOffset)
        + Phdr.p_paddr) + DevInst.GetTileAddr Loc.Row Loc.Col) = Ad at h ⊢
      by_cases hw : (writeWords (fun i _ => load32 ProgSec i) Ad Phdr.p_memsz fuel 0 0).1 = true
      · rw [writeWords_mono _ _ _ d _ _ _ _ (Prod.ext hw rfl)]
        simp only [hw, if_true] at h ⊢
        exact h
      · simp [hw] at h
  simp only [c1, if_false] at h ⊢
  by_cases c3 : (Phdr.p_paddr > DevInst.CoreMod.ProgMemSize ∧
      Phdr.p_paddr < DevInst.CoreMod.DataMemAddr) ∨
      u32 (Phdr.p_paddr + Phdr.p_memsz) >
        u32 (DevInst.CoreMod.DataMemAddr + u32 (DevInst.CoreMod.DataMemSize * 4))
  · simp only [c3, if_true] at h ⊢
    exact h
  simp only [c3, if_false] at h ⊢
  · generalize hl1 : sectionLoop DevInst Loc (load32 ProgSec) fuel fuel Phdr.p_filesz
      Phdr.p_paddr 0 = r1 at h
    obtain ⟨x1, t1⟩ := r1
    cases x1 with
    | fuel => simp at h
    | ret RC1 =>
      rw [sectionLoop_mono _ _ _ fuel d d _ _ _ _ _ _ hl1 (by simp)]
      exact h
    | done =>
      rw [sectionLoop_mono _ _ _ fuel d d _ _ _ _ _ _ hl1 (by simp)]
      simp only at h ⊢
      generalize hl2 : sectionLoop DevInst Loc (fun _ => 0) fuel fuel
        (sub32 Phdr.p_memsz Phdr.p_filesz) (u32 (Phdr.p_paddr + Phdr.p_filesz)) 0 = r2 at h
      obtain ⟨x2, t2⟩ := r2
      cases x2 with
      | fuel => simp at h
      | ret RC2 =>
        rw [sectionLoop_mono _ _ _ fuel d d _ _ _ _ _ _ hl2 (by simp)]
        exact h
      | done =>
        rw [sectionLoop_mono _ _ _ fuel d d _ _ _ _ _ _ hl2 (by simp)]
        exact h

/-- Round trip of a word-aligned data-memory segment, for a loop bound above `B / 4`. -/
theorem WriteProgramSection_round_trip_aux (fuel : Nat) (DevInst : XAie_DevInst)
    (Loc : XAie_LocType) (ProgSec : Nat → Nat) (Phdr : Elf32_Phdr) (e : Nat)
    (mem : Nat → Nat) (tr : List Event)
    (hB : DevInst.CoreMod.DataMemSize = 2 ^ e) (he : 2 ≤ e)
    (hprog : DevInst.CoreMod.ProgMemSize ≤ Phdr.p_paddr)
    (hbase : DevInst.CoreMod.DataMemAddr ≤ Phdr.p_paddr)
    (hend : Phdr.p_paddr + Phdr.p_memsz ≤ DevInst.CoreMod.DataMemAddr + 4 * 2 ^ e)
    (hdev : DevInst.CoreMod.DataMemAddr + 4 * 2 ^ e < 2 ^ 32)
    (hle : Phdr.p_filesz ≤ Phdr.p_memsz)
    (h4a : Phdr.p_paddr % 4 = 0) (h4f : Phdr.p_filesz % 4 = 0)
    (h4m : Phdr.p_memsz % 4 = 0)
    (haddr : ∀ T : XAie_LocType, T.Row < DevInst.NumRows → T.Col < DevInst.NumCols →
      DevInst.BaseAddr + 2 ^ e + DevInst.GetTileAddr T.Row T.Col ≤ 2 ^ 64)
    (hwin : ∀ T T' : XAie_LocType, T.Row < DevInst.NumRows → T.Col < DevInst.NumCols →
      T'.Row < DevInst.NumRows → T'.Col < DevInst.NumCols →
      ∀ o o', o < 2 ^ e → o' < 2 ^ e →
        DevInst.GetTileAddr T.Row T.Col + o = DevInst.GetTileAddr T'.Row T'.Col + o' →
        T = T')
    (hf : 2 ^ e / 4 < fuel)
    (hrun : _XAie_WriteProgramSection fuel DevInst Loc ProgSec Phdr
      = ⟨some AieRC.XAIE_OK, tr⟩) :
    ∀ k, k < Phdr.p_memsz →
      ∃ T, _XAie_GetTargetTileLoc DevInst Loc (Phdr.p_paddr + k) = .ok T ∧
        applyTrace tr mem
          (DevInst.BaseAddr + ((Phdr.p_paddr + k) &&& (DevInst.CoreMod.DataMemSize - 1))
            + DevInst.GetTileAddr T.Row T.Col)
          = if k < Phdr.p_filesz then ProgSec k % 256 else 0 := by
  have hBpos : 0 < 2 ^ e := Nat.two_pow_pos e
  have he' : e < 32 := by
    by_contra hcon
    have : 2 ^ 32 ≤ 2 ^ e := Nat.pow_le_pow_right (by omega) (by omega)
    omega
  have h4B : 2 ^ e % 4 = 0 := by
    obtain ⟨d, rfl⟩ : ∃ d, e = d + 2 := ⟨e - 2, by omega⟩
    rw [pow_add]; omega
  -- the two loops ran to their ends
  have c1 : ¬ (Phdr.p_paddr < DevInst.CoreMod.ProgMemSize) := by omega
  have c2 : ¬ ((Phdr.p_paddr > DevInst.CoreMod.ProgMemSize ∧
      Phdr.p_paddr < DevInst.CoreMod.DataMemAddr) ∨
      u32 (Phdr.p_paddr + Phdr.p_memsz) >
        u32 (DevInst.CoreMod.DataMemAddr + u32 (DevInst.CoreMod.DataMemSize * 4))) := by
    rw [hB]
    unfold u32
    omega
  have hz : sub32 Phdr.p_memsz Phdr.p_filesz = Phdr.p_memsz - Phdr.p_filesz :=
    sub32_of_le hle (by omega)
  have hu : u32 (Phdr.p_paddr + Phdr.p_filesz) = Phdr.p_paddr + Phdr.p_filesz := by
    unfold u32; omega
  simp only [_XAie_WriteProgramSection, c1, c2, if_false, hz, hu] at hrun
  generalize hl1 : sectionLoop DevInst Loc (load32 ProgSec) fuel fuel Phdr.p_filesz
    Phdr.p_paddr 0 = r1 at hrun
  obtain ⟨x1, t1⟩ := r1
  generalize hl2 : sectionLoop DevInst Loc (fun _ => 0) fuel fuel
    (Phdr.p_memsz - Phdr.p_filesz) (Phdr.p_paddr + Phdr.p_filesz) 0 = r2 at hrun
  obtain ⟨x2, t2⟩ := r2
  cases x1 with
  | fuel => simp at hrun
  | ret RC =>
    have := sectionLoop_ret _ _ _ _ _ _ _ _ _ _ hl1
    subst this
    simp at hrun
  | done =>
  cases x2 with
  | fuel => simp at hrun
  | ret RC =>
    have := sectionLoop_ret _ _ _ _ _ _ _ _ _ _ hl2
    subst this
    simp at hrun
  | done =>
  simp only [Outcome.mk.injEq, true_and] at hrun
  subst hrun
  obtain ⟨w1, r1⟩ := sectionLoop_done_writes DevInst Loc (load32 ProgSec) fuel e hB he he' hf
    fuel Phdr.p_filesz Phdr.p_paddr 0 t1 h4f h4a (by omega) hl1
  obtain ⟨w2, r2⟩ := sectionLoop_done_writes DevInst Loc (fun _ => 0) fuel e hB he he' hf
    fuel (Phdr.p_memsz - Phdr.p_filesz) (Phdr.p_paddr + Phdr.p_filesz) 0 t2 (by omega)
    (by omega) (by omega) hl2
  -- every word of the segment has an owner
  have hres : ∀ j, j < Phdr.p_memsz / 4 →
      ∃ T, _XAie_GetTargetTileLoc DevInst Loc (Phdr.p_paddr + 4 * j) = .ok T := by
    intro j hj
    by_cases hjf : j < Phdr.p_filesz / 4
    · exact r1 j hjf
    · obtain ⟨T, hT⟩ := r2 (j - Phdr.p_filesz / 4) (by omega)
      refine ⟨T, ?_⟩
      have e1 : Phdr.p_paddr + 4 * j
          = Phdr.p_paddr + Phdr.p_filesz + 4 * (j - Phdr.p_filesz / 4) := by omega
      rw [e1]; exact hT
  -- the list of all word writes
  have hws : writesOf (t1 ++ t2) = (List.range' 0 (Phdr.p_memsz / 4)).map
      (fun j => (dataAddr DevInst Loc (Phdr.p_paddr + 4 * j),
        if 4 * j < Phdr.p_filesz then load32 ProgSec (4 * j) else 0)) := by
    have hsplit : Phdr.p_memsz / 4 = Phdr.p_filesz / 4 + (Phdr.p_memsz - Phdr.p_filesz) / 4 := by
      omega
    rw [writesOf_append, w1, w2, ← List.range_eq_range', hsplit, List.range_add,
      List.map_append, List.map_map]
    congr 1
    · apply List.map_congr_left
      intro j hj
      rw [List.mem_range] at hj
      have : 4 * j < Phdr.p_filesz := by omega
      simp [this]
    · apply List.map_congr_left
      intro j _
      have : ¬ (4 * (Phdr.p_filesz / 4 + j) < Phdr.p_filesz) := by omega
      have e1 : Phdr.p_paddr + 4 * (Phdr.p_filesz / 4 + j)
          = Phdr.p_paddr + Phdr.p_filesz + 4 * j := by omega
      simp [this, e1]
  -- address of byte `b` of word `j`
  have hbyte : ∀ j b, j < Phdr.p_memsz / 4 → b < 4 →
      ∃ T, _XAie_GetTargetTileLoc DevInst Loc (Phdr.p_paddr + (4 * j + b)) = .ok T ∧
        dataAddr DevInst Loc (Phdr.p_paddr + 4 * j) + b =
          DevInst.BaseAddr + (Phdr.p_paddr + (4 * j + b)) % 2 ^ e
            + DevInst.GetTileAddr T.Row T.Col := by
    intro j b hj hb
    obtain ⟨T, hT⟩ := hres j hj
    have ho : (Phdr.p_paddr + 4 * j) % 2 ^ e < 2 ^ e := Nat.mod_lt _ hBpos
    have h4o : (Phdr.p_paddr + 4 * j) % 2 ^ e % 4 = 0 := by
      have := Nat.mod_mod_of_dvd (Phdr.p_paddr + 4 * j)
        (show 4 ∣ 2 ^ e from Nat.dvd_of_mod_eq_zero h4B)
      omega
    obtain ⟨b1, b2⟩ := bank_offset (A := Phdr.p_paddr + 4 * j) (x := b) hBpos (by omega)
    rw [Nat.add_assoc] at b1 b2
    refine ⟨T, ?_, ?_⟩
    · rw [GetTargetTileLoc_same_bank DevInst Loc _ (Phdr.p_paddr + 4 * j)
        (by rw [hB]; exact b1)]
      exact hT
    · obtain ⟨g1, g2, -, -⟩ := GetTargetTileLoc_ok hT
      have := haddr T g1 g2
      rw [dataAddr_of_ok DevInst Loc T _ e hB he' hT, b2, Nat.mod_eq_of_lt (by omega)]
      omega
  intro k hk
  obtain ⟨T, hT, hTa⟩ := hbyte (k / 4) (k % 4) (by omega) (by omega)
  have hk4 : 4 * (k / 4) + k % 4 = k := by omega
  rw [hk4] at hT hTa
  refine ⟨T, hT, ?_⟩
  rw [hB, Nat.and_pow_two_sub_one_eq_mod, ← hTa, applyTrace_eq_foldl, hws]
  rw [foldl_store32_read (fun j => dataAddr DevInst Loc (Phdr.p_paddr + 4 * j)) _ mem
    (k / 4) (k % 4) (by omega) 0 (Phdr.p_memsz / 4) (by omega) (by omega)]
  · by_cases hkf : k < Phdr.p_filesz
    · have : 4 * (k / 4) < Phdr.p_filesz := by omega
      simp only [this, hkf, if_true]
      rw [load32_byte _ _ _ (by omega), hk4]
    · have : ¬ (4 * (k / 4) < Phdr.p_filesz) := by omega
      simp [this, hkf]
  · -- distinct bytes of the segment have distinct device addresses
    intro j' _ hj' hne b' hb' heq
    obtain ⟨T', hT', hTa'⟩ := hbyte j' b' (by omega) hb'
    rw [hTa', hTa] at heq
    obtain ⟨g1, g2, -, -⟩ := GetTargetTileLoc_ok hT
    obtain ⟨g1', g2', -, -⟩ := GetTargetTileLoc_ok hT'
    have hTT : T' = T := hwin T' T g1' g2' g1 g2
      ((Phdr.p_paddr + (4 * j' + b')) % 2 ^ e) ((Phdr.p_paddr + k) % 2 ^ e)
      (Nat.mod_lt _ hBpos) (Nat.mod_lt _ hBpos) (by omega)
    subst hTT
    have hcode := GetTargetTileLoc_code_inj hT' hT
    rw [hB] at hcode
    have hoff : (Phdr.p_paddr + (4 * j' + b')) % 2 ^ e = (Phdr.p_paddr + k) % 2 ^ e := by
      omega
    have d1 := Nat.div_add_mod (Phdr.p_paddr + (4 * j' + b')) (2 ^ e)
    have d2 := Nat.div_add_mod (Phdr.p_paddr + k) (2 ^ e)
    have hq : (Phdr.p_paddr + (4 * j' + b')) / 2 ^ e = (Phdr.p_paddr + k) / 2 ^ e := by
      have q1 : (Phdr.p_paddr + (4 * j' + b')) / 2 ^ e
          ≤ (Phdr.p_paddr + k) / 2 ^ e + 4 := by
        rw [← Nat.add_mul_div_left _ _ hBpos]
        apply Nat.div_le_div_right
        omega
      have q2 : (Phdr.p_paddr + k) / 2 ^ e
          ≤ (Phdr.p_paddr + (4 * j' + b')) / 2 ^ e + 4 := by
        rw [← Nat.add_mul_div_left _ _ hBpos]
        apply Nat.div_le_div_right
        omega
      simp only [u8] at hcode
      omega
    rw [hq, hoff] at d1
    omega

/-- C2 (counterexample): on `aieDev` the writer returns `XAIE_OK` for the data-memory
segment of 6 bytes at `0x27FFE`, whose bytes are 0, 1, 2, ...; byte 2 of the segment
belongs at offset 0 of the West bank, owned by the tile `(2, 1)`, and what is read back
there is 4: the first chunk has consumed a whole word of the segment for its 2 bytes. -/
theorem WriteProgramSection_round_trip_counterexample :
    aieDev.CoreMod.DataMemAddr ≤ (mkPhdr 0x27FFE 6 6).p_paddr ∧
    (mkPhdr 0x27FFE 6 6).p_paddr + (mkPhdr 0x27FFE 6 6).p_memsz
      ≤ aieDev.CoreMod.DataMemAddr + 4 * aieDev.CoreMod.DataMemSize ∧
    (_XAie_WriteProgramSection 8 aieDev ⟨2, 1⟩ rampBytes (mkPhdr 0x27FFE 6 6)).RC
      = some AieRC.XAIE_OK ∧
    _XAie_GetTargetTileLoc aieDev ⟨2, 1⟩ ((mkPhdr 0x27FFE 6 6).p_paddr + 2) = .ok ⟨2, 1⟩ ∧
    rampBytes 2 = 2 ∧
    applyTrace (_XAie_WriteProgramSection 8 aieDev ⟨2, 1⟩ rampBytes (mkPhdr 0x27FFE 6 6)).Trace
      (fun _ => 0)
      (aieDev.BaseAddr
        + (((mkPhdr 0x27FFE 6 6).p_paddr + 2) &&& (aieDev.CoreMod.DataMemSize - 1))
        + aieDev.GetTileAddr 2 1) = 4 := by
  decide

/-- C2 (amended): round trip of a word-aligned data-memory segment. Let the data-memory
size `B` be a power of two, at least 4; let the segment lie inside the data-memory
extent, which ends below `2 ^ 32`, with `p_paddr`, `p_filesz` and `p_memsz` multiples of 4
and `p_filesz ≤ p_memsz`; let the data-memory windows of the in-grid tiles lie in the
64-bit address space and be pairwise disjoint. If the writer returns `XAIE_OK`, then
after its word writes, for every `k < p_memsz`, the resolver succeeds at `p_paddr + k`
and the device byte at `BaseAddr + ((p_paddr + k) & (B - 1)) + GetTileAddr T`, `T` the
tile resolved, is byte `k` of the segment if `k < p_filesz` and 0 otherwise. -/
theorem WriteProgramSection_round_trip (fuel : Nat) (DevInst : XAie_DevInst)
    (Loc : XAie_LocType) (ProgSec : Nat → Nat) (Phdr : Elf32_Phdr) (e : Nat)
    (mem : Nat → Nat) (tr : List Event)
    (hB : DevInst.CoreMod.DataMemSize = 2 ^ e) (he : 2 ≤ e)
    (hprog : DevInst.CoreMod.ProgMemSize ≤ Phdr.p_paddr)
    (hbase : DevInst.CoreMod.DataMemAddr ≤ Phdr.p_paddr)
    (hend : Phdr.p_paddr + Phdr.p_memsz ≤ DevInst.CoreMod.DataMemAddr + 4 * 2 ^ e)
    (hdev : DevInst.CoreMod.DataMemAddr + 4 * 2 ^ e < 2 ^ 32)
    (hle : Phdr.p_filesz ≤ Phdr.p_memsz)
    (h4a : Phdr.p_paddr % 4 = 0) (h4f : Phdr.p_filesz % 4 = 0)
    (h4m : Phdr.p_memsz % 4 = 0)
    (haddr : ∀ T : XAie_LocType, T.Row < DevInst.NumRows → T.Col < DevInst.NumCols →
      DevInst.BaseAddr + 2 ^ e + DevInst.GetTileAddr T.Row T.Col ≤ 2 ^ 64)
    (hwin : ∀ T T' : XAie_LocType, T.Row < DevInst.NumRows → T.Col < DevInst.NumCols →
      T'.Row < DevInst.NumRows → T'.Col < DevInst.NumCols →
      ∀ o o', o < 2 ^ e → o' < 2 ^ e →
        DevInst.GetTileAddr T.Row T.Col + o = DevInst.GetTileAddr T'.Row T'.Col + o' →
        T = T')
    (hrun : _XAie_WriteProgramSection fuel DevInst Loc ProgSec Phdr
      = ⟨some AieRC.XAIE_OK, tr⟩) :
    ∀ k, k < Phdr.p_memsz →
      ∃ T, _XAie_GetTargetTileLoc DevInst Loc (Phdr.p_paddr + k) = .ok T ∧
        applyTrace tr mem
          (DevInst.BaseAddr + ((Phdr.p_paddr + k) &&& (DevInst.CoreMod.DataMemSize - 1))
            + DevInst.GetTileAddr T.Row T.Col)
          = if k < Phdr.p_filesz then ProgSec k % 256 else 0 :=
  WriteProgramSection_round_trip_aux (fuel + (2 ^ e / 4 + 1)) DevInst Loc ProgSec Phdr e mem tr
    hB he hprog hbase hend hdev hle h4a h4f h4m haddr hwin (by omega)
    (WriteProgramSection_mono fuel (2 ^ e / 4 + 1) DevInst Loc ProgSec Phdr _ tr hrun)

/-- The tile address of `aieDev` as a sum, for rows below 32. -/
theorem aieDev_GetTileAddr (R C : Nat) (hR : R < 32) :
    aieDev.GetTileAddr R C = R * 2 ^ 18 + C * 2 ^ 23 := by
  show (R <<< 18) ||| (C <<< 23) = R * 2 ^ 18 + C * 2 ^ 23
  rw [Nat.shiftLeft_eq, Nat.shiftLeft_eq, Nat.lor_comm, Nat.mul_comm C,
    ← Nat.mul_add_lt_is_or (by omega) C]
  omega

/-- Witness of the amended C2 on `aieDev`: 16 bytes at `0x27FF8`, of which 8 come from
the file, written over a device memory that held `0xFF` everywhere; byte 13 of the
segment, in the zero-filled part, is read back from the West bank. -/
theorem WriteProgramSection_round_trip_witness :
    ∃ T, _XAie_GetTargetTileLoc aieDev ⟨2, 1⟩ ((mkPhdr 0x27FF8 8 16).p_paddr + 13) = .ok T ∧
      applyTrace
        [Event.resolve 163832, Event.write32 2199031939064 50462976,
          Event.write32 2199031939068 117835012, Event.resolve 163840,
          Event.write32 2199032168448 0, Event.write32 2199032168452 0]
        (fun _ => 0xFF)
        (aieDev.BaseAddr
          + (((mkPhdr 0x27FF8 8 16).p_paddr + 13) &&& (aieDev.CoreMod.DataMemSize - 1))
          + aieDev.GetTileAddr T.Row T.Col)
        = if 13 < (mkPhdr 0x27FF8 8 16).p_filesz then rampBytes 13 % 256 else 0 :=
  WriteProgramSection_round_trip 8 aieDev ⟨2, 1⟩ rampBytes (mkPhdr 0x27FF8 8 16) 15
    (fun _ => 0xFF) _ (by decide) (by decide) (by decide) (by decide) (by decide)
    (by decide) (by decide) (by decide) (by decide) (by decide)
    (by
      intro T h1 h2
      have h1' : T.Row < 9 := h1
      have h2' : T.Col < 50 := h2
      rw [aieDev_GetTileAddr _ _ (by omega)]
      have : aieDev.BaseAddr = 0x20000000000 := rfl
      omega)
    (by
      intro T T' h1 h2 h1' h2' o o' ho ho' h
      have g1 : T.Row < 9 := h1
      have g2 : T.Col < 50 := h2
      have g1' : T'.Row < 9 := h1'
      have g2' : T'.Col < 50 := h2'
      rw [aieDev_GetTileAddr _ _ (by omega), aieDev_GetTileAddr _ _ (by omega)] at h
      obtain ⟨R, C⟩ := T
      obtain ⟨R', C'⟩ := T'
      simp only at g1 g2 g1' g2' h
      have hR : R = R' := by omega
      have hC : C = C' := by omega
      rw [hR, hC])
    (by decide) 13 (by decide)

/-! ## Theorems on `XAie_LoadElfMem` -/

/-- C12: for a device instance whose `IsReady` is not `XAIE_COMPONENT_IS_READY`, and every
location, buffer (null or not), size and loop bound, `XAie_LoadElfMem` returns
`XAIE_INVALID_ARGS`; it reads no program header, calls the writer for no segment and
issues no write, whatever the tile type of the location. -/
theorem LoadElfMem_not_ready (fuel : Nat) (Dev : XAie_DevInst) (Loc : XAie_LocType)
    (ElfMem : Option (Nat → Nat)) (ElfSz : Nat)
    (h : Dev.IsReady ≠ XAIE_COMPONENT_IS_READY) :
    XAie_LoadElfMem fuel (some Dev) Loc ElfMem ElfSz
      = ⟨some AieRC.XAIE_INVALID_ARGS, [], [], []⟩ := by
  cases ElfMem with
  | none => rfl
  | some Mem => simp [XAie_LoadElfMem, h]

/-- Witness of C12: `aieDev` with the readiness flag cleared, and a binary with one
loadable segment. -/
theorem LoadElfMem_not_ready_witness :
    XAie_LoadElfMem 8 (some { aieDev with IsReady := 0 }) ⟨2, 1⟩
        (some (mkElf 52 1 [mkPhdrAt 1 0x100 0 8 8] rampBytes)) 0x200
      = ⟨some AieRC.XAIE_INVALID_ARGS, [], [], []⟩ :=
  LoadElfMem_not_ready 8 { aieDev with IsReady := 0 } ⟨2, 1⟩
    (some (mkElf 52 1 [mkPhdrAt 1 0x100 0 8 8] rampBytes)) 0x200 (by decide)

/-- C13 (counterexample): on the ready device `aieDev`, for the processing tile `(2, 1)`,
a call with a non-null buffer of size 0 does not return `XAIE_INVALID_ARGS`: the size is
not looked at, the header is read from the memory `ElfMem` points to, here all zero
(`e_phnum = 0`), and the loader returns `XAIE_OK`. -/
theorem LoadElfMem_empty_buffer_counterexample :
    aieDev.IsReady = XAIE_COMPONENT_IS_READY ∧
    XAie_LoadElfMem 8 (some aieDev) ⟨2, 1⟩ (some (fun _ => 0)) 0
      = ⟨some AieRC.XAIE_OK, [], [], []⟩ := by
  decide

/-- C13 (amended): for every device instance and every location, a call with a null
buffer returns `XAIE_INVALID_ARGS`, reads no program header and issues no write; and the
size `ElfSz` of the buffer is not examined: the result is the same for every size. -/
theorem LoadElfMem_null_buffer (fuel : Nat) (DevInst : Option XAie_DevInst)
    (Loc : XAie_LocType) (ElfSz : Nat) :
    XAie_LoadElfMem fuel DevInst Loc none ElfSz
      = ⟨some AieRC.XAIE_INVALID_ARGS, [], [], []⟩ ∧
    ∀ (ElfMem : Option (Nat → Nat)) (ElfSz' : Nat),
      XAie_LoadElfMem fuel DevInst Loc ElfMem ElfSz
        = XAie_LoadElfMem fuel DevInst Loc ElfMem ElfSz' := by
  constructor
  · cases DevInst <;> rfl
  · intro ElfMem ElfSz'
    cases DevInst <;> cases ElfMem <;> rfl


theorem loadLoop_end (fuel : Nat) (DevInst : XAie_DevInst) (Loc : XAie_LocType)
    (ElfMem : Nat → Nat) (n phnum : Nat) (h : ¬ phnum < e_phnum ElfMem) :
    loadLoop fuel DevInst Loc ElfMem (n + 1) phnum = ⟨some AieRC.XAIE_OK, [], [], []⟩ := by
  simp [loadLoop, h]

theorem loadLoop_skip (fuel : Nat) (DevInst : XAie_DevInst) (Loc : XAie_LocType)
    (ElfMem : Nat → Nat) (n phnum : Nat) (h : phnum < e_phnum ElfMem)
    (ht : (phdrAt ElfMem phnum).p_type ≠ PT_LOAD) :
    loadLoop fuel DevInst Loc ElfMem (n + 1) phnum =
      ⟨(loadLoop fuel DevInst Loc ElfMem n (u8 (phnum + 1))).RC,
        (sizeof_Elf32_Ehdr + phnum * sizeof_Elf32_Phdr) ::
          (loadLoop fuel DevInst Loc ElfMem n (u8 (phnum + 1))).Phdrs,
        (loadLoop fuel DevInst Loc ElfMem n (u8 (phnum + 1))).Calls,
        (loadLoop fuel DevInst Loc ElfMem n (u8 (phnum + 1))).Trace⟩ := by
  unfold phdrAt at ht
  simp [loadLoop, h, ht]

theorem loadLoop_ok (fuel : Nat) (DevInst : XAie_DevInst) (Loc : XAie_LocType)
    (ElfMem : Nat → Nat) (n phnum : Nat) (h : phnum < e_phnum ElfMem)
    (ht : (phdrAt ElfMem phnum).p_type = PT_LOAD)
    (hr : (sectionRun fuel DevInst Loc ElfMem phnum).RC = some AieRC.XAIE_OK) :
    loadLoop fuel DevInst Loc ElfMem (n + 1) phnum =
      ⟨(loadLoop fuel DevInst Loc ElfMem n (u8 (phnum + 1))).RC,
        (sizeof_Elf32_Ehdr + phnum * sizeof_Elf32_Phdr) ::
          (loadLoop fuel DevInst Loc ElfMem n (u8 (phnum + 1))).Phdrs,
        ((phdrAt ElfMem phnum).p_offset, phdrAt ElfMem phnum) ::
          (loadLoop fuel DevInst Loc ElfMem n (u8 (phnum + 1))).Calls,
        (sectionRun fuel DevInst Loc ElfMem phnum).Trace ++
          (loadLoop fuel DevInst Loc ElfMem n (u8 (phnum + 1))).Trace⟩ := by
  unfold sectionRun phdrAt at *
  simp [loadLoop, h, ht, hr]

theorem loadLoop_stop (fuel : Nat) (DevInst : XAie_DevInst) (Loc : XAie_LocType)
    (ElfMem : Nat → Nat) (n phnum : Nat) (h : phnum < e_phnum ElfMem)
    (ht : (phdrAt ElfMem phnum).p_type = PT_LOAD)
    (hr : (sectionRun fuel DevInst Loc ElfMem phnum).RC ≠ some AieRC.XAIE_OK) :
    loadLoop fuel DevInst Loc ElfMem (n + 1) phnum =
      ⟨(sectionRun fuel DevInst Loc ElfMem phnum).RC,
        [sizeof_Elf32_Ehdr + phnum * sizeof_Elf32_Phdr],
        [((phdrAt ElfMem phnum).p_offset, phdrAt ElfMem phnum)],
        (sectionRun fuel DevInst Loc ElfMem phnum).Trace⟩ := by
  unfold sectionRun phdrAt at *
  simp only [loadLoop, h, ht, if_true]
  split
  · rename_i heq
    exact absurd heq hr
  · rename_i RC _ heq
    simp [heq]
  · rename_i heq
    simp [heq]

/-- What a run of the loop of the loader, entered at `phnum`, has done, for a segment
count of at most 255: it has gone through the program headers `phnum`, ...,
`phnum + c - 1` of the table, in order, and called the writer for the loadable ones. -/
theorem loadLoop_spec (fuel : Nat) (DevInst : XAie_DevInst) (Loc : XAie_LocType)
    (ElfMem : Nat → Nat) (hn : e_phnum ElfMem ≤ 255) :
    ∀ (k phnum : Nat), phnum ≤ e_phnum ElfMem →
      ∃ c, phnum + c ≤ e_phnum ElfMem ∧
        (loadLoop fuel DevInst Loc ElfMem k phnum).Phdrs =
          (List.range' phnum c).map (fun i => sizeof_Elf32_Ehdr + i * sizeof_Elf32_Phdr) ∧
        (loadLoop fuel DevInst Loc ElfMem k phnum).Calls =
          ((List.range' phnum c).filter
              (fun i => decide ((phdrAt ElfMem i).p_type = PT_LOAD))).map
            (fun i => ((phdrAt ElfMem i).p_offset, phdrAt ElfMem i)) ∧
        (loadLoop fuel DevInst Loc ElfMem k phnum).Trace =
          (((List.range' phnum c).filter
              (fun i => decide ((phdrAt ElfMem i).p_type = PT_LOAD))).map
            (fun i => (sectionRun fuel DevInst Loc ElfMem i).Trace)).flatten ∧
        ((loadLoop fuel DevInst Loc ElfMem k phnum).RC = some AieRC.XAIE_OK →
          phnum + c = e_phnum ElfMem) := by
  intro k
  induction k with
  | zero =>
    intro phnum hp
    exact ⟨0, by omega, by simp [loadLoop], by simp [loadLoop], by simp [loadLoop],
      by simp [loadLoop]⟩
  | succ k ih =>
    intro phnum hp
    by_cases hlt : phnum < e_phnum ElfMem
    · have hu : u8 (phnum + 1) = phnum + 1 := u8_of_lt (by omega)
      obtain ⟨c, hc, h1, h2, h3, h4⟩ := ih (phnum + 1) (by omega)
      by_cases ht : (phdrAt ElfMem phnum).p_type = PT_LOAD
      · by_cases hr : (sectionRun fuel DevInst Loc ElfMem phnum).RC = some AieRC.XAIE_OK
        · rw [loadLoop_ok fuel DevInst Loc ElfMem k phnum hlt ht hr, hu]
          refine ⟨c + 1, by omega, ?_, ?_, ?_, ?_⟩
          · simp [List.range'_succ, h1]
          · simp [List.range'_succ, ht, h2]
          · simp [List.range'_succ, ht, h3]
          · intro h; have := h4 h; omega
        · rw [loadLoop_stop fuel DevInst Loc ElfMem k phnum hlt ht hr]
          refine ⟨1, by omega, ?_, ?_, ?_, ?_⟩
          · simp
          · simp [ht]
          · simp [ht]
          · intro h; exact absurd h hr
      · rw [loadLoop_skip fuel DevInst Loc ElfMem k phnum hlt ht, hu]
        refine ⟨c + 1, by omega, ?_, ?_, ?_, ?_⟩
        · simp [List.range'_succ, h1]
        · simp [List.range'_succ, ht, h2]
        · simp [List.range'_succ, ht, h3]
        · intro h; have := h4 h; omega
    · rw [loadLoop_end fuel DevInst Loc ElfMem k phnum hlt]
      exact ⟨0, by omega, by simp, by simp, by simp, fun _ => by omega⟩

/-- C14 (counterexample): a binary whose header records the segment-table offset 84 and
one segment; at offset 84 lies a loadable program header, at offset 52, right after the
ELF header, one that is not loadable. The loader parses the program header at offset
52, not the one at `e_phoff + 0 * 32 = 84`, and loads nothing. -/
theorem LoadElfMem_ignores_e_phoff :
    e_phoff (mkElf 84 1 [mkPhdrAt 0 0 0 0 0, mkPhdrAt 1 0x100 0 8 8] rampBytes) = 84 ∧
    e_phnum (mkElf 84 1 [mkPhdrAt 0 0 0 0 0, mkPhdrAt 1 0x100 0 8 8] rampBytes) = 1 ∧
    (readPhdr (mkElf 84 1 [mkPhdrAt 0 0 0 0 0, mkPhdrAt 1 0x100 0 8 8] rampBytes) 84).p_type
      = PT_LOAD ∧
    XAie_LoadElfMem 8 (some aieDev) ⟨2, 1⟩
        (some (mkElf 84 1 [mkPhdrAt 0 0 0 0 0, mkPhdrAt 1 0x100 0 8 8] rampBytes)) 0x200
      = ⟨some AieRC.XAIE_OK, [52], [], []⟩ := by
  decide

/-- The loop of the loader, entered at `phnum`, over `d` program headers whose loadable
ones are all written with `XAIE_OK`, for a segment count of at most 255: it reads the
`d` program headers in order, calls the writer for the loadable ones, and goes on at
`phnum + d`. -/
theorem loadLoop_prefix (fuel : Nat) (DevInst : XAie_DevInst) (Loc : XAie_LocType)
    (ElfMem : Nat → Nat) (hn : e_phnum ElfMem ≤ 255) :
    ∀ (d k phnum : Nat), phnum + d ≤ e_phnum ElfMem →
      (∀ i, phnum ≤ i → i < phnum + d → (phdrAt ElfMem i).p_type = PT_LOAD →
        (sectionRun fuel DevInst Loc ElfMem i).RC = some AieRC.XAIE_OK) →
      loadLoop fuel DevInst Loc ElfMem (k + d) phnum =
        ⟨(loadLoop fuel DevInst Loc ElfMem k (phnum + d)).RC,
          (List.range' phnum d).map (fun i => sizeof_Elf32_Ehdr + i * sizeof_Elf32_Phdr) ++
            (loadLoop fuel DevInst Loc ElfMem k (phnum + d)).Phdrs,
          ((List.range' phnum d).filter
              (fun i => decide ((phdrAt ElfMem i).p_type = PT_LOAD))).map
            (fun i => ((phdrAt ElfMem i).p_offset, phdrAt ElfMem i)) ++
            (loadLoop fuel DevInst Loc ElfMem k (phnum + d)).Calls,
          (((List.range' phnum d).filter
              (fun i => decide ((phdrAt ElfMem i).p_type = PT_LOAD))).map
            (fun i => (sectionRun fuel DevInst Loc ElfMem i).Trace)).flatten ++
            (loadLoop fuel DevInst Loc ElfMem k (phnum + d)).Trace⟩ := by
  intro d
  induction d with
  | zero => intro k phnum _ _; simp
  | succ d ih =>
    intro k phnum hle hok
    have hlt : phnum < e_phnum ElfMem := by omega
    have hu : u8 (phnum + 1) = phnum + 1 := u8_of_lt (by omega)
    have hrec := ih k (phnum + 1) (by omega) (fun i h1 h2 => hok i (by omega) (by omega))
    rw [show phnum + 1 + d = phnum + (d + 1) by omega] at hrec
    rw [show k + (d + 1) = (k + d) + 1 by omega]
    by_cases ht : (phdrAt ElfMem phnum).p_type = PT_LOAD
    · rw [loadLoop_ok fuel DevInst Loc ElfMem (k + d) phnum hlt ht
        (hok phnum (Nat.le_refl _) (by omega) ht), hu, hrec]
      simp [List.range'_succ, ht]
    · rw [loadLoop_skip fuel DevInst Loc ElfMem (k + d) phnum hlt ht, hu, hrec]
      simp [List.range'_succ, ht]

/-- C14 (amended): on a ready device, for a processing-tile location and every binary
whose segment count `n = e_phnum` is at most 255, under a loop bound above `n`, the
loader parses the program headers at the offsets
`sizeof(Elf32_Ehdr) + i * sizeof(Elf32_Phdr) = 52 + 32 * i`, in increasing order of `i`;
the offset `e_phoff` recorded in the header plays no part. If the writer returns
`XAIE_OK` for every loadable program header, the loader parses all `n` of them and
returns `XAIE_OK`; if the `j`-th is the first loadable one for which the writer does
not return `XAIE_OK`, the loader parses those of index `0` to `j` and returns what the
writer returned for `j`. In both cases the writer is called for exactly the loadable
ones among the parsed program headers, in this order, each with the pointer
`ElfMem + p_offset` and its program header, and the calls of the loader are the calls of
these runs of the writer: a program header that is not loadable produces none. -/
theorem LoadElfMem_table_order (fuel : Nat) (Dev : XAie_DevInst) (Loc : XAie_LocType)
    (ElfMem : Nat → Nat) (ElfSz : Nat)
    (hready : Dev.IsReady = XAIE_COMPONENT_IS_READY)
    (htile : Dev.GetTileTypefromLoc Loc = XAIEGBL_TILE_TYPE_AIETILE)
    (hn : e_phnum ElfMem ≤ 255) (hf : e_phnum ElfMem < fuel) :
    ((∀ i, i < e_phnum ElfMem → (phdrAt ElfMem i).p_type = PT_LOAD →
        (sectionRun fuel Dev Loc ElfMem i).RC = some AieRC.XAIE_OK) →
      XAie_LoadElfMem fuel (some Dev) Loc (some ElfMem) ElfSz =
        ⟨some AieRC.XAIE_OK,
          (List.range (e_phnum ElfMem)).map
            (fun i => sizeof_Elf32_Ehdr + i * sizeof_Elf32_Phdr),
          ((List.range (e_phnum ElfMem)).filter
              (fun i => decide ((phdrAt ElfMem i).p_type = PT_LOAD))).map
            (fun i => ((phdrAt ElfMem i).p_offset, phdrAt ElfMem i)),
          (((List.range (e_phnum ElfMem)).filter
              (fun i => decide ((phdrAt ElfMem i).p_type = PT_LOAD))).map
            (fun i => (sectionRun fuel Dev Loc ElfMem i).Trace)).flatten⟩) ∧
    (∀ j, j < e_phnum ElfMem → (phdrAt ElfMem j).p_type = PT_LOAD →
      (sectionRun fuel Dev Loc ElfMem j).RC ≠ some AieRC.XAIE_OK →
      (∀ i, i < j → (phdrAt ElfMem i).p_type = PT_LOAD →
        (sectionRun fuel Dev Loc ElfMem i).RC = some AieRC.XAIE_OK) →
      XAie_LoadElfMem fuel (some Dev) Loc (some ElfMem) ElfSz =
        ⟨(sectionRun fuel Dev Loc ElfMem j).RC,
          (List.range (j + 1)).map (fun i => sizeof_Elf32_Ehdr + i * sizeof_Elf32_Phdr),
          ((List.range (j + 1)).filter
              (fun i => decide ((phdrAt ElfMem i).p_type = PT_LOAD))).map
            (fun i => ((phdrAt ElfMem i).p_offset, phdrAt ElfMem i)),
          (((List.range (j + 1)).filter
              (fun i => decide ((phdrAt ElfMem i).p_type = PT_LOAD))).map
            (fun i => (sectionRun fuel Dev Loc ElfMem i).Trace)).flatten⟩) := by
  have hload : XAie_LoadElfMem fuel (some Dev) Loc (some ElfMem) ElfSz =
      loadLoop fuel Dev Loc ElfMem fuel 0 := by
    simp [XAie_LoadElfMem, hready, htile]
  rw [hload]
  constructor
  · intro hok
    obtain ⟨k, hk⟩ : ∃ k, fuel = (k + 1) + e_phnum ElfMem :=
      ⟨fuel - e_phnum ElfMem - 1, by omega⟩
    have h := loadLoop_prefix fuel Dev Loc ElfMem hn (e_phnum ElfMem) (k + 1) 0 (by omega)
      (fun i _ h2 => hok i (by omega))
    rw [Nat.zero_add, loadLoop_end fuel Dev Loc ElfMem k (e_phnum ElfMem) (by omega),
      ← hk] at h
    rw [h]
    simp [List.range_eq_range']
  · intro j hj ht hr hok
    obtain ⟨k, hk⟩ : ∃ k, fuel = (k + 1) + j := ⟨fuel - j - 1, by omega⟩
    have h := loadLoop_prefix fuel Dev Loc ElfMem hn j (k + 1) 0 (by omega)
      (fun i _ h2 => hok i (by omega))
    rw [Nat.zero_add, loadLoop_stop fuel Dev Loc ElfMem k j hj ht hr, ← hk] at h
    rw [h]
    simp [List.range_succ, List.filter_append, ht, List.range_eq_range']

/-- Witness of the amended C14 on `aieDev`, for the tile `(2, 1)`: a binary with a
program header that is not loadable followed by a loadable one, which is loaded; and a
binary of three program headers whose second one is rejected by the writer, so that the
third one is not parsed. -/
theorem LoadElfMem_table_order_witness :
    ((XAie_LoadElfMem 8 (some aieDev) ⟨2, 1⟩
        (some (mkElf 52 2 [mkPhdrAt 0 0 0 0 0, mkPhdrAt 1 0x100 0 8 8] rampBytes))
        0x200).RC = some AieRC.XAIE_OK ∧
      (XAie_LoadElfMem 8 (some aieDev) ⟨2, 1⟩
        (some (mkElf 52 2 [mkPhdrAt 0 0 0 0 0, mkPhdrAt 1 0x100 0 8 8] rampBytes))
        0x200).Phdrs = [52, 84]) ∧
    ((XAie_LoadElfMem 8 (some aieDev) ⟨2, 1⟩
        (some (mkElf 52 3
          [mkPhdrAt 0 0 0 0 0, mkPhdrAt 1 0x100 0 8 0x8000, mkPhdrAt 1 0x100 0 8 8]
          rampBytes)) 0x200).RC = some AieRC.XAIE_INVALID_ELF ∧
      (XAie_LoadElfMem 8 (some aieDev) ⟨2, 1⟩
        (some (mkElf 52 3
          [mkPhdrAt 0 0 0 0 0, mkPhdrAt 1 0x100 0 8 0x8000, mkPhdrAt 1 0x100 0 8 8]
          rampBytes)) 0x200).Phdrs = [52, 84]) := by
  set_option maxRecDepth 100000 in
  have h1 := (LoadElfMem_table_order 8 aieDev ⟨2, 1⟩
    (mkElf 52 2 [mkPhdrAt 0 0 0 0 0, mkPhdrAt 1 0x100 0 8 8] rampBytes) 0x200
    (by decide) (by decide) (by decide) (by decide)).1 (by decide)
  set_option maxRecDepth 100000 in
  have h2 := (LoadElfMem_table_order 8 aieDev ⟨2, 1⟩
    (mkElf 52 3 [mkPhdrAt 0 0 0 0 0, mkPhdrAt 1 0x100 0 8 0x8000, mkPhdrAt 1 0x100 0 8 8]
      rampBytes) 0x200
    (by decide) (by decide) (by decide) (by decide)).2 1 (by decide) (by decide) (by decide)
    (by decide)
  rw [h1, h2]
  set_option maxRecDepth 100000 in decide

/-- The loop of the loader on a table of 256 or more program headers of which the first
256 are not loadable: the `u8` counter wraps from 255 to 0 and the loop is never left;
after `k` iterations it has read the program headers `phnum`, `phnum + 1`, ... modulo
256 and made no call. -/
theorem loadLoop_wraps (fuel : Nat) (DevInst : XAie_DevInst) (Loc : XAie_LocType)
    (ElfMem : Nat → Nat) (hn : 256 ≤ e_phnum ElfMem)
    (hno : ∀ i, i < 256 → (phdrAt ElfMem i).p_type ≠ PT_LOAD) :
    ∀ (k phnum : Nat), phnum < 256 →
      (loadLoop fuel DevInst Loc ElfMem k phnum).RC = none ∧
      (loadLoop fuel DevInst Loc ElfMem k phnum).Phdrs =
        (List.range k).map (fun j => 52 + 32 * ((phnum + j) % 256)) ∧
      (loadLoop fuel DevInst Loc ElfMem k phnum).Calls = [] ∧
      (loadLoop fuel DevInst Loc ElfMem k phnum).Trace = [] := by
  intro k
  induction k with
  | zero =>
    intro phnum _
    simp [loadLoop]
  | succ k ih =>
    intro phnum hp
    have hu : u8 (phnum + 1) < 256 := by unfold u8; omega
    obtain ⟨h1, h2, h3, h4⟩ := ih (u8 (phnum + 1)) hu
    rw [loadLoop_skip fuel DevInst Loc ElfMem k phnum (by omega) (hno phnum hp)]
    refine ⟨h1, ?_, h3, h4⟩
    simp only [h2, List.range_succ_eq_map, List.map_cons, List.map_map]
    congr 1
    · simp only [sizeof_Elf32_Ehdr, sizeof_Elf32_Phdr]
      omega
    · apply List.map_congr_left
      intro j _
      simp only [Function.comp, u8]
      omega

theorem elf256_not_loadable (i : Nat) : (phdrAt elf256 i).p_type ≠ PT_LOAD := by
  simp only [phdrAt, readPhdr, load32, elf256, sizeof_Elf32_Ehdr, sizeof_Elf32_Phdr, PT_LOAD]
  split_ifs <;> omega

theorem elf257_zero (x : Nat) (h1 : 46 ≤ x) (h2 : x < 8244) : elf257 x = 0 := by
  unfold elf257
  split_ifs <;> omega

theorem elf257_not_loadable (i : Nat) (hi : i < 256) :
    (phdrAt elf257 i).p_type ≠ PT_LOAD := by
  simp only [phdrAt, readPhdr, load32, sizeof_Elf32_Ehdr, sizeof_Elf32_Phdr, PT_LOAD]
  rw [elf257_zero _ (by omega) (by omega), elf257_zero _ (by omega) (by omega),
    elf257_zero _ (by omega) (by omega), elf257_zero _ (by omega) (by omega)]
  decide

/-- C15 (the code at the failing input): memory with segment count `e_phnum = 256` and
no loadable program header. On the ready device `aieDev`, for the processing tile
`(2, 1)`, the loader does not return under any loop bound `fuel`: after `fuel` iterations
it has read the program headers at `52 + 32 * (j % 256)`, `j < fuel`, the first one again
at `j = 256`, and has issued no write. -/
theorem LoadElfMem_phnum_wraps :
    e_phnum elf256 = 256 ∧
    (∀ i, (phdrAt elf256 i).p_type ≠ PT_LOAD) ∧
    ∀ fuel ElfSz,
      (XAie_LoadElfMem fuel (some aieDev) ⟨2, 1⟩ (some elf256) ElfSz).RC = none ∧
      (XAie_LoadElfMem fuel (some aieDev) ⟨2, 1⟩ (some elf256) ElfSz).Phdrs =
        (List.range fuel).map (fun j => 52 + 32 * (j % 256)) ∧
      (XAie_LoadElfMem fuel (some aieDev) ⟨2, 1⟩ (some elf256) ElfSz).Trace = [] := by
  refine ⟨by decide, elf256_not_loadable, ?_⟩
  intro fuel ElfSz
  obtain ⟨h1, h2, -, h4⟩ := loadLoop_wraps fuel aieDev ⟨2, 1⟩ elf256 (by decide)
    (fun i _ => elf256_not_loadable i) fuel 0 (by omega)
  have e1 : aieDev.IsReady = XAIE_COMPONENT_IS_READY := rfl
  have e2 : aieDev.GetTileTypefromLoc ⟨2, 1⟩ = XAIEGBL_TILE_TYPE_AIETILE := rfl
  simp only [XAie_LoadElfMem, e1, e2, ne_eq, not_true_eq_false, if_false]
  refine ⟨h1, ?_, h4⟩
  rw [h2]
  simp

/-- C11 (the code at the failing input): memory with segment count `e_phnum = 257` in
which the program header of index 256 is the only loadable one, and the writer rejects
it with `XAIE_INVALID_ELF` (`p_memsz = 0x8000` exceeds the program memory of `aieDev`).
The loader does not return that error: the `u8` counter wraps from 255 to 0, the program
header at offset 8244 is never read, and the loader does not return under any loop
bound `fuel`. -/
theorem LoadElfMem_first_failure_unreached :
    e_phnum elf257 = 257 ∧
    (∀ i, i < 256 → (phdrAt elf257 i).p_type ≠ PT_LOAD) ∧
    (phdrAt elf257 256).p_type = PT_LOAD ∧
    sectionRun 8 aieDev ⟨2, 1⟩ elf257 256 = ⟨some AieRC.XAIE_INVALID_ELF, []⟩ ∧
    ∀ fuel ElfSz,
      (XAie_LoadElfMem fuel (some aieDev) ⟨2, 1⟩ (some elf257) ElfSz).RC = none ∧
      8244 ∉ (XAie_LoadElfMem fuel (some aieDev) ⟨2, 1⟩ (some elf257) ElfSz).Phdrs := by
  refine ⟨by decide, elf257_not_loadable, by decide, by decide, ?_⟩
  intro fuel ElfSz
  obtain ⟨h1, h2, -, -⟩ := loadLoop_wraps fuel aieDev ⟨2, 1⟩ elf257 (by decide)
    elf257_not_loadable fuel 0 (by omega)
  have e1 : aieDev.IsReady = XAIE_COMPONENT_IS_READY := rfl
  have e2 : aieDev.GetTileTypefromLoc ⟨2, 1⟩ = XAIEGBL_TILE_TYPE_AIETILE := rfl
  simp only [XAie_LoadElfMem, e1, e2, ne_eq, not_true_eq_false, if_false]
  refine ⟨h1, ?_⟩
  rw [h2]
  simp only [List.mem_map, List.mem_range, not_exists, not_and]
  intro j _
  omega


/-! ## Partial writes and termination of the writer -/

/-- C18: the writer is not atomic. On `aieDev`, from the tile `(8, 1)` of the top row, the
data-memory segment of 8 bytes at `0x2FFFC` passes the bounds checks; its first bank, the
West bank, resolves to the origin, its second bank, the North bank, belongs to row 9,
outside the grid. Under every loop bound from 2 on, the writer returns `XAIE_ERR` after
one word write, and the word written stays in device memory. -/
theorem WriteProgramSection_not_atomic :
    ∃ (DevInst : XAie_DevInst) (Loc : XAie_LocType) (ProgSec : Nat → Nat)
      (Phdr : Elf32_Phdr) (a v : Nat),
      DevInst.CoreMod.ProgMemSize ≤ Phdr.p_paddr ∧
      DevInst.CoreMod.DataMemAddr ≤ Phdr.p_paddr ∧
      Phdr.p_paddr + Phdr.p_memsz
        ≤ DevInst.CoreMod.DataMemAddr + 4 * DevInst.CoreMod.DataMemSize ∧
      _XAie_GetTargetTileLoc DevInst Loc Phdr.p_paddr = .ok Loc ∧
      _XAie_GetTargetTileLoc DevInst Loc (Phdr.p_paddr + 4) = .error AieRC.XAIE_ERR ∧
      (∀ d, _XAie_WriteProgramSection (2 + d) DevInst Loc ProgSec Phdr =
        ⟨some AieRC.XAIE_ERR,
          [Event.resolve Phdr.p_paddr, Event.write32 a v,
            Event.resolve (Phdr.p_paddr + 4)]⟩) ∧
      applyTrace [Event.resolve Phdr.p_paddr, Event.write32 a v,
          Event.resolve (Phdr.p_paddr + 4)] (fun _ => 0xFF) a = ProgSec 0 % 256 ∧
      ProgSec 0 % 256 ≠ 0xFF := by
  refine ⟨aieDev, ⟨8, 1⟩, rampBytes, mkPhdr 0x2FFFC 8 8, 2199033774076, 50462976,
    by decide, by decide, by decide, by decide, by decide, ?_, by decide, by decide⟩
  intro d
  exact WriteProgramSection_mono 2 d aieDev ⟨8, 1⟩ rampBytes (mkPhdr 0x2FFFC 8 8) _ _
    (by decide)

/-- A word loop over `0xFFFFFFFD` bytes never ends: the `u32` counter `i` stays a
multiple of 4, hence below the bound, and wraps from `0xFFFFFFFC` to 0. -/
theorem writeWords_diverges (val : Nat → Nat → Nat) (Addr : Nat) :
    ∀ (fuel i cnt : Nat), i % 4 = 0 → i < 2 ^ 32 →
      (writeWords val Addr 0xFFFFFFFD fuel i cnt).1 = false := by
  intro fuel
  induction fuel with
  | zero => intro i cnt _ _; rfl
  | succ f ih =>
    intro i cnt h4 hlt
    have hi : i < 0xFFFFFFFD := by omega
    rw [writeWords]
    simp only [hi, if_true]
    exact ih _ _ (by unfold u32; omega) (by unfold u32; omega)

/-- C16 (the code at the failing input): on `aieDev`, from the tile `(2, 1)`, the segment
with `p_paddr = 0x20004` and `p_filesz = p_memsz = 0xFFFFFFFD` passes the bounds check (the
`u32` sum `p_paddr + p_memsz` is `0x20001`); in the first iteration of the loop of the
initialized section the `u32` sum `(SectionAddr & AddrMask) + SectionSize` wraps to 1,
`BytesToWrite` is the whole `0xFFFFFFFD`, and the word loop never ends: the writer does
not return under any loop bound. -/
theorem WriteProgramSection_diverges :
    aieDev.CoreMod.ProgMemSize ≤ (mkPhdr 0x20004 0xFFFFFFFD 0xFFFFFFFD).p_paddr ∧
    aieDev.CoreMod.DataMemSize = 2 ^ 15 ∧
    ∀ fuel, (_XAie_WriteProgramSection fuel aieDev ⟨2, 1⟩ rampBytes
      (mkPhdr 0x20004 0xFFFFFFFD 0xFFFFFFFD)).RC = none := by
  refine ⟨by decide, by decide, ?_⟩
  intro fuel
  have c1 : ¬ ((mkPhdr 0x20004 0xFFFFFFFD 0xFFFFFFFD).p_paddr < aieDev.CoreMod.ProgMemSize) := by
    decide
  have c2 : ¬ (((mkPhdr 0x20004 0xFFFFFFFD 0xFFFFFFFD).p_paddr > aieDev.CoreMod.ProgMemSize ∧
      (mkPhdr 0x20004 0xFFFFFFFD 0xFFFFFFFD).p_paddr < aieDev.CoreMod.DataMemAddr) ∨
      u32 ((mkPhdr 0x20004 0xFFFFFFFD 0xFFFFFFFD).p_paddr
        + (mkPhdr 0x20004 0xFFFFFFFD 0xFFFFFFFD).p_memsz) >
        u32 (aieDev.CoreMod.DataMemAddr + u32 (aieDev.CoreMod.DataMemSize * 4))) := by
    decide
  have hloop : (sectionLoop aieDev ⟨2, 1⟩ (load32 rampBytes) fuel fuel
      (mkPhdr 0x20004 0xFFFFFFFD 0xFFFFFFFD).p_filesz
      (mkPhdr 0x20004 0xFFFFFFFD 0xFFFFFFFD).p_paddr 0).1 = LoopExit.fuel := by
    cases fuel with
    | zero => rfl
    | succ n =>
      have hS : (mkPhdr 0x20004 0xFFFFFFFD 0xFFFFFFFD).p_filesz > 0 := by decide
      have hres : _XAie_GetTargetTileLoc aieDev ⟨2, 1⟩
          (mkPhdr 0x20004 0xFFFFFFFD 0xFFFFFFFD).p_paddr = .ok ⟨1, 1⟩ := by decide
      have hlen : sub32 (mkPhdr 0x20004 0xFFFFFFFD 0xFFFFFFFD).p_filesz
          (if u32 (((mkPhdr 0x20004 0xFFFFFFFD 0xFFFFFFFD).p_paddr
              &&& sub32 aieDev.CoreMod.DataMemSize 1)
              + (mkPhdr 0x20004 0xFFFFFFFD 0xFFFFFFFD).p_filesz) > aieDev.CoreMod.DataMemSize
            then sub32 (u32 (((mkPhdr 0x20004 0xFFFFFFFD 0xFFFFFFFD).p_paddr
              &&& sub32 aieDev.CoreMod.DataMemSize 1)
              + (mkPhdr 0x20004 0xFFFFFFFD 0xFFFFFFFD).p_filesz)) aieDev.CoreMod.DataMemSize
            else 0) = 0xFFFFFFFD := by decide
      rw [sectionLoop]
      simp only [hS, if_true, hres, hlen]
      rw [writeWords_diverges _ _ (n + 1) 0 0 (by decide) (by decide)]
      simp
  simp only [_XAie_WriteProgramSection, c1, c2, if_false]
  generalize sectionLoop aieDev ⟨2, 1⟩ (load32 rampBytes) fuel fuel
      (mkPhdr 0x20004 0xFFFFFFFD 0xFFFFFFFD).p_filesz
      (mkPhdr 0x20004 0xFFFFFFFD 0xFFFFFFFD).p_paddr 0 = r at hloop ⊢
  obtain ⟨x, t⟩ := r
  simp only at hloop
  subst hloop
  rfl


/-! ## Segments inside the data-memory extent -/

theorem resolvesOf_append (t1 t2 : List Event) :
    resolvesOf (t1 ++ t2) = resolvesOf t1 ++ resolvesOf t2 := by
  induction t1 with
  | nil => rfl
  | cons a t ih => cases a <;> simp [resolvesOf, ih]

/-- The value of `BytesToWrite` when the `u32` sum `(SectionAddr & AddrMask) + SectionSize`
does not wrap: what is left of the section, or of the bank if that is less. -/
theorem bytesToWrite_eq (S A e : Nat) (he' : e < 32) (hS : 0 < S)
    (hAS : A % 2 ^ e + S < 2 ^ 32) :
    sub32 S (if u32 (A % 2 ^ e + S) > 2 ^ e then
      sub32 (u32 (A % 2 ^ e + S)) (2 ^ e) else 0) = min S (2 ^ e - A % 2 ^ e) := by
  have hBlt : 2 ^ e < 2 ^ 32 := Nat.pow_lt_pow_right (by omega) he'
  have hBpos : 0 < 2 ^ e := Nat.two_pow_pos e
  have ho : A % 2 ^ e < 2 ^ e := Nat.mod_lt _ hBpos
  have hu : u32 (A % 2 ^ e + S) = A % 2 ^ e + S := by unfold u32; omega
  rw [hu]
  split
  · rw [sub32_of_le (a := A % 2 ^ e + S) (b := 2 ^ e) (by omega) (by omega)]
    rw [sub32_of_le (by omega) (by omega)]
    omega
  · rw [sub32_of_le (by omega) (by omega)]
    omega

/-- One iteration of a `while` loop of the writer, for any alignment, when the section
does not reach the end of the 32-bit address space. -/
theorem sectionLoop_step_gen (DevInst : XAie_DevInst) (Loc T : XAie_LocType)
    (word : Nat → Nat) (fuel n S A off e : Nat)
    (hB : DevInst.CoreMod.DataMemSize = 2 ^ e) (he' : e < 32) (hS : 0 < S)
    (hAS : A + S < 2 ^ 32) (hres : _XAie_GetTargetTileLoc DevInst Loc A = .ok T)
    (hf : 2 ^ e / 4 + 1 < fuel) :
    sectionLoop DevInst Loc word fuel (n + 1) S A off =
      ((sectionLoop DevInst Loc word fuel n (S - min S (2 ^ e - A % 2 ^ e))
          (A + min S (2 ^ e - A % 2 ^ e))
          (off + 4 * ((min S (2 ^ e - A % 2 ^ e) + 3) / 4))).1,
       Event.resolve A ::
        ((List.range ((min S (2 ^ e - A % 2 ^ e) + 3) / 4)).map (fun k =>
            Event.write32
              ((DevInst.BaseAddr + A % 2 ^ e + DevInst.GetTileAddr T.Row T.Col + 4 * k)
                % 2 ^ 64)
              (word (off + 4 * k))) ++
         (sectionLoop DevInst Loc word fuel n (S - min S (2 ^ e - A % 2 ^ e))
          (A + min S (2 ^ e - A % 2 ^ e))
          (off + 4 * ((min S (2 ^ e - A % 2 ^ e) + 3) / 4))).2)) := by
  have hBlt : 2 ^ e < 2 ^ 32 := Nat.pow_lt_pow_right (by omega) he'
  have hBle : 2 ^ e ≤ 2 ^ 31 := Nat.pow_le_pow_right (by omega) (by omega)
  have hBpos : 0 < 2 ^ e := Nat.two_pow_pos e
  have ho : A % 2 ^ e < 2 ^ e := Nat.mod_lt _ hBpos
  have hoA : A % 2 ^ e ≤ A := Nat.mod_le _ _
  have hmask : sub32 (2 ^ e) 1 = 2 ^ e - 1 := sub32_of_le (by omega) hBlt
  have hlen := bytesToWrite_eq S A e he' hS (by omega)
  generalize hL : min S (2 ^ e - A % 2 ^ e) = L at hlen ⊢
  have hLS : L ≤ S := by omega
  have hLB : L ≤ 2 ^ e := by omega
  have hw := writeWords_zero (fun _ cnt => word (off + 4 * cnt))
    (u64 (u64 (DevInst.BaseAddr + A % 2 ^ e) + DevInst.GetTileAddr T.Row T.Col)) L fuel
    (by omega) (by omega)
  rw [sectionLoop]
  simp only [hS, if_true, hres, hB, hmask, Nat.and_pow_two_sub_one_eq_mod, hlen, hw]
  have h1 : sub32 S L = S - L := sub32_of_le hLS (by omega)
  have h2 : u32 (A + L) = A + L := by unfold u32; omega
  simp only [h1, h2, List.length_map, List.length_range]
  simp [u64]

/-- A `while` loop of the writer over a section all of whose addresses resolve runs to
its end within as many iterations as the section touches banks, and calls the resolver
at addresses of the section only. -/
theorem sectionLoop_done_gen (DevInst : XAie_DevInst) (Loc : XAie_LocType)
    (word : Nat → Nat) (fuel e : Nat) (hB : DevInst.CoreMod.DataMemSize = 2 ^ e)
    (he' : e < 32) (hf : 2 ^ e / 4 + 1 < fuel) :
    ∀ (n S A off : Nat), A + S < 2 ^ 32 → A % 2 ^ e + S ≤ n * 2 ^ e →
      (∀ a, A ≤ a → a < A + S → ∃ T, _XAie_GetTargetTileLoc DevInst Loc a = .ok T) →
      (sectionLoop DevInst Loc word fuel (n + 1) S A off).1 = LoopExit.done ∧
      ∀ a ∈ resolvesOf (sectionLoop DevInst Loc word fuel (n + 1) S A off).2,
        A ≤ a ∧ a < A + S := by
  have hBpos : 0 < 2 ^ e := Nat.two_pow_pos e
  intro n
  induction n with
  | zero =>
    intro S A off _ hn _
    have hS : S = 0 := by omega
    subst hS
    rw [sectionLoop_empty]
    simp [resolvesOf]
  | succ n ih =>
    intro S A off hAS hn hres
    by_cases hS : S = 0
    · subst hS
      rw [sectionLoop_empty]
      simp [resolvesOf]
    · obtain ⟨T, hT⟩ := hres A (Nat.le_refl _) (by omega)
      have ho : A % 2 ^ e < 2 ^ e := Nat.mod_lt _ hBpos
      rw [sectionLoop_step_gen DevInst Loc T word fuel (n + 1) S A off e hB he'
        (Nat.pos_of_ne_zero hS) hAS hT hf]
      generalize hL : min S (2 ^ e - A % 2 ^ e) = L
      have hLS : L ≤ S := by omega
      have hLpos : 0 < L := by omega
      have hrest : (sectionLoop DevInst Loc word fuel (n + 1) (S - L) (A + L)
            (off + 4 * ((L + 3) / 4))).1 = LoopExit.done ∧
          ∀ a ∈ resolvesOf (sectionLoop DevInst Loc word fuel (n + 1) (S - L) (A + L)
            (off + 4 * ((L + 3) / 4))).2, A + L ≤ a ∧ a < A + L + (S - L) := by
        by_cases hlast : S - L = 0
        · rw [hlast, sectionLoop_empty]
          simp [resolvesOf]
        · apply ih
          · omega
          · have hLeq : L = 2 ^ e - A % 2 ^ e := by omega
            have hmod : (A + L) % 2 ^ e = 0 := by
              have hd := Nat.div_add_mod A (2 ^ e)
              have : A + L = 2 ^ e * (A / 2 ^ e + 1) := by
                rw [Nat.mul_add, Nat.mul_one]; omega
              rw [this]
              exact Nat.mul_mod_right _ _
            rw [Nat.succ_mul] at hn
            omega
          · intro a h1 h2
            exact hres a (by omega) (by omega)
      refine ⟨hrest.1, ?_⟩
      intro a ha
      simp only [resolvesOf, resolvesOf_append, resolvesOf_map_write32, List.nil_append,
        List.mem_cons] at ha
      rcases ha with rfl | ha
      · omega
      · have := hrest.2 a ha
        omega

/-- The resolver succeeds at every address of the four banks above `4 * DataMemSize`
when the four neighbours of the origin and the origin itself are processing tiles
inside the grid. -/
theorem GetTargetTileLoc_ok_of_neighbours (DevInst : XAie_DevInst) (Loc : XAie_LocType)
    (a : Nat) (hrows : DevInst.NumRows < 256) (hcols : DevInst.NumCols < 256)
    (hr1 : 1 ≤ Loc.Row) (hc1 : 1 ≤ Loc.Col)
    (hr : Loc.Row + 1 < DevInst.NumRows) (hc : Loc.Col + 1 < DevInst.NumCols)
    (t0 : DevInst.GetTileTypefromLoc Loc = XAIEGBL_TILE_TYPE_AIETILE)
    (tS : DevInst.GetTileTypefromLoc ⟨Loc.Row - 1, Loc.Col⟩ = XAIEGBL_TILE_TYPE_AIETILE)
    (tN : DevInst.GetTileTypefromLoc ⟨Loc.Row + 1, Loc.Col⟩ = XAIEGBL_TILE_TYPE_AIETILE)
    (tW : DevInst.GetTileTypefromLoc ⟨Loc.Row, Loc.Col - 1⟩ = XAIEGBL_TILE_TYPE_AIETILE)
    (tE : DevInst.GetTileTypefromLoc ⟨Loc.Row, Loc.Col + 1⟩ = XAIEGBL_TILE_TYPE_AIETILE)
    (hq : 4 ≤ a / DevInst.CoreMod.DataMemSize) (hq' : a / DevInst.CoreMod.DataMemSize ≤ 7) :
    ∃ T, _XAie_GetTargetTileLoc DevInst Loc a = .ok T := by
  have hS : u8 (Loc.Row + 255) = Loc.Row - 1 := u8_pred hr1 (by omega)
  have hW : u8 (Loc.Col + 255) = Loc.Col - 1 := u8_pred hc1 (by omega)
  have hN : u8 (Loc.Row + 1) = Loc.Row + 1 := u8_of_lt (by omega)
  have hE : u8 (Loc.Col + 1) = Loc.Col + 1 := u8_of_lt (by omega)
  have g1 : ¬ (DevInst.NumRows ≤ Loc.Row) := by omega
  have g2 : ¬ (DevInst.NumCols ≤ Loc.Col) := by omega
  have g3 : ¬ (DevInst.NumRows ≤ Loc.Row - 1) := by omega
  have g4 : ¬ (DevInst.NumCols ≤ Loc.Col - 1) := by omega
  have g5 : ¬ (DevInst.NumRows ≤ Loc.Row + 1) := by omega
  have g6 : ¬ (DevInst.NumCols ≤ Loc.Col + 1) := by omega
  have hcases : a / DevInst.CoreMod.DataMemSize = 4 ∨ a / DevInst.CoreMod.DataMemSize = 5 ∨
      a / DevInst.CoreMod.DataMemSize = 6 ∨ a / DevInst.CoreMod.DataMemSize = 7 := by omega
  obtain ⟨R, C⟩ := Loc
  simp only at *
  rcases hcases with h | h | h | h
  · exact ⟨⟨R - 1, C⟩, by simp [_XAie_GetTargetTileLoc, h, u8_of_lt, hS, tS, g3, g2]⟩
  · by_cases hp : (if DevInst.CoreMod.IsCheckerBoard = 0 then 1 else u8 (R % 2)) = 1
    · exact ⟨⟨R, C - 1⟩, by
        simp only [_XAie_GetTargetTileLoc, h, hp]
        simp [u8_of_lt, hW, tW, g1, g4]⟩
    · exact ⟨⟨R, C⟩, by
        simp only [_XAie_GetTargetTileLoc, h, hp]
        simp [u8_of_lt, t0, g1, g2]⟩
  · exact ⟨⟨R + 1, C⟩, by simp [_XAie_GetTargetTileLoc, h, u8_of_lt, hN, tN, g5, g2]⟩
  · by_cases hp : (if DevInst.CoreMod.IsCheckerBoard = 0 then 1 else u8 (R % 2)) = 0
    · exact ⟨⟨R, C + 1⟩, by
        simp only [_XAie_GetTargetTileLoc, h, hp]
        simp [u8_of_lt, hE, tE, g1, g6]⟩
    · exact ⟨⟨R, C⟩, by
        simp only [_XAie_GetTargetTileLoc, h, hp]
        simp [u8_of_lt, t0, g1, g2]⟩


/-- C20 (counterexample): on `overlapDev` the data memory is at `0x4000 = 4 * 0x1000` and
the tile `(2, 1)` and its four neighbours are processing tiles inside the grid; the
segment of `0x2000` bytes at `0x4000` lies inside the data-memory extent, but its address
is below `ProgMemSize = 0x5000`: the writer takes it for a program-memory segment and
rejects it with `XAIE_INVALID_ELF`. -/
theorem WriteProgramSection_in_extent_counterexample :
    overlapDev.CoreMod.DataMemSize = 2 ^ 12 ∧
    overlapDev.CoreMod.DataMemAddr = 4 * overlapDev.CoreMod.DataMemSize ∧
    overlapDev.CoreMod.DataMemAddr ≤ (mkPhdr 0x4000 0x2000 0x2000).p_paddr ∧
    (mkPhdr 0x4000 0x2000 0x2000).p_paddr + (mkPhdr 0x4000 0x2000 0x2000).p_memsz
      ≤ overlapDev.CoreMod.DataMemAddr + 4 * overlapDev.CoreMod.DataMemSize ∧
    (∀ T ∈ [(⟨2, 1⟩ : XAie_LocType), ⟨1, 1⟩, ⟨3, 1⟩, ⟨2, 0⟩, ⟨2, 2⟩],
      T.Row < overlapDev.NumRows ∧ T.Col < overlapDev.NumCols ∧
      overlapDev.GetTileTypefromLoc T = XAIEGBL_TILE_TYPE_AIETILE) ∧
    _XAie_WriteProgramSection 8 overlapDev ⟨2, 1⟩ rampBytes (mkPhdr 0x4000 0x2000 0x2000)
      = ⟨some AieRC.XAIE_INVALID_ELF, []⟩ := by
  decide

/-- C20 (amended): let the data-memory size `B` be a power of two, the data memory start
at `4 * B`, not below the end of the program memory (`ProgMemSize ≤ DataMemAddr`), and end
below `2 ^ 32`; let the origin and its four neighbours be processing tiles inside the
grid. Then for every segment with `DataMemAddr ≤ p_paddr`, `p_filesz ≤ p_memsz` and
`p_paddr + p_memsz ≤ DataMemAddr + 4 * B` the writer returns `XAIE_OK` under every loop
bound above `B / 4 + 5`, every address it passes to the resolver has a cardinal code
from 4 to 7, and no call of the resolver fails. -/
theorem WriteProgramSection_in_extent (fuel : Nat) (DevInst : XAie_DevInst)
    (Loc : XAie_LocType) (ProgSec : Nat → Nat) (Phdr : Elf32_Phdr) (e : Nat)
    (hB : DevInst.CoreMod.DataMemSize = 2 ^ e)
    (hbase : DevInst.CoreMod.DataMemAddr = 4 * 2 ^ e)
    (hprog : DevInst.CoreMod.ProgMemSize ≤ DevInst.CoreMod.DataMemAddr)
    (hdev : DevInst.CoreMod.DataMemAddr + 4 * 2 ^ e < 2 ^ 32)
    (hrows : DevInst.NumRows < 256) (hcols : DevInst.NumCols < 256)
    (hr1 : 1 ≤ Loc.Row) (hc1 : 1 ≤ Loc.Col)
    (hr : Loc.Row + 1 < DevInst.NumRows) (hc : Loc.Col + 1 < DevInst.NumCols)
    (t0 : DevInst.GetTileTypefromLoc Loc = XAIEGBL_TILE_TYPE_AIETILE)
    (tS : DevInst.GetTileTypefromLoc ⟨Loc.Row - 1, Loc.Col⟩ = XAIEGBL_TILE_TYPE_AIETILE)
    (tN : DevInst.GetTileTypefromLoc ⟨Loc.Row + 1, Loc.Col⟩ = XAIEGBL_TILE_TYPE_AIETILE)
    (tW : DevInst.GetTileTypefromLoc ⟨Loc.Row, Loc.Col - 1⟩ = XAIEGBL_TILE_TYPE_AIETILE)
    (tE : DevInst.GetTileTypefromLoc ⟨Loc.Row, Loc.Col + 1⟩ = XAIEGBL_TILE_TYPE_AIETILE)
    (hlo : DevInst.CoreMod.DataMemAddr ≤ Phdr.p_paddr)
    (hle : Phdr.p_filesz ≤ Phdr.p_memsz)
    (hhi : Phdr.p_paddr + Phdr.p_memsz ≤ DevInst.CoreMod.DataMemAddr + 4 * 2 ^ e)
    (hf : 2 ^ e / 4 + 5 < fuel) :
    (_XAie_WriteProgramSection fuel DevInst Loc ProgSec Phdr).RC = some AieRC.XAIE_OK ∧
    ∀ a ∈ resolvesOf (_XAie_WriteProgramSection fuel DevInst Loc ProgSec Phdr).Trace,
      (4 ≤ a / DevInst.CoreMod.DataMemSize ∧ a / DevInst.CoreMod.DataMemSize ≤ 7) ∧
      ∃ T, _XAie_GetTargetTileLoc DevInst Loc a = .ok T := by
  have hBpos : 0 < 2 ^ e := Nat.two_pow_pos e
  have he' : e < 32 := by
    by_contra hcon
    have : 2 ^ 32 ≤ 2 ^ e := Nat.pow_le_pow_right (by omega) (by omega)
    omega
  -- every address of the extent has a cardinal code from 4 to 7 and resolves
  have hcode : ∀ a, DevInst.CoreMod.DataMemAddr ≤ a →
      a < DevInst.CoreMod.DataMemAddr + 4 * 2 ^ e →
      4 ≤ a / DevInst.CoreMod.DataMemSize ∧ a / DevInst.CoreMod.DataMemSize ≤ 7 := by
    intro a h1 h2
    rw [hB]
    constructor
    · exact (Nat.le_div_iff_mul_le hBpos).mpr (by omega)
    · have : a / 2 ^ e < 8 := (Nat.div_lt_iff_lt_mul hBpos).mpr (by omega)
      omega
  have hall : ∀ a, DevInst.CoreMod.DataMemAddr ≤ a →
      a < DevInst.CoreMod.DataMemAddr + 4 * 2 ^ e →
      ∃ T, _XAie_GetTargetTileLoc DevInst Loc a = .ok T := by
    intro a h1 h2
    obtain ⟨q1, q2⟩ := hcode a h1 h2
    exact GetTargetTileLoc_ok_of_neighbours DevInst Loc a hrows hcols hr1 hc1 hr hc
      t0 tS tN tW tE q1 q2
  -- a section inside the extent touches at most four banks
  have hbanks : ∀ A S, DevInst.CoreMod.DataMemAddr ≤ A →
      A + S ≤ DevInst.CoreMod.DataMemAddr + 4 * 2 ^ e →
      A % 2 ^ e + S ≤ (fuel - 1) * 2 ^ e := by
    intro A S h1 h2
    have hd := Nat.div_add_mod A (2 ^ e)
    have hq : 4 ≤ A / 2 ^ e := (Nat.le_div_iff_mul_le hBpos).mpr (by omega)
    have hm : 2 ^ e * 4 ≤ 2 ^ e * (A / 2 ^ e) := Nat.mul_le_mul_left _ hq
    have hk : 4 * 2 ^ e ≤ (fuel - 1) * 2 ^ e := Nat.mul_le_mul_right _ (by omega)
    omega
  obtain ⟨m, hm⟩ : ∃ m, fuel = m + 1 := ⟨fuel - 1, by omega⟩
  have hm' : fuel - 1 = m := by omega
  have c1 : ¬ (Phdr.p_paddr < DevInst.CoreMod.ProgMemSize) := by omega
  have c2 : ¬ ((Phdr.p_paddr > DevInst.CoreMod.ProgMemSize ∧
      Phdr.p_paddr < DevInst.CoreMod.DataMemAddr) ∨
      u32 (Phdr.p_paddr + Phdr.p_memsz) >
        u32 (DevInst.CoreMod.DataMemAddr + u32 (DevInst.CoreMod.DataMemSize * 4))) := by
    rw [hB]
    unfold u32
    omega
  have hz : sub32 Phdr.p_memsz Phdr.p_filesz = Phdr.p_memsz - Phdr.p_filesz :=
    sub32_of_le hle (by omega)
  have hu : u32 (Phdr.p_paddr + Phdr.p_filesz) = Phdr.p_paddr + Phdr.p_filesz := by
    unfold u32; omega
  have l1 := sectionLoop_done_gen DevInst Loc (load32 ProgSec) fuel e hB he' (by omega)
    m Phdr.p_filesz Phdr.p_paddr 0 (by omega)
    (by rw [← hm']; exact hbanks _ _ hlo (by omega))
    (fun a h1 h2 => hall a (by omega) (by omega))
  have l2 := sectionLoop_done_gen DevInst Loc (fun _ => 0) fuel e hB he' (by omega)
    m (Phdr.p_memsz - Phdr.p_filesz) (Phdr.p_paddr + Phdr.p_filesz) 0 (by omega)
    (by rw [← hm']; exact hbanks _ _ (by omega) (by omega))
    (fun a h1 h2 => hall a (by omega) (by omega))
  rw [← hm] at l1 l2
  simp only [_XAie_WriteProgramSection, c1, c2, if_false, hz, hu]
  generalize sectionLoop DevInst Loc (load32 ProgSec) fuel fuel Phdr.p_filesz
    Phdr.p_paddr 0 = r1 at l1 ⊢
  obtain ⟨x1, t1⟩ := r1
  generalize sectionLoop DevInst Loc (fun _ => 0) fuel fuel
    (Phdr.p_memsz - Phdr.p_filesz) (Phdr.p_paddr + Phdr.p_filesz) 0 = r2 at l2 ⊢
  obtain ⟨x2, t2⟩ := r2
  obtain ⟨d1, m1⟩ := l1
  obtain ⟨d2, m2⟩ := l2
  simp only at d1 d2 m1 m2
  subst d1 d2
  refine ⟨rfl, ?_⟩
  intro a ha
  simp only [resolvesOf_append, List.mem_append] at ha
  rcases ha with ha | ha
  · have := m1 a ha
    exact ⟨hcode a (by omega) (by omega), hall a (by omega) (by omega)⟩
  · have := m2 a ha
    exact ⟨hcode a (by omega) (by omega), hall a (by omega) (by omega)⟩

/-- Witness of the amended C20 on `aieDev`, from the tile `(2, 1)`: the segment of 6 bytes
at `0x27FFE`, which is not word-aligned and spans two banks. -/
theorem WriteProgramSection_in_extent_witness :
    (_XAie_WriteProgramSection 8198 aieDev ⟨2, 1⟩ rampBytes (mkPhdr 0x27FFE 6 6)).RC
      = some AieRC.XAIE_OK :=
  (WriteProgramSection_in_extent 8198 aieDev ⟨2, 1⟩ rampBytes (mkPhdr 0x27FFE 6 6) 15
    (by decide) (by decide) (by decide) (by decide) (by decide) (by decide) (by decide)
    (by decide) (by decide) (by decide) (by decide) (by decide) (by decide) (by decide)
    (by decide) (by decide) (by decide) (by decide) (by decide)).1


/-! ## Addresses written by the writer -/

/-- A tile returned by the resolver, for an origin with row and column below 255, is the
origin or next to it. -/
theorem GetTargetTileLoc_near {DevInst : XAie_DevInst} {Loc T : XAie_LocType} {a : Nat}
    (hrows : DevInst.NumRows < 256) (hcols : DevInst.NumCols < 256)
    (hrow : Loc.Row < 255) (hcol : Loc.Col < 255)
    (hT : _XAie_GetTargetTileLoc DevInst Loc a = .ok T) : T = Loc ∨ Adjacent Loc T := by
  obtain ⟨hTr, hTc, -, hbr⟩ := GetTargetTileLoc_ok hT
  rcases hbr with ⟨-, rfl⟩ | ⟨-, -, rfl⟩ | ⟨-, -, -, rfl⟩ | ⟨-, rfl⟩ | ⟨-, -, -, rfl⟩ |
    ⟨-, -, rfl⟩
  · right; right
    refine ⟨rfl, ?_⟩
    simp only [u8] at hTr ⊢
    omega
  · right; left
    refine ⟨rfl, ?_⟩
    simp only [u8] at hTc ⊢
    omega
  · exact Or.inl rfl
  · right; right
    refine ⟨rfl, ?_⟩
    simp only [u8] at hTr ⊢
    omega
  · right; left
    refine ⟨rfl, ?_⟩
    simp only [u8] at hTc ⊢
    omega
  · exact Or.inl rfl

theorem mem_writesOf {w : Nat × Nat} {t : List Event} :
    w ∈ writesOf t ↔ Event.write32 w.1 w.2 ∈ t := by
  induction t with
  | nil => simp [writesOf]
  | cons a t ih =>
    cases a with
    | resolve x => simp [writesOf, ih]
    | write32 x y =>
      simp only [writesOf, List.mem_cons, ih, Event.write32.injEq]
      constructor
      · rintro (h | h)
        · left; rw [h]; exact ⟨rfl, rfl⟩
        · right; exact h
      · rintro (⟨h1, h2⟩ | h)
        · left; exact Prod.ext h1 h2
        · right; exact h

/-- The calls of a word loop over `n ≤ 2 ^ 32 - 4` bytes, complete or not, are word writes
at `Addr + 4 * k` with `4 * k < n`. -/
theorem writeWords_writes (val : Nat → Nat → Nat) (Addr n : Nat) (hn : n ≤ 2 ^ 32 - 4) :
    ∀ (fuel j cnt : Nat), ∀ ev ∈ (writeWords val Addr n fuel (4 * j) cnt).2,
      ∃ k v, 4 * k < n ∧ ev = Event.write32 (u64 (Addr + 4 * k)) v := by
  intro fuel
  induction fuel with
  | zero =>
    intro j cnt ev hev
    simp [writeWords] at hev
  | succ f ih =>
    intro j cnt ev hev
    rw [writeWords] at hev
    by_cases hlt : 4 * j < n
    · have hu : u32 (4 * j + 4) = 4 * (j + 1) := by unfold u32; omega
      simp only [hlt, if_true, hu, List.mem_cons] at hev
      rcases hev with rfl | hev
      · exact ⟨j, _, hlt, rfl⟩
      · exact ih _ _ ev hev
    · simp [hlt] at hev

/-- The word writes of a `while` loop of the writer on word-aligned data that does not
reach the end of the 32-bit address space, however the loop is left: each one goes to
a word inside the data-memory window of a tile that the resolver has returned. -/
theorem sectionLoop_writes (DevInst : XAie_DevInst) (Loc : XAie_LocType)
    (word : Nat → Nat) (fuel e : Nat) (hB : DevInst.CoreMod.DataMemSize = 2 ^ e)
    (he : 2 ≤ e) (he' : e < 32) :
    ∀ (n S A off : Nat), S % 4 = 0 → A % 4 = 0 → A + S < 2 ^ 32 →
      ∀ w ∈ writesOf (sectionLoop DevInst Loc word fuel n S A off).2,
        ∃ T o A', _XAie_GetTargetTileLoc DevInst Loc A' = .ok T ∧
          w.1 = (DevInst.BaseAddr + DevInst.GetTileAddr T.Row T.Col + o) % 2 ^ 64 ∧
          o % 4 = 0 ∧ o + 4 ≤ 2 ^ e := by
  have hBlt : 2 ^ e < 2 ^ 32 := Nat.pow_lt_pow_right (by omega) he'
  have hBle : 2 ^ e ≤ 2 ^ 31 := Nat.pow_le_pow_right (by omega) (by omega)
  have hBpos : 0 < 2 ^ e := Nat.two_pow_pos e
  have h4B : 2 ^ e % 4 = 0 := by
    obtain ⟨d, rfl⟩ : ∃ d, e = d + 2 := ⟨e - 2, by omega⟩
    rw [pow_add]; omega
  have hmask : sub32 (2 ^ e) 1 = 2 ^ e - 1 := sub32_of_le (by omega) hBlt
  intro n
  induction n with
  | zero =>
    intro S A off _ _ _ w hw
    simp [sectionLoop, writesOf] at hw
  | succ n ih =>
    intro S A off h4S h4A hAS w hw
    by_cases hS : S = 0
    · subst hS
      rw [sectionLoop_empty] at hw
      simp [writesOf] at hw
    · have hSpos : S > 0 := Nat.pos_of_ne_zero hS
      have ho : A % 2 ^ e < 2 ^ e := Nat.mod_lt _ hBpos
      have hoA : A % 2 ^ e ≤ A := Nat.mod_le _ _
      have h4o : A % 2 ^ e % 4 = 0 := by
        have := Nat.mod_mod_of_dvd A (show 4 ∣ 2 ^ e from Nat.dvd_of_mod_eq_zero h4B)
        omega
      rw [sectionLoop] at hw
      simp only [hSpos, if_true] at hw
      cases hres : _XAie_GetTargetTileLoc DevInst Loc A with
      | error RC =>
        simp [hres, writesOf] at hw
      | ok T =>
        have hlen := bytesToWrite_eq S A e he' hSpos (by omega)
        simp only [hres, hB, hmask, Nat.and_pow_two_sub_one_eq_mod, hlen] at hw
        generalize hL : min S (2 ^ e - A % 2 ^ e) = L at hw
        have hL4 : L % 4 = 0 := by omega
        have hLS : L ≤ S := by omega
        have hLo : A % 2 ^ e + L ≤ 2 ^ e := by omega
        have hinner : ∀ ev ∈ (writeWords (fun _ cnt => word (off + 4 * cnt))
            (u64 (u64 (DevInst.BaseAddr + A % 2 ^ e) + DevInst.GetTileAddr T.Row T.Col))
            L fuel 0 0).2, ∃ k v, 4 * k < L ∧ ev = Event.write32
              (u64 (u64 (u64 (DevInst.BaseAddr + A % 2 ^ e)
                + DevInst.GetTileAddr T.Row T.Col) + 4 * k)) v :=
          writeWords_writes _ _ L (by omega) fuel 0 0
        have hfirst : Event.write32 w.1 w.2 ∈ (writeWords (fun _ cnt => word (off + 4 * cnt))
            (u64 (u64 (DevInst.BaseAddr + A % 2 ^ e) + DevInst.GetTileAddr T.Row T.Col))
            L fuel 0 0).2 →
            ∃ T o A', _XAie_GetTargetTileLoc DevInst Loc A' = .ok T ∧
              w.1 = (DevInst.BaseAddr + DevInst.GetTileAddr T.Row T.Col + o) % 2 ^ 64 ∧
              o % 4 = 0 ∧ o + 4 ≤ 2 ^ e := by
          intro hmem
          obtain ⟨k, v, hk, hev⟩ := hinner _ hmem
          injection hev with h1 _
          refine ⟨T, A % 2 ^ e + 4 * k, A, hres, ?_, by omega, by omega⟩
          rw [h1]
          simp only [u64, Nat.mod_add_mod]
          have e1 : DevInst.BaseAddr + A % 2 ^ e + DevInst.GetTileAddr T.Row T.Col + 4 * k
              = DevInst.BaseAddr + DevInst.GetTileAddr T.Row T.Col + (A % 2 ^ e + 4 * k) := by
            omega
          rw [e1]
        split_ifs at hw with hcomplete
        · simp only [writesOf, writesOf_append, List.mem_append] at hw
          rcases hw with hw | hw
          · exact hfirst (mem_writesOf.mp hw)
          · have h1 : sub32 S L = S - L := sub32_of_le hLS (by omega)
            have h2 : u32 (A + L) = A + L := by unfold u32; omega
            rw [h1, h2] at hw
            exact ih (S - L) (A + L) _ (by omega) (by omega) (by omega) w hw
        · simp only [writesOf] at hw
          exact hfirst (mem_writesOf.mp hw)

/-- The calls of the writer for a segment that is not in program memory are those of the
loop of the initialized section, followed or not by those of the loop of the
un-initialized section, or there are none. -/
theorem WriteProgramSection_trace_cases (fuel : Nat) (DevInst : XAie_DevInst)
    (Loc : XAie_LocType) (ProgSec : Nat → Nat) (Phdr : Elf32_Phdr)
    (hdata : DevInst.CoreMod.ProgMemSize ≤ Phdr.p_paddr) :
    (_XAie_WriteProgramSection fuel DevInst Loc ProgSec Phdr).Trace = [] ∨
    (_XAie_WriteProgramSection fuel DevInst Loc ProgSec Phdr).Trace =
      (sectionLoop DevInst Loc (load32 ProgSec) fuel fuel Phdr.p_filesz Phdr.p_paddr 0).2 ∨
    (_XAie_WriteProgramSection fuel DevInst Loc ProgSec Phdr).Trace =
      (sectionLoop DevInst Loc (load32 ProgSec) fuel fuel Phdr.p_filesz Phdr.p_paddr 0).2 ++
      (sectionLoop DevInst Loc (fun _ => 0) fuel fuel (sub32 Phdr.p_memsz Phdr.p_filesz)
        (u32 (Phdr.p_paddr + Phdr.p_filesz)) 0).2 := by
  have c1 : ¬ (Phdr.p_paddr < DevInst.CoreMod.ProgMemSize) := by omega
  simp only [_XAie_WriteProgramSection, c1, if_false]
  by_cases c2 : (Phdr.p_paddr > DevInst.CoreMod.ProgMemSize ∧
      Phdr.p_paddr < DevInst.CoreMod.DataMemAddr) ∨
      u32 (Phdr.p_paddr + Phdr.p_memsz) >
        u32 (DevInst.CoreMod.DataMemAddr + u32 (DevInst.CoreMod.DataMemSize * 4))
  · simp [c2]
  · simp only [c2, if_false]
    generalize sectionLoop DevInst Loc (load32 ProgSec) fuel fuel Phdr.p_filesz
      Phdr.p_paddr 0 = r1
    obtain ⟨x1, t1⟩ := r1
    generalize sectionLoop DevInst Loc (fun _ => 0) fuel fuel
      (sub32 Phdr.p_memsz Phdr.p_filesz) (u32 (Phdr.p_paddr + Phdr.p_filesz)) 0 = r2
    obtain ⟨x2, t2⟩ := r2
    cases x1 <;> cases x2 <;> simp

/-- The frame of the writer when no `u32` sum wraps: let the data-memory size `B` be a
power of two, at least 4; let the segment not be in program memory, with `p_paddr`,
`p_filesz` and `p_memsz` multiples of 4, `p_filesz ≤ p_memsz` and
`p_paddr + p_memsz < 2 ^ 32`; let the row and the column of the origin be below 255 and
the data-memory windows of the in-grid tiles lie in the 64-bit address space. Then,
under every loop bound and however the call ends, every word write of the writer has the
address `BaseAddr + GetTileAddr T + o` with `o` a multiple of 4, `o + 4 ≤ B` and `T` a
processing tile inside the grid that is the origin or next to it; and the writes leave
every byte outside the data-memory windows of these tiles as it was. -/
theorem WriteProgramSection_frame (fuel : Nat) (DevInst : XAie_DevInst)
    (Loc : XAie_LocType) (ProgSec : Nat → Nat) (Phdr : Elf32_Phdr) (e : Nat)
    (hB : DevInst.CoreMod.DataMemSize = 2 ^ e) (he : 2 ≤ e) (he' : e < 32)
    (hdata : DevInst.CoreMod.ProgMemSize ≤ Phdr.p_paddr)
    (h4a : Phdr.p_paddr % 4 = 0) (h4f : Phdr.p_filesz % 4 = 0)
    (h4m : Phdr.p_memsz % 4 = 0) (hle : Phdr.p_filesz ≤ Phdr.p_memsz)
    (hfit : Phdr.p_paddr + Phdr.p_memsz < 2 ^ 32)
    (hrows : DevInst.NumRows < 256) (hcols : DevInst.NumCols < 256)
    (hrow : Loc.Row < 255) (hcol : Loc.Col < 255)
    (haddr : ∀ T : XAie_LocType, T.Row < DevInst.NumRows → T.Col < DevInst.NumCols →
      DevInst.BaseAddr + 2 ^ e + DevInst.GetTileAddr T.Row T.Col ≤ 2 ^ 64) :
    (∀ w ∈ writesOf (_XAie_WriteProgramSection fuel DevInst Loc ProgSec Phdr).Trace,
      ∃ T o, w.1 = DevInst.BaseAddr + DevInst.GetTileAddr T.Row T.Col + o ∧
        o % 4 = 0 ∧ o + 4 ≤ DevInst.CoreMod.DataMemSize ∧
        T.Row < DevInst.NumRows ∧ T.Col < DevInst.NumCols ∧
        DevInst.GetTileTypefromLoc T = XAIEGBL_TILE_TYPE_AIETILE ∧
        (T = Loc ∨ Adjacent Loc T)) ∧
    (∀ (mem : Nat → Nat) (x : Nat),
      (∀ T o, T.Row < DevInst.NumRows → T.Col < DevInst.NumCols →
        DevInst.GetTileTypefromLoc T = XAIEGBL_TILE_TYPE_AIETILE →
        (T = Loc ∨ Adjacent Loc T) → o < DevInst.CoreMod.DataMemSize →
        x ≠ DevInst.BaseAddr + DevInst.GetTileAddr T.Row T.Col + o) →
      applyTrace (_XAie_WriteProgramSection fuel DevInst Loc ProgSec Phdr).Trace mem x
        = mem x) := by
  have hz : sub32 Phdr.p_memsz Phdr.p_filesz = Phdr.p_memsz - Phdr.p_filesz :=
    sub32_of_le hle (by omega)
  have hu : u32 (Phdr.p_paddr + Phdr.p_filesz) = Phdr.p_paddr + Phdr.p_filesz := by
    unfold u32; omega
  have w1 := sectionLoop_writes DevInst Loc (load32 ProgSec) fuel e hB he he' fuel
    Phdr.p_filesz Phdr.p_paddr 0 h4f h4a (by omega)
  have w2 := sectionLoop_writes DevInst Loc (fun _ => 0) fuel e hB he he' fuel
    (Phdr.p_memsz - Phdr.p_filesz) (Phdr.p_paddr + Phdr.p_filesz) 0 (by omega) (by omega)
    (by omega)
  have hall : ∀ w ∈ writesOf (_XAie_WriteProgramSection fuel DevInst Loc ProgSec Phdr).Trace,
      ∃ T o, w.1 = DevInst.BaseAddr + DevInst.GetTileAddr T.Row T.Col + o ∧
        o % 4 = 0 ∧ o + 4 ≤ DevInst.CoreMod.DataMemSize ∧
        T.Row < DevInst.NumRows ∧ T.Col < DevInst.NumCols ∧
        DevInst.GetTileTypefromLoc T = XAIEGBL_TILE_TYPE_AIETILE ∧
        (T = Loc ∨ Adjacent Loc T) := by
    intro w hw
    have hQ : ∃ T o A', _XAie_GetTargetTileLoc DevInst Loc A' = .ok T ∧
        w.1 = (DevInst.BaseAddr + DevInst.GetTileAddr T.Row T.Col + o) % 2 ^ 64 ∧
        o % 4 = 0 ∧ o + 4 ≤ 2 ^ e := by
      rcases WriteProgramSection_trace_cases fuel DevInst Loc ProgSec Phdr hdata with
        h | h | h
      · rw [h] at hw
        simp [writesOf] at hw
      · rw [h] at hw
        exact w1 w hw
      · rw [h, hz, hu, writesOf_append, List.mem_append] at hw
        rcases hw with hw | hw
        · exact w1 w hw
        · exact w2 w hw
    obtain ⟨T, o, A', hT, hw1, ho4, hoB⟩ := hQ
    obtain ⟨g1, g2, g3, -⟩ := GetTargetTileLoc_ok hT
    have := haddr T g1 g2
    refine ⟨T, o, ?_, ho4, by rw [hB]; exact hoB, g1, g2, g3,
      GetTargetTileLoc_near hrows hcols hrow hcol hT⟩
    rw [hw1, Nat.mod_eq_of_lt (by omega)]
  refine ⟨hall, ?_⟩
  intro mem x hx
  rw [applyTrace_eq_foldl]
  apply foldl_store32_frame
  intro w hw b hb
  obtain ⟨T, o, h1, h2, h3, g1, g2, g3, g4⟩ := hall w hw
  have := hx T (o + b) g1 g2 g3 g4 (by omega)
  omega

/-- An instance of the frame of the writer on `aieDev`, from the tile `(8, 1)` of the
top row: the segment of 8 bytes at `0x2FFFC` leaves the byte at address 0 as it was. -/
theorem WriteProgramSection_frame_witness :
    applyTrace (_XAie_WriteProgramSection 8 aieDev ⟨8, 1⟩ rampBytes
      (mkPhdr 0x2FFFC 8 8)).Trace (fun _ => 0xFF) 0 = 0xFF :=
  (WriteProgramSection_frame 8 aieDev ⟨8, 1⟩ rampBytes (mkPhdr 0x2FFFC 8 8) 15
    (by decide) (by decide) (by decide) (by decide) (by decide) (by decide) (by decide)
    (by decide) (by decide) (by decide) (by decide) (by decide) (by decide)
    (by
      intro T h1 h2
      have h1' : T.Row < 9 := h1
      have h2' : T.Col < 50 := h2
      rw [aieDev_GetTileAddr _ _ (by omega)]
      have : aieDev.BaseAddr = 0x20000000000 := rfl
      omega)).2 (fun _ => 0xFF) 0
    (by
      intro T o _ _ _ _ _
      have : aieDev.BaseAddr = 0x20000000000 := rfl
      omega)


/-! ## The frame of the writer at a wrapping segment -/

/-- The calls of a word loop over `n ≤ 2 ^ 32 - 4` bytes entered at `i = 4 * j`, complete
or not, are word writes at `Addr + 4 * k` with `j ≤ k` and `4 * k < n`. -/
theorem writeWords_writes_from (val : Nat → Nat → Nat) (Addr n : Nat)
    (hn : n ≤ 2 ^ 32 - 4) :
    ∀ (fuel j cnt : Nat), ∀ ev ∈ (writeWords val Addr n fuel (4 * j) cnt).2,
      ∃ k v, j ≤ k ∧ 4 * k < n ∧ ev = Event.write32 (u64 (Addr + 4 * k)) v := by
  intro fuel
  induction fuel with
  | zero =>
    intro j cnt ev hev
    simp [writeWords] at hev
  | succ f ih =>
    intro j cnt ev hev
    rw [writeWords] at hev
    by_cases hlt : 4 * j < n
    · have hu : u32 (4 * j + 4) = 4 * (j + 1) := by unfold u32; omega
      simp only [hlt, if_true, hu, List.mem_cons] at hev
      rcases hev with rfl | hev
      · exact ⟨j, _, Nat.le_refl _, hlt, rfl⟩
      · obtain ⟨k, v, h1, h2, h3⟩ := ih _ _ ev hev
        exact ⟨k, v, by omega, h2, h3⟩
    · simp [hlt] at hev

/-- The first two iterations of a word loop over more than 4 bytes. -/
theorem writeWords_two (val : Nat → Nat → Nat) (Addr n fuel : Nat) (hn : 4 < n) :
    writeWords val Addr n (fuel + 2) 0 0 =
      ((writeWords val Addr n fuel 8 2).1,
        Event.write32 (u64 (Addr + 0)) (val 0 0) ::
          Event.write32 (u64 (Addr + 4)) (val 4 1) ::
            (writeWords val Addr n fuel 8 2).2) := by
  have h0 : 0 < n := by omega
  have e1 : u32 (0 + 4) = 4 := by decide
  have e2 : u32 (4 + 4) = 8 := by decide
  rw [writeWords]
  simp only [h0, if_true, e1]
  rw [writeWords]
  simp only [hn, if_true, e2]

/-- The trace of the writer on `aieDev`, from the tile `(2, 1)`, for the segment with
`p_paddr = 0x27FFC` and `p_filesz = p_memsz = 0xFFFFFFFC`: the bounds check passes by
the wrap of the `u32` sum `p_paddr + p_memsz`, the resolver is called once, at `0x27FFC`,
and the only word loop entered is one loop over all `0xFFFFFFFC` bytes, from the last
word of the South bank on. -/
theorem WriteProgramSection_wrap_trace (fuel : Nat) (hf : 2 ≤ fuel) :
    (_XAie_WriteProgramSection fuel aieDev ⟨2, 1⟩ rampBytes
      (mkPhdr 0x27FFC 0xFFFFFFFC 0xFFFFFFFC)).Trace =
      Event.resolve 0x27FFC ::
        (writeWords (fun _ cnt => load32 rampBytes (0 + 4 * cnt)) 0x20000847FFC 0xFFFFFFFC
          fuel 0 0).2 := by
  obtain ⟨n, rfl⟩ : ∃ n, fuel = n + 2 := ⟨fuel - 2, by omega⟩
  have c1 : ¬ ((mkPhdr 0x27FFC 0xFFFFFFFC 0xFFFFFFFC).p_paddr < aieDev.CoreMod.ProgMemSize) := by
    decide
  have c2 : ¬ (((mkPhdr 0x27FFC 0xFFFFFFFC 0xFFFFFFFC).p_paddr > aieDev.CoreMod.ProgMemSize ∧
      (mkPhdr 0x27FFC 0xFFFFFFFC 0xFFFFFFFC).p_paddr < aieDev.CoreMod.DataMemAddr) ∨
      u32 ((mkPhdr 0x27FFC 0xFFFFFFFC 0xFFFFFFFC).p_paddr
        + (mkPhdr 0x27FFC 0xFFFFFFFC 0xFFFFFFFC).p_memsz) >
        u32 (aieDev.CoreMod.DataMemAddr + u32 (aieDev.CoreMod.DataMemSize * 4))) := by
    decide
  have hS : (mkPhdr 0x27FFC 0xFFFFFFFC 0xFFFFFFFC).p_filesz > 0 := by decide
  have hres : _XAie_GetTargetTileLoc aieDev ⟨2, 1⟩
      (mkPhdr 0x27FFC 0xFFFFFFFC 0xFFFFFFFC).p_paddr = .ok ⟨1, 1⟩ := by decide
  have hlen : sub32 (mkPhdr 0x27FFC 0xFFFFFFFC 0xFFFFFFFC).p_filesz
      (if u32 (((mkPhdr 0x27FFC 0xFFFFFFFC 0xFFFFFFFC).p_paddr
          &&& sub32 aieDev.CoreMod.DataMemSize 1)
          + (mkPhdr 0x27FFC 0xFFFFFFFC 0xFFFFFFFC).p_filesz) > aieDev.CoreMod.DataMemSize
        then sub32 (u32 (((mkPhdr 0x27FFC 0xFFFFFFFC 0xFFFFFFFC).p_paddr
          &&& sub32 aieDev.CoreMod.DataMemSize 1)
          + (mkPhdr 0x27FFC 0xFFFFFFFC 0xFFFFFFFC).p_filesz)) aieDev.CoreMod.DataMemSize
        else 0) = 0xFFFFFFFC := by decide
  have haddr : u64 (u64 (aieDev.BaseAddr + ((mkPhdr 0x27FFC 0xFFFFFFFC 0xFFFFFFFC).p_paddr
      &&& sub32 aieDev.CoreMod.DataMemSize 1)) + aieDev.GetTileAddr 1 1) = 0x20000847FFC := by
    decide
  have hrem : sub32 (mkPhdr 0x27FFC 0xFFFFFFFC 0xFFFFFFFC).p_filesz 0xFFFFFFFC = 0 := by
    decide
  have hzero : sub32 (mkPhdr 0x27FFC 0xFFFFFFFC 0xFFFFFFFC).p_memsz
      (mkPhdr 0x27FFC 0xFFFFFFFC 0xFFFFFFFC).p_filesz = 0 := by decide
  have hpa : (mkPhdr 0x27FFC 0xFFFFFFFC 0xFFFFFFFC).p_paddr = 0x27FFC := rfl
  have hloop : sectionLoop aieDev ⟨2, 1⟩ (load32 rampBytes) (n + 2) (n + 2)
      (mkPhdr 0x27FFC 0xFFFFFFFC 0xFFFFFFFC).p_filesz
      (mkPhdr 0x27FFC 0xFFFFFFFC 0xFFFFFFFC).p_paddr 0 =
      (if (writeWords (fun _ cnt => load32 rampBytes (0 + 4 * cnt)) 0x20000847FFC 0xFFFFFFFC
          (n + 2) 0 0).1 then LoopExit.done else LoopExit.fuel,
        Event.resolve 0x27FFC ::
          (writeWords (fun _ cnt => load32 rampBytes (0 + 4 * cnt)) 0x20000847FFC 0xFFFFFFFC
            (n + 2) 0 0).2) := by
    rw [sectionLoop]
    simp only [hS, if_true, hres, hlen, haddr, hrem, sectionLoop_empty]
    split <;> simp [hpa]
  have hempty := sectionLoop_empty aieDev ⟨2, 1⟩ (fun _ => 0) (n + 2) (n + 1)
    (u32 ((mkPhdr 0x27FFC 0xFFFFFFFC 0xFFFFFFFC).p_paddr
      + (mkPhdr 0x27FFC 0xFFFFFFFC 0xFFFFFFFC).p_filesz)) 0
  simp only [_XAie_WriteProgramSection, c1, c2, if_false, hloop, hzero, hempty]
  cases hw : (writeWords (fun _ cnt => load32 rampBytes (0 + 4 * cnt)) 0x20000847FFC
      0xFFFFFFFC (n + 2) 0 0).1
  · simp
  · simp

/-- C19 (the code at the failing input): on `aieDev` (`DataMemSize = 0x8000`), from the
in-grid processing tile `(2, 1)`, the data-memory segment with `p_paddr = 0x27FFC` and
`p_filesz = p_memsz = 0xFFFFFFFC`, all multiples of 4, passes the bounds check because
the `u32` sum `p_paddr + p_memsz` wraps to `0x27FF8`; the `u32` sum
`(SectionAddr & AddrMask) + SectionSize` wraps to `0x7FF8`, so no overflow of the bank
is seen and the word loop runs over the whole segment from the last word of the South
bank. Under every loop bound from 3 on, the second word write goes to
`BaseAddr + GetTileAddr(1, 1) + 0x8000`, the offset `0x8000 = DataMemSize` in the window
of the South tile; this address lies in the data-memory window of neither the origin nor
any of its four neighbours, and the byte there is changed from `0xFF` to `0x04`. -/
theorem WriteProgramSection_frame_wraps :
    aieDev.CoreMod.DataMemSize = 2 ^ 15 ∧
    aieDev.CoreMod.ProgMemSize ≤ (mkPhdr 0x27FFC 0xFFFFFFFC 0xFFFFFFFC).p_paddr ∧
    (mkPhdr 0x27FFC 0xFFFFFFFC 0xFFFFFFFC).p_paddr % 4 = 0 ∧
    (mkPhdr 0x27FFC 0xFFFFFFFC 0xFFFFFFFC).p_filesz % 4 = 0 ∧
    (mkPhdr 0x27FFC 0xFFFFFFFC 0xFFFFFFFC).p_memsz % 4 = 0 ∧
    (mkPhdr 0x27FFC 0xFFFFFFFC 0xFFFFFFFC).p_filesz
      ≤ (mkPhdr 0x27FFC 0xFFFFFFFC 0xFFFFFFFC).p_memsz ∧
    ((2 : Nat) < aieDev.NumRows ∧ (1 : Nat) < aieDev.NumCols ∧
      aieDev.GetTileTypefromLoc ⟨2, 1⟩ = XAIEGBL_TILE_TYPE_AIETILE) ∧
    (∀ d, ∃ rest,
      (_XAie_WriteProgramSection (d + 3) aieDev ⟨2, 1⟩ rampBytes
        (mkPhdr 0x27FFC 0xFFFFFFFC 0xFFFFFFFC)).Trace =
        Event.resolve 0x27FFC ::
          Event.write32 (aieDev.BaseAddr + aieDev.GetTileAddr 1 1 + 0x7FFC) 0x03020100 ::
          Event.write32 (aieDev.BaseAddr + aieDev.GetTileAddr 1 1 + 0x8000) 0x07060504 ::
          rest) ∧
    (∀ (T : XAie_LocType) (o : Nat), (T = ⟨2, 1⟩ ∨ Adjacent ⟨2, 1⟩ T) →
      o < aieDev.CoreMod.DataMemSize →
      aieDev.BaseAddr + aieDev.GetTileAddr 1 1 + 0x8000
        ≠ aieDev.BaseAddr + aieDev.GetTileAddr T.Row T.Col + o) ∧
    (∀ d, applyTrace
      (_XAie_WriteProgramSection (d + 3) aieDev ⟨2, 1⟩ rampBytes
        (mkPhdr 0x27FFC 0xFFFFFFFC 0xFFFFFFFC)).Trace (fun _ => 0xFF)
      (aieDev.BaseAddr + aieDev.GetTileAddr 1 1 + 0x8000) = 0x04) := by
  have hB0 : aieDev.BaseAddr + aieDev.GetTileAddr 1 1 = 0x20000840000 := by decide
  have htr : ∀ d, (_XAie_WriteProgramSection (d + 3) aieDev ⟨2, 1⟩ rampBytes
      (mkPhdr 0x27FFC 0xFFFFFFFC 0xFFFFFFFC)).Trace =
      Event.resolve 0x27FFC ::
        Event.write32 (aieDev.BaseAddr + aieDev.GetTileAddr 1 1 + 0x7FFC) 0x03020100 ::
        Event.write32 (aieDev.BaseAddr + aieDev.GetTileAddr 1 1 + 0x8000) 0x07060504 ::
        (writeWords (fun _ cnt => load32 rampBytes (0 + 4 * cnt)) 0x20000847FFC 0xFFFFFFFC
          (d + 1) 8 2).2 := by
    intro d
    rw [WriteProgramSection_wrap_trace (d + 3) (by omega),
      writeWords_two _ _ _ (d + 1) (by decide), hB0]
    have v0 : load32 rampBytes (0 + 4 * 0) = 0x03020100 := by decide
    have v1 : load32 rampBytes (0 + 4 * 1) = 0x07060504 := by decide
    have a0 : u64 (0x20000847FFC + 0) = 0x20000840000 + 0x7FFC := by decide
    have a1 : u64 (0x20000847FFC + 4) = 0x20000840000 + 0x8000 := by decide
    simp only [v0, v1, a0, a1]
  refine ⟨by decide, by decide, by decide, by decide, by decide, by decide, by decide,
    fun d => ⟨_, htr d⟩, ?_, ?_⟩
  · intro T o hT ho
    have hB : aieDev.CoreMod.DataMemSize = 0x8000 := rfl
    have hbase : aieDev.BaseAddr = 0x20000000000 := rfl
    rw [hB] at ho
    rw [hB0, hbase]
    obtain ⟨R, C⟩ := T
    simp only [Adjacent, XAie_LocType.mk.injEq] at hT
    have hR : R < 32 := by omega
    rw [aieDev_GetTileAddr R C hR]
    omega
  · intro d
    rw [htr d, hB0]
    generalize hrest : (writeWords (fun _ cnt => load32 rampBytes (0 + 4 * cnt))
      0x20000847FFC 0xFFFFFFFC (d + 1) 8 2).2 = rest
    simp only [applyTrace]
    rw [applyTrace_eq_foldl, foldl_store32_frame]
    · decide
    · intro w hw b hb
      rw [mem_writesOf, ← hrest] at hw
      obtain ⟨k, v, hk, hlt, hev⟩ := writeWords_writes_from _ 0x20000847FFC 0xFFFFFFFC
        (by decide) (d + 1) 2 2 _ hw
      injection hev with h1 h2
      rw [h1]
      unfold u64
      omega

/-! ## End to end -/

/-- The loop of the loader goes past `d` program headers that are not loadable without
a call of the writer. -/
theorem loadLoop_skips (fuel : Nat) (DevInst : XAie_DevInst) (Loc : XAie_LocType)
    (ElfMem : Nat → Nat) (hn : e_phnum ElfMem ≤ 255) :
    ∀ (d k phnum : Nat), phnum + d ≤ e_phnum ElfMem →
      (∀ i, phnum ≤ i → i < phnum + d → (phdrAt ElfMem i).p_type ≠ PT_LOAD) →
      (loadLoop fuel DevInst Loc ElfMem (k + d) phnum).RC =
        (loadLoop fuel DevInst Loc ElfMem k (phnum + d)).RC ∧
      (loadLoop fuel DevInst Loc ElfMem (k + d) phnum).Trace =
        (loadLoop fuel DevInst Loc ElfMem k (phnum + d)).Trace := by
  intro d
  induction d with
  | zero => intro k phnum _ _; exact ⟨rfl, rfl⟩
  | succ d ih =>
    intro k phnum hle hno
    have hu : u8 (phnum + 1) = phnum + 1 := u8_of_lt (by omega)
    rw [show k + (d + 1) = (k + d) + 1 by omega,
      loadLoop_skip fuel DevInst Loc ElfMem (k + d) phnum (by omega)
        (hno phnum (Nat.le_refl _) (by omega)), hu]
    have := ih k (phnum + 1) (by omega) (fun i h1 h2 => hno i (by omega) (by omega))
    rw [show phnum + 1 + d = phnum + (d + 1) by omega] at this
    exact this

theorem load32_shift (p : Nat → Nat) (o x : Nat) :
    load32 (fun i => p (o + i)) x = load32 p (o + x) := by
  simp [load32, Nat.add_assoc]

/-- The run of the writer for a data segment of 64 bytes from the file and 128 bytes in
memory at the base `4 * B` of the data memory, `B ≥ 128`: one chunk of 16 words from the
file and one chunk of 16 zero words, both in the South bank. -/
theorem WriteProgramSection_bss_run (fuel : Nat) (DevInst : XAie_DevInst)
    (Loc T : XAie_LocType) (ProgSec : Nat → Nat) (Phdr : Elf32_Phdr) (e : Nat)
    (hB : DevInst.CoreMod.DataMemSize = 2 ^ e) (he : 7 ≤ e)
    (hbase : DevInst.CoreMod.DataMemAddr = 4 * 2 ^ e)
    (hprog : DevInst.CoreMod.ProgMemSize ≤ DevInst.CoreMod.DataMemAddr)
    (hdev : DevInst.CoreMod.DataMemAddr + 4 * 2 ^ e < 2 ^ 32)
    (hpa : Phdr.p_paddr = DevInst.CoreMod.DataMemAddr)
    (hfs : Phdr.p_filesz = 64) (hms : Phdr.p_memsz = 128)
    (hT : ∀ a, a / 2 ^ e = 4 → _XAie_GetTargetTileLoc DevInst Loc a = .ok T)
    (hf : 2 ^ e / 4 + 2 < fuel) :
    _XAie_WriteProgramSection fuel DevInst Loc ProgSec Phdr =
      ⟨some AieRC.XAIE_OK,
        Event.resolve (4 * 2 ^ e) ::
          ((List.range 16).map (fun k =>
              Event.write32
                ((DevInst.BaseAddr + 0 + DevInst.GetTileAddr T.Row T.Col + 4 * k) % 2 ^ 64)
                (load32 ProgSec (4 * k))) ++
           Event.resolve (4 * 2 ^ e + 64) ::
            (List.range 16).map (fun k =>
              Event.write32
                ((DevInst.BaseAddr + 64 + DevInst.GetTileAddr T.Row T.Col + 4 * k) % 2 ^ 64)
                0))⟩ := by
  have hBpos : 0 < 2 ^ e := Nat.two_pow_pos e
  have hB128 : 128 ≤ 2 ^ e := by
    have : 2 ^ 7 ≤ 2 ^ e := Nat.pow_le_pow_right (by omega) he
    omega
  have he' : e < 32 := by
    by_contra hcon
    have : 2 ^ 32 ≤ 2 ^ e := Nat.pow_le_pow_right (by omega) (by omega)
    omega
  have hm0 : 4 * 2 ^ e % 2 ^ e = 0 := Nat.mul_mod_left _ _
  have hm64 : (4 * 2 ^ e + 64) % 2 ^ e = 64 := by
    rw [Nat.add_comm, Nat.add_mul_mod_self_right]
    exact Nat.mod_eq_of_lt (by omega)
  have hd0 : 4 * 2 ^ e / 2 ^ e = 4 := Nat.mul_div_cancel _ hBpos
  have hd64 : (4 * 2 ^ e + 64) / 2 ^ e = 4 := by
    rw [Nat.add_comm, Nat.add_mul_div_right _ _ hBpos, Nat.div_eq_of_lt (by omega)]
  obtain ⟨n, rfl⟩ : ∃ n, fuel = n + 2 := ⟨fuel - 2, by omega⟩
  have s1 := sectionLoop_step DevInst Loc T (load32 ProgSec) (n + 2) (n + 1) 64
    (4 * 2 ^ e) 0 e hB (by omega) he' (by omega) (by omega) (by omega) (by omega)
    (hT _ hd0) (by omega)
  have hmin1 : min 64 (2 ^ e - 4 * 2 ^ e % 2 ^ e) = 64 := by rw [hm0]; omega
  rw [hmin1, hm0, Nat.sub_self, sectionLoop_empty] at s1
  have s2 := sectionLoop_step DevInst Loc T (fun _ => 0) (n + 2) (n + 1) 64
    (4 * 2 ^ e + 64) 0 e hB (by omega) he' (by omega) (by omega) (by omega) (by omega)
    (hT _ hd64) (by omega)
  have hmin2 : min 64 (2 ^ e - (4 * 2 ^ e + 64) % 2 ^ e) = 64 := by rw [hm64]; omega
  rw [hmin2, hm64, Nat.sub_self, sectionLoop_empty] at s2
  have c1 : ¬ (4 * 2 ^ e < DevInst.CoreMod.ProgMemSize) := by omega
  have c2 : ¬ ((4 * 2 ^ e > DevInst.CoreMod.ProgMemSize ∧
      4 * 2 ^ e < 4 * 2 ^ e) ∨
      u32 (4 * 2 ^ e + 128) > u32 (4 * 2 ^ e + u32 (2 ^ e * 4))) := by
    unfold u32
    omega
  have hz : sub32 128 64 = 64 := by decide
  have hu : u32 (4 * 2 ^ e + 64) = 4 * 2 ^ e + 64 := by unfold u32; omega
  simp only [_XAie_WriteProgramSection, hpa, hfs, hms, hbase, hB, c1, c2, if_false, hz, hu,
    s1, s2]
  simp

/-- The loop of the loader over a table with exactly two loadable program headers, at
the indices `i1` and `i1 + 1 + d2`, whose runs of the writer succeed: it ends with
`XAIE_OK` and its trace is the trace of the first run followed by that of the second. -/
theorem loadLoop_two (fuel : Nat) (DevInst : XAie_DevInst) (Loc : XAie_LocType)
    (ElfMem : Nat → Nat) (i1 d2 d3 k : Nat)
    (hn : e_phnum ElfMem = i1 + 1 + d2 + 1 + d3) (hn255 : e_phnum ElfMem ≤ 255)
    (h1 : (phdrAt ElfMem i1).p_type = PT_LOAD)
    (h2 : (phdrAt ElfMem (i1 + 1 + d2)).p_type = PT_LOAD)
    (hothers : ∀ i, i < e_phnum ElfMem → i ≠ i1 → i ≠ i1 + 1 + d2 →
      (phdrAt ElfMem i).p_type ≠ PT_LOAD)
    (r1 : (sectionRun fuel DevInst Loc ElfMem i1).RC = some AieRC.XAIE_OK)
    (r2 : (sectionRun fuel DevInst Loc ElfMem (i1 + 1 + d2)).RC = some AieRC.XAIE_OK) :
    (loadLoop fuel DevInst Loc ElfMem (k + 1 + d3 + 1 + d2 + 1 + i1) 0).RC
      = some AieRC.XAIE_OK ∧
    (loadLoop fuel DevInst Loc ElfMem (k + 1 + d3 + 1 + d2 + 1 + i1) 0).Trace
      = (sectionRun fuel DevInst Loc ElfMem i1).Trace ++
        (sectionRun fuel DevInst Loc ElfMem (i1 + 1 + d2)).Trace := by
  have a := loadLoop_skips fuel DevInst Loc ElfMem hn255 i1 (k + 1 + d3 + 1 + d2 + 1) 0
    (by omega) (fun i _ hi => hothers i (by omega) (by omega) (by omega))
  rw [Nat.zero_add] at a
  have b := loadLoop_ok fuel DevInst Loc ElfMem (k + 1 + d3 + 1 + d2) i1 (by omega) h1 r1
  rw [u8_of_lt (show i1 + 1 < 256 by omega)] at b
  have c := loadLoop_skips fuel DevInst Loc ElfMem hn255 d2 (k + 1 + d3 + 1) (i1 + 1)
    (by omega) (fun i _ hi => hothers i (by omega) (by omega) (by omega))
  have d := loadLoop_ok fuel DevInst Loc ElfMem (k + 1 + d3) (i1 + 1 + d2) (by omega) h2 r2
  rw [u8_of_lt (show i1 + 1 + d2 + 1 < 256 by omega)] at d
  have g := loadLoop_skips fuel DevInst Loc ElfMem hn255 d3 (k + 1) (i1 + 1 + d2 + 1)
    (by omega) (fun i _ hi => hothers i (by omega) (by omega) (by omega))
  have z := loadLoop_end fuel DevInst Loc ElfMem k (i1 + 1 + d2 + 1 + d3) (by omega)
  rw [z] at g
  rw [a.1, a.2, b]
  simp only
  rw [c.1, c.2, d]
  simp only
  rw [g.1, g.2]
  simp

/-- C17 (amended): on a ready device with `ProgMemSize ≥ 256`, `DataMemSize = B` a power
of two `≥ 128`, data-memory base `4 * B`, program memory that ends at or below the
data-memory base and a data-memory window `[4 * B, 8 * B)` below `2 ^ 32`, for a
processing-tile origin in the grid whose South neighbour is an in-grid processing tile,
a binary with at most 255 segments of which exactly two are loadable - first a program
segment (`p_paddr = 0`, `p_memsz = 256`, of which the writer copies all 256 bytes from
the file whatever `p_filesz` is), then a data segment
(`p_paddr = 4 * B`, `p_filesz = 64`, `p_memsz = 128`) - is loaded with `XAIE_OK`, given
fuel for the loops, by exactly 96 word writes: 64 words from the bytes of the program
segment at the program memory of the origin, 16 words from the bytes of the data segment
and then 16 zero words, both at the South tile. -/
theorem LoadElfMem_end_to_end (fuel : Nat) (Dev : XAie_DevInst) (Loc : XAie_LocType)
    (ElfMem : Nat → Nat) (ElfSz e i1 i2 : Nat)
    (hready : Dev.IsReady = XAIE_COMPONENT_IS_READY)
    (hP : 256 ≤ Dev.CoreMod.ProgMemSize)
    (hB : Dev.CoreMod.DataMemSize = 2 ^ e) (he : 7 ≤ e)
    (hbase : Dev.CoreMod.DataMemAddr = 4 * 2 ^ e)
    (hprog : Dev.CoreMod.ProgMemSize ≤ Dev.CoreMod.DataMemAddr)
    (hdev : Dev.CoreMod.DataMemAddr + 4 * 2 ^ e < 2 ^ 32)
    (hrows : Dev.NumRows < 256)
    (hr1 : 1 ≤ Loc.Row) (hr : Loc.Row < Dev.NumRows) (hc : Loc.Col < Dev.NumCols)
    (t0 : Dev.GetTileTypefromLoc Loc = XAIEGBL_TILE_TYPE_AIETILE)
    (tS : Dev.GetTileTypefromLoc ⟨Loc.Row - 1, Loc.Col⟩ = XAIEGBL_TILE_TYPE_AIETILE)
    (hn : e_phnum ElfMem ≤ 255) (h12 : i1 < i2) (h2n : i2 < e_phnum ElfMem)
    (ht1 : (phdrAt ElfMem i1).p_type = PT_LOAD)
    (hpa1 : (phdrAt ElfMem i1).p_paddr = 0)
    (hms1 : (phdrAt ElfMem i1).p_memsz = 256)
    (ht2 : (phdrAt ElfMem i2).p_type = PT_LOAD)
    (hpa2 : (phdrAt ElfMem i2).p_paddr = Dev.CoreMod.DataMemAddr)
    (hfs2 : (phdrAt ElfMem i2).p_filesz = 64)
    (hms2 : (phdrAt ElfMem i2).p_memsz = 128)
    (hothers : ∀ i, i < e_phnum ElfMem → i ≠ i1 → i ≠ i2 →
      (phdrAt ElfMem i).p_type ≠ PT_LOAD)
    (hf : e_phnum ElfMem + 2 ^ e / 4 + 64 < fuel) :
    (XAie_LoadElfMem fuel (some Dev) Loc (some ElfMem) ElfSz).RC = some AieRC.XAIE_OK ∧
    writesOf (XAie_LoadElfMem fuel (some Dev) Loc (some ElfMem) ElfSz).Trace =
      (List.range 64).map (fun k =>
          ((Dev.BaseAddr + Dev.CoreMod.ProgMemHostOffset + 0
              + Dev.GetTileAddr Loc.Row Loc.Col + 4 * k) % 2 ^ 64,
            load32 ElfMem ((phdrAt ElfMem i1).p_offset + 4 * k))) ++
        ((List.range 16).map (fun k =>
          ((Dev.BaseAddr + 0 + Dev.GetTileAddr (Loc.Row - 1) Loc.Col + 4 * k) % 2 ^ 64,
            load32 ElfMem ((phdrAt ElfMem i2).p_offset + 4 * k))) ++
         (List.range 16).map (fun k =>
          ((Dev.BaseAddr + 64 + Dev.GetTileAddr (Loc.Row - 1) Loc.Col + 4 * k) % 2 ^ 64,
            0))) ∧
    (writesOf (XAie_LoadElfMem fuel (some Dev) Loc (some ElfMem) ElfSz).Trace).length
      = 96 := by
  have hT : ∀ a, a / 2 ^ e = 4 →
      _XAie_GetTargetTileLoc Dev Loc a = .ok ⟨Loc.Row - 1, Loc.Col⟩ := by
    intro a ha
    have hS : u8 (Loc.Row + 255) = Loc.Row - 1 := u8_pred hr1 (by omega)
    have g3 : ¬ (Dev.NumRows ≤ Loc.Row - 1) := by omega
    have g2 : ¬ (Dev.NumCols ≤ Loc.Col) := by omega
    obtain ⟨R, C⟩ := Loc
    simp only at *
    simp [_XAie_GetTargetTileLoc, hB, ha, u8_of_lt, hS, tS, g3, g2]
  have run1 := WriteProgramSection_progmem_run fuel Dev Loc
    (fun k => ElfMem ((phdrAt ElfMem i1).p_offset + k)) (phdrAt ElfMem i1)
    (by rw [hpa1]; omega) (by rw [hpa1, hms1]; unfold u32; omega) (by rw [hms1]; omega)
    (by rw [hms1]; omega)
  rw [hms1, hpa1] at run1
  have run2 := WriteProgramSection_bss_run fuel Dev Loc ⟨Loc.Row - 1, Loc.Col⟩
    (fun k => ElfMem ((phdrAt ElfMem i2).p_offset + k)) (phdrAt ElfMem i2) e hB he hbase
    hprog hdev hpa2 hfs2 hms2 hT (by omega)
  obtain ⟨d2, rfl⟩ : ∃ d2, i2 = i1 + 1 + d2 := ⟨i2 - i1 - 1, by omega⟩
  obtain ⟨d3, hd3⟩ : ∃ d3, e_phnum ElfMem = i1 + 1 + d2 + 1 + d3 :=
    ⟨e_phnum ElfMem - (i1 + 1 + d2) - 1, by omega⟩
  obtain ⟨k, hk⟩ : ∃ k, fuel = k + 1 + d3 + 1 + d2 + 1 + i1 :=
    ⟨fuel - e_phnum ElfMem - 1, by omega⟩
  have two := loadLoop_two fuel Dev Loc ElfMem i1 d2 d3 k hd3 hn ht1 ht2 hothers
    (by unfold sectionRun; rw [run1]) (by unfold sectionRun; rw [run2])
  rw [← hk] at two
  have hload : XAie_LoadElfMem fuel (some Dev) Loc (some ElfMem) ElfSz =
      loadLoop fuel Dev Loc ElfMem fuel 0 := by
    simp [XAie_LoadElfMem, hready, t0]
  have htrace : writesOf (XAie_LoadElfMem fuel (some Dev) Loc (some ElfMem) ElfSz).Trace =
      (List.range 64).map (fun k =>
          ((Dev.BaseAddr + Dev.CoreMod.ProgMemHostOffset + 0
              + Dev.GetTileAddr Loc.Row Loc.Col + 4 * k) % 2 ^ 64,
            load32 ElfMem ((phdrAt ElfMem i1).p_offset + 4 * k))) ++
        ((List.range 16).map (fun k =>
          ((Dev.BaseAddr + 0 + Dev.GetTileAddr (Loc.Row - 1) Loc.Col + 4 * k) % 2 ^ 64,
            load32 ElfMem ((phdrAt ElfMem (i1 + 1 + d2)).p_offset + 4 * k))) ++
         (List.range 16).map (fun k =>
          ((Dev.BaseAddr + 64 + Dev.GetTileAddr (Loc.Row - 1) Loc.Col + 4 * k) % 2 ^ 64,
            0))) := by
    rw [hload, two.2]
    unfold sectionRun
    rw [run1, run2]
    simp only [writesOf_append, writesOf, writesOf_map_write32, load32_shift]
    rfl
  refine ⟨by rw [hload]; exact two.1, htrace, ?_⟩
  rw [htrace]
  simp

/-- C17 (counterexample): `overlapDev` is ready, has `ProgMemSize = 0x5000 ≥ 256`,
`DataMemSize = 0x1000 = 2 ^ 12` and data-memory base `0x4000 = 4 * DataMemSize`; the
origin `(2, 1)` and its four neighbours are in-grid processing tiles. For the binary
`elfTwo 0x4000` the loader returns `XAIE_OK` after 96 word writes, but the data segment
at `0x4000 < ProgMemSize` is written as program memory: the 81st write carries the file
bytes `0x40 0x41 0x42 0x43` at offset 64 of the segment, not zero. -/
theorem LoadElfMem_end_to_end_counterexample :
    overlapDev.IsReady = XAIE_COMPONENT_IS_READY ∧
    256 ≤ overlapDev.CoreMod.ProgMemSize ∧
    overlapDev.CoreMod.DataMemSize = 2 ^ 12 ∧
    overlapDev.CoreMod.DataMemAddr = 4 * overlapDev.CoreMod.DataMemSize ∧
    (XAie_LoadElfMem 70 (some overlapDev) ⟨2, 1⟩ (some (elfTwo 0x4000)) 0x300).RC
      = some AieRC.XAIE_OK ∧
    (writesOf
      (XAie_LoadElfMem 70 (some overlapDev) ⟨2, 1⟩ (some (elfTwo 0x4000)) 0x300).Trace).length
      = 96 ∧
    ((writesOf
      (XAie_LoadElfMem 70 (some overlapDev) ⟨2, 1⟩ (some (elfTwo 0x4000)) 0x300).Trace).map
        Prod.snd).get? 80 = some 0x43424140 := by
  set_option maxRecDepth 100000 in decide

/-- Witness of C17: `aieDev`, the tile `(2, 1)` and the binary `elfTwo 0x20000`, whose
data segment lies at the data-memory base `0x20000 = 4 * 0x8000`. -/
theorem LoadElfMem_end_to_end_witness :
    (XAie_LoadElfMem 8259 (some aieDev) ⟨2, 1⟩ (some (elfTwo 0x20000)) 0x300).RC
      = some AieRC.XAIE_OK ∧
    (writesOf
      (XAie_LoadElfMem 8259 (some aieDev) ⟨2, 1⟩ (some (elfTwo 0x20000)) 0x300).Trace).length
      = 96 :=
  have h := LoadElfMem_end_to_end 8259 aieDev ⟨2, 1⟩ (elfTwo 0x20000) 0x300 15 0 1
    (by decide) (by decide) (by decide) (by decide) (by decide) (by decide) (by decide)
    (by decide) (by decide) (by decide) (by decide) (by decide) (by decide) (by decide)
    (by decide) (by decide) (by decide) (by decide) (by decide) (by decide) (by decide)
    (by decide) (by decide)
    (fun i hi h0 h1 => by
      have : e_phnum (elfTwo 0x20000) = 2 := by decide
      omega)
    (by decide)
  ⟨h.1, h.2.2⟩

end XAie
